import Mathlib

/-!
# Verification of the esdf-vis incremental ESDF builder

Shallow embedding of the core data model and algorithms of the `esdf-vis`
repository (grid indexing in `src/core/index.rs`, voxel and layer model in
`src/core/{voxel,layer,block}.rs`, the CPU ESDF integrator in
`src/integrators/esdf.rs`, and phases 1-4 of the GPU integrator in
`src/integrators/esdf_gpu.rs`), together with proofs and refutations of the
specification's claims about them.

Machine integers are modelled as `ℤ` / `ℕ` with explicit wrapping
(`% 2^32`, `% 2^64`) where the Rust code wraps (`as i32` casts,
`wrapping_mul` / `overflowing_add` in `deco_hash`).  The `f32` scalar
(`Real`) is modelled as `ℚ`; distances, weights and voxel sizes in the
claims are exact small rationals, for which `f32` arithmetic is exact.
-/

namespace EsdfVis

/-- Block indices are `i32` triples (`BlockIndex` in `src/core/index.rs`). -/
abbrev BIdx := ℤ × ℤ × ℤ

/-- Global voxel indices are `i64` triples (`GlobalIndex`). -/
abbrev GIdx := ℤ × ℤ × ℤ

/-- Reinterpret an `i32`/`i64` value as `u64` the way a Rust `as u64` cast
does: sign-extension, i.e. reduction mod `2^64`. -/
def toU64 (x : ℤ) : ℕ := (x % (2 ^ 64 : ℤ)).toNat

/-- Wrap an integer to the `i32` range, the effect of a Rust `as i32` cast. -/
def wrapI32 (x : ℤ) : ℤ := (x + 2 ^ 31) % 2 ^ 32 - 2 ^ 31

/-- `x` lies in the `i32` range. -/
def isI32 (x : ℤ) : Prop := -(2 ^ 31) ≤ x ∧ x < 2 ^ 31

instance (x : ℤ) : Decidable (isI32 x) := by unfold isI32; infer_instance

/-- The DECO spatial-hash multiplier (`SL` in `BlockIndex::deco_hash`). -/
def decoSL : ℕ := 17191

/-- `BlockIndex::deco_hash` (src/core/index.rs:259-278): locality-preserving
hash `x + y*17191 + z*17191^2` computed in wrapping `u64` arithmetic on the
sign-extended `i32` components. -/
def deco_hash (b : BIdx) : ℕ :=
  (toU64 b.1 +
    (toU64 b.2.1 * decoSL % 2 ^ 64 + toU64 b.2.2 * (decoSL * decoSL) % 2 ^ 64) % 2 ^ 64)
  % 2 ^ 64

/-- `Ord for BlockIndex` (src/core/index.rs:281-285): block indices are
compared by comparing their `deco_hash` values. -/
def blockIndexCmp (a b : BIdx) : Ordering := compare (deco_hash a) (deco_hash b)

/-- `GlobalIndex::block_index` (src/core/index.rs:77-83): componentwise
Euclidean division by `VPS`, with the `i64` quotient cast to `i32`
(a wrapping cast). -/
def block_index (vps : ℕ) (g : GIdx) : BIdx :=
  (wrapI32 (Int.ediv g.1 vps), wrapI32 (Int.ediv g.2.1 vps), wrapI32 (Int.ediv g.2.2 vps))

/-- `GlobalIndex::local_voxel_index` (src/core/index.rs:85-91): componentwise
Euclidean remainder by `VPS` (always in `[0, VPS)`), cast to `usize`. -/
def local_voxel_index (vps : ℕ) (g : GIdx) : ℕ × ℕ × ℕ :=
  ((Int.emod g.1 vps).toNat, (Int.emod g.2.1 vps).toNat, (Int.emod g.2.2 vps).toNat)

/-- `GlobalIndex::from_block_and_voxel_index` (src/core/index.rs:63-71):
`G = B * VPS + V` componentwise, computed in `i64`. -/
def from_block_and_voxel_index (vps : ℕ) (b : BIdx) (v : ℕ × ℕ × ℕ) : GIdx :=
  (b.1 * vps + v.1, b.2.1 * vps + v.2.1, b.2.2 * vps + v.2.2)

/-! ## Voxels, blocks, layers (src/core/voxel.rs, block.rs, layer.rs)

Only the flag bits that the integrators read or write are modelled
(`Observed`, `Fixed`, `HasSiteIndex`, `Updated`); the `Spilled*` bits are
reserved and never touched by any code under `src/`. -/

structure EsdfFlags where
  observed : Bool
  fixed : Bool
  hasSiteIndex : Bool
  updated : Bool
  deriving DecidableEq, Repr

/-- The empty flag set (`EsdfFlags::empty()` / `Default`). -/
def emptyFlags : EsdfFlags := ⟨false, false, false, false⟩

/-- ESDF voxel (`Esdf` in src/core/voxel.rs): distance, flags, site block
index; the `_pad` bytes carry no information and are omitted. -/
structure EsdfVoxel where
  distance : ℚ
  flags : EsdfFlags
  site_block_index : BIdx
  deriving DecidableEq, Repr

/-- The default ESDF voxel (distance 0, no flags, site `[0,0,0]`). -/
def defaultEsdf : EsdfVoxel := ⟨0, emptyFlags, (0, 0, 0)⟩

/-- TSDF voxel (`Tsdf` in src/core/voxel.rs). -/
structure TsdfVoxel where
  distance : ℚ
  weight : ℚ
  deriving DecidableEq, Repr

def defaultTsdf : TsdfVoxel := ⟨0, 0⟩

/-- A block's voxel storage: `VPS³` voxels in x-fastest row-major order
(`VoxelStorage` behind the block's lock; the lock itself is irrelevant in
this single-threaded model).  The fixed-size array is modelled as a map
from linear index to voxel; all code accesses it at indices `< VPS³`. -/
abbrev BlockVox := List EsdfVoxel

abbrev TsdfBlock := List TsdfVoxel

/-- Read one voxel of a block (array indexing; all reachable reads are
in range). -/
def blkGet (blk : BlockVox) (i : ℕ) : EsdfVoxel := blk.getD i defaultEsdf

def tblkGet (blk : TsdfBlock) (i : ℕ) : TsdfVoxel := blk.getD i defaultTsdf

/-- Write one voxel of a block (an indexed store into the voxel array). -/
def blkSet (blk : BlockVox) (i : ℕ) (v : EsdfVoxel) : BlockVox := blk.set i v

/-- `Block::lin_index_from_voxel_index`: `x + VPS*(y + z*VPS)`. -/
def linIdx (vps : ℕ) (p : ℕ × ℕ × ℕ) : ℕ := p.1 + vps * (p.2.1 + p.2.2 * vps)

/-- Sparse layer (`Layer<VoxelType, VPS>`): block map as an association
list with allocation-order insertion (the Rust `HashMap` iteration order is
arbitrary; no modelled operation depends on it), plus the voxel size. -/
structure EsdfLayer where
  voxelSize : ℚ
  blocks : List (BIdx × BlockVox)
  deriving DecidableEq, Repr

structure TsdfLayer where
  voxelSize : ℚ
  blocks : List (BIdx × TsdfBlock)
  deriving DecidableEq, Repr


/-- `Layer::block_by_index`: lookup by (componentwise) index equality. -/
def layerFind {α : Type} (bs : List (BIdx × α)) (b : BIdx) : Option α :=
  (bs.find? (fun p => decide (p.1 = b))).map Prod.snd

/-- The voxel stored at linear index `i` of block `b`, if `b` is allocated. -/
def voxelAt (l : EsdfLayer) (b : BIdx) (i : ℕ) : Option EsdfVoxel :=
  (layerFind l.blocks b).map (fun blk => blkGet blk i)

/-- Replace the block stored at an (allocated) index. -/
def layerSet {α : Type} (bs : List (BIdx × α)) (b : BIdx) (blk : α) : List (BIdx × α) :=
  bs.map (fun p => if p.1 = b then (b, blk) else p)

/-- A freshly allocated block: `VPS³` default voxels
(`VoxelStorage::default`). -/
def defaultEsdfBlock (vps : ℕ) : BlockVox := List.replicate (vps * vps * vps) defaultEsdf

/-- `Layer::allocate_block_by_index`: return the layer unchanged if the
block exists, otherwise add a default block. -/
def allocate_block_by_index (vps : ℕ) (l : EsdfLayer) (b : BIdx) : EsdfLayer :=
  if (layerFind l.blocks b).isSome then l
  else { l with blocks := l.blocks ++ [(b, defaultEsdfBlock vps)] }

/-! ## Sorted block-index sets (`BTreeSet<BlockIndex>`)

A `BTreeSet<BlockIndex<VPS>>` is ordered by `Ord for BlockIndex`, i.e. by
`deco_hash`.  It is modelled as a list sorted strictly by hash; an insert
whose hash collides with a stored element leaves the set unchanged (exactly
the `BTreeSet::insert` behaviour under this `Ord`), and `pop_first` is the
head of the list. -/

def bsetContains (s : List BIdx) (b : BIdx) : Bool :=
  s.any (fun a => decide (deco_hash a = deco_hash b))

def bsetInsert (s : List BIdx) (b : BIdx) : List BIdx :=
  match s with
  | [] => [b]
  | a :: rest =>
    if deco_hash b < deco_hash a then b :: a :: rest
    else if deco_hash b = deco_hash a then a :: rest
    else a :: bsetInsert rest b

def bsetOfList (l : List BIdx) : List BIdx := l.foldl bsetInsert []

/-! ## Neighbor enumeration (src/core/index.rs:144-189) -/

/-- `NEIGHBOUR_OFFSETS`: 26 offsets, faces first, then edges, then corners. -/
def neighborOffsets26 : List (ℤ × ℤ × ℤ) :=
  [(-1, 0, 0), (1, 0, 0), (0, -1, 0), (0, 1, 0), (0, 0, -1), (0, 0, 1),
   (-1, -1, 0), (-1, 1, 0), (1, -1, 0), (1, 1, 0),
   (-1, 0, -1), (-1, 0, 1), (1, 0, -1), (1, 0, 1),
   (0, -1, -1), (0, -1, 1), (0, 1, -1), (0, 1, 1),
   (-1, -1, -1), (-1, -1, 1), (-1, 1, -1), (-1, 1, 1),
   (1, -1, -1), (1, -1, 1), (1, 1, -1), (1, 1, 1)]

/-- `BlockIndex::neighbors()`: all 26 neighbors, in table order. -/
def neighbors26 (b : BIdx) : List BIdx :=
  neighborOffsets26.map (fun o => (b.1 + o.1, b.2.1 + o.2.1, b.2.2 + o.2.2))

/-- `BlockIndex::neighbors6()`: the first 6 entries (face neighbors). -/
def neighbors6 (b : BIdx) : List BIdx := (neighbors26 b).take 6

/-! ## CPU ESDF integrator (src/integrators/esdf.rs)

The model is faithful for `VPS ≥ 2`.  (For `VPS = 1` the Rust sweep indexes
out of bounds and panics; no claim concerns that degenerate size.)
Out-of-range list reads are expressed with `getD`/no-op `set`, which are
exercised only at in-range indices in every reachable call. -/

inductive OpDir
  | xPlus | xMinus | yPlus | yMinus | zPlus | zMinus
  deriving DecidableEq, Repr

/-- Sweep step direction (first component of the `match dir` table in
`sweep_block`). -/
def opStep : OpDir → ℤ
  | .xPlus => 1 | .xMinus => -1
  | .yPlus => 1 | .yMinus => -1
  | .zPlus => 1 | .zMinus => -1

/-- Axis permutation (`order` in `sweep_block` / `propagate_to_neighbour`). -/
def opOrder : OpDir → ℕ × ℕ × ℕ
  | .xPlus => (2, 1, 0) | .xMinus => (2, 1, 0)
  | .yPlus => (2, 0, 1) | .yMinus => (2, 0, 1)
  | .zPlus => (1, 0, 2) | .zMinus => (1, 0, 2)

/-- The three axis permutations that occur in the direction tables. -/
def goodOrder (order : ℕ × ℕ × ℕ) : Prop :=
  order = (2, 1, 0) ∨ order = (2, 0, 1) ∨ order = (1, 0, 2)

/-- Write component `i` of a coordinate triple (`p[order[k]] = v`). -/
def setComp (p : ℕ × ℕ × ℕ) (i : ℕ) (x : ℕ) : ℕ × ℕ × ℕ :=
  match i with
  | 0 => (x, p.2.1, p.2.2)
  | 1 => (p.1, x, p.2.2)
  | _ => (p.1, p.2.1, x)

/-- Build the voxel coordinate from sweep-loop variables `u`, `v`, `w`
(`p[order[0]]=u; p[order[1]]=v; p[order[2]]=w`). -/
def mkPos (order : ℕ × ℕ × ℕ) (u v w : ℕ) : ℕ × ℕ × ℕ :=
  setComp (setComp (setComp (0, 0, 0) order.1 u) order.2.1 v) order.2.2 w

/-- `create_range_chain` (src/integrators/esdf.rs:397-406). -/
def create_range_chain (a b : ℕ) : List ℕ :=
  if a ≤ b then List.range' a (b - a + 1) else (List.range' b (a - b + 1)).reverse

/-- The `w` range of a sweep: `1..=VPS-1` ascending for positive step,
`VPS-2..=0` descending otherwise. -/
def wRange (step : ℤ) (vps : ℕ) : List ℕ :=
  if 0 < step then create_range_chain 1 (vps - 1) else create_range_chain (vps - 2) 0

/-- The per-voxel relaxation rule of `sweep_block`
(src/integrators/esdf.rs:303-314): a Fixed parent relaxes a non-Observed
voxel; an unfixed voxel is fixed at `parent + voxel_size` and gains
`Fixed | HasSiteIndex`; a fixed voxel is overwritten only on strict
improvement. -/
def sweepVoxelRule (vs : ℚ) (parent voxel : EsdfVoxel) : EsdfVoxel :=
  if parent.flags.fixed && !voxel.flags.observed then
    if !voxel.flags.fixed then
      { voxel with
        distance := parent.distance + vs
        flags := { voxel.flags with fixed := true, hasSiteIndex := true }
        site_block_index := parent.site_block_index }
    else if voxel.distance > parent.distance + vs then
      { voxel with
        distance := parent.distance + vs
        site_block_index := parent.site_block_index }
    else voxel
  else voxel

/-- One iteration of the innermost sweep loop: read parent at
`w - step`, relax the voxel at `w`. -/
def sweepCell (vs : ℚ) (step : ℤ) (order : ℕ × ℕ × ℕ) (vps : ℕ)
    (blk : BlockVox) (c : ℕ × ℕ × ℕ) : BlockVox :=
  let pos := mkPos order c.1 c.2.1 c.2.2
  let ppos := setComp pos order.2.2 ((c.2.2 : ℤ) - step).toNat
  let parent := blkGet blk (linIdx vps ppos)
  let voxel := blkGet blk (linIdx vps pos)
  blkSet blk (linIdx vps pos) (sweepVoxelRule vs parent voxel)

/-- Sweep one `(u, v)` column of a block: the innermost `for w` loop. -/
def sweepRow (vs : ℚ) (step : ℤ) (order : ℕ × ℕ × ℕ) (vps : ℕ)
    (u v : ℕ) (ws : List ℕ) (blk : BlockVox) : BlockVox :=
  ws.foldl (fun b w => sweepCell vs step order vps b (u, v, w)) blk

/-- The three nested sweep loops of `sweep_block`
(`for u { for v { for w { ... } } }`). -/
def sweepPass (vs : ℚ) (step : ℤ) (order : ℕ × ℕ × ℕ) (vps : ℕ) (blk : BlockVox) : BlockVox :=
  (List.range vps).foldl
    (fun b u =>
      (List.range vps).foldl
        (fun b v => sweepRow vs step order vps u v (wRange step vps) b) b)
    blk

/-- `EsdfIntegrator::sweep_block` (src/integrators/esdf.rs:260-318); `none`
models the `unwrap` panic on a missing block. -/
def sweep_block (vps : ℕ) (dir : OpDir) (index : BIdx) (l : EsdfLayer) : Option EsdfLayer :=
  match layerFind l.blocks index with
  | none => none
  | some blk =>
    let blkNew := sweepPass l.voxelSize (opStep dir) (opOrder dir) vps blk
    some { l with blocks := layerSet l.blocks index blkNew }

/-- Neighbor block index for a propagation direction
(src/integrators/esdf.rs:327-334). -/
def nbIdx (dir : OpDir) (b : BIdx) : BIdx :=
  match dir with
  | .xPlus => (b.1 + 1, b.2.1, b.2.2) | .xMinus => (b.1 - 1, b.2.1, b.2.2)
  | .yPlus => (b.1, b.2.1 + 1, b.2.2) | .yMinus => (b.1, b.2.1 - 1, b.2.2)
  | .zPlus => (b.1, b.2.1, b.2.2 + 1) | .zMinus => (b.1, b.2.1, b.2.2 - 1)

/-- `(n_index, p_index)` face coordinates for a propagation direction
(src/integrators/esdf.rs:336-343). -/
def faceNP (vps : ℕ) : OpDir → ℕ × ℕ
  | .xPlus => (0, vps - 1) | .xMinus => (vps - 1, 0)
  | .yPlus => (0, vps - 1) | .yMinus => (vps - 1, 0)
  | .zPlus => (0, vps - 1) | .zMinus => (vps - 1, 0)

/-- The per-voxel write rule of `propagate_to_neighbour`
(src/integrators/esdf.rs:374-388), returning the written voxel and whether
a write happened.  Note: the branch that fixes a previously-unfixed voxel
inserts only `Fixed` (not `HasSiteIndex`). -/
def propVoxelRule (vs : ℚ) (pivot n : EsdfVoxel) : EsdfVoxel × Bool :=
  if pivot.flags.fixed && !n.flags.observed then
    if n.flags.fixed then
      if n.distance > pivot.distance + vs then
        ({ n with
            distance := pivot.distance + vs
            site_block_index := pivot.site_block_index }, true)
      else (n, false)
    else
      ({ n with
          distance := pivot.distance + vs
          flags := { n.flags with fixed := true }
          site_block_index := pivot.site_block_index }, true)
  else (n, false)

/-- One iteration of the face loop of `propagate_to_neighbour`: read the
pivot voxel at `p[order[2]] = p_index`, write the neighbor voxel at
`p[order[2]] = n_index`, or-accumulate the dirty flag. -/
def propCell (vs : ℚ) (order : ℕ × ℕ × ℕ) (np : ℕ × ℕ) (vps : ℕ) (pblk : BlockVox)
    (s : BlockVox × Bool) (c : ℕ × ℕ) : BlockVox × Bool :=
  let ppos := mkPos order c.1 c.2 np.2
  let npos := mkPos order c.1 c.2 np.1
  let pivotVoxel := blkGet pblk (linIdx vps ppos)
  let nVoxel := blkGet s.1 (linIdx vps npos)
  let r := propVoxelRule vs pivotVoxel nVoxel
  (blkSet s.1 (linIdx vps npos) r.1, s.2 || r.2)

/-- The two nested face loops of `propagate_to_neighbour`
(`for u { for v { ... } }`), starting from `dirty = false`. -/
def propPass (vs : ℚ) (order : ℕ × ℕ × ℕ) (np : ℕ × ℕ) (vps : ℕ)
    (pblk nblk : BlockVox) : BlockVox × Bool :=
  (List.range vps).foldl
    (fun s u => (List.range vps).foldl (fun s v => propCell vs order np vps pblk s (u, v)) s)
    (nblk, false)

/-- `EsdfIntegrator::propagate_to_neighbour`
(src/integrators/esdf.rs:320-394).  Returns the updated layer and
`some neighbourIndex` iff any voxel was written; a missing *neighbor* block
is silently skipped, a missing *pivot* block is the `unwrap` panic
(`none`). -/
def propagate_to_neighbour (vps : ℕ) (dir : OpDir) (pivot_index : BIdx) (l : EsdfLayer) :
    Option (EsdfLayer × Option BIdx) :=
  let nblock_index := nbIdx dir pivot_index
  match layerFind l.blocks nblock_index with
  | none => some (l, none)
  | some nblk =>
    match layerFind l.blocks pivot_index with
    | none => none
    | some pblk =>
      let r := propPass l.voxelSize (opOrder dir) (faceNP vps dir) vps pblk nblk
      some ({ l with blocks := layerSet l.blocks nblock_index r.1 },
        if r.2 then some nblock_index else none)

/-! ### update_blocks, phases 1-5 (src/integrators/esdf.rs:32-258) -/

/-- Phase 1: mirror-allocate every TSDF block in the ESDF layer
(src/integrators/esdf.rs:57-60). -/
def mirrorAllocate (vps : ℕ) (tsdf : TsdfLayer) (l : EsdfLayer) : EsdfLayer :=
  tsdf.blocks.foldl (fun l p => allocate_block_by_index vps l p.1) l

/-- Phase 2a: collect the site block indices referenced by voxels of the
updated blocks (src/integrators/esdf.rs:62-76); allocates each updated
block on access, like `allocate_block_by_index` in the source. -/
def collectSites (vps : ℕ) : List BIdx → EsdfLayer → List BIdx → EsdfLayer × List BIdx
  | [], l, sites => (l, sites)
  | b :: rest, l, sites =>
    let l1 := allocate_block_by_index vps l b
    let blk := (layerFind l1.blocks b).getD (defaultEsdfBlock vps)
    let sites1 := (List.range (vps * vps * vps)).foldl
      (fun s i =>
        let v := blkGet blk i
        if v.flags.hasSiteIndex then bsetInsert s v.site_block_index else s) sites
    collectSites vps rest l1 sites1

/-- Phase 2b: breadth-first expansion computing `blocks_to_clear` and the
preserved `dirty` blocks (src/integrators/esdf.rs:78-119).  `fuel` bounds
the number of pops; `none` models fuel exhaustion (the Rust loop always
terminates because `closed_list` grows within a finite universe). -/
def bfs (vps : ℕ) (l : EsdfLayer) (sites : List BIdx) :
    ℕ → List BIdx → List BIdx → List BIdx → List BIdx →
    Option (List BIdx × List BIdx)
  | _, [], _, btc, dirty => some (btc, dirty)
  | 0, _ :: _, _, _, _ => none
  | fuel + 1, index :: openRest, closedL, btc, dirty =>
    let closed1 := bsetInsert closedL index
    match layerFind l.blocks index with
    | none => bfs vps l sites fuel openRest closed1 btc dirty
    | some blk =>
      if (List.range (vps * vps * vps)).any
          (fun i =>
            (blkGet blk i).flags.hasSiteIndex &&
              bsetContains sites (blkGet blk i).site_block_index) then
        let btc1 := bsetInsert btc index
        let open1 := (neighbors6 index).foldl
          (fun o n =>
            if !bsetContains closed1 n && (layerFind l.blocks n).isSome
            then bsetInsert o n else o)
          openRest
        bfs vps l sites fuel open1 closed1 btc1 dirty
      else
        bfs vps l sites fuel openRest closed1 btc (bsetInsert dirty index)

/-- Phase 3: reset every block of `blocks_to_clear` to default voxels
(src/integrators/esdf.rs:121-136). -/
def resetBlocks (vps : ℕ) (btc : List BIdx) (l : EsdfLayer) : EsdfLayer :=
  btc.foldl
    (fun l b =>
      let l1 := allocate_block_by_index vps l b
      { l1 with blocks := layerSet l1.blocks b (defaultEsdfBlock vps) })
    l

/-- The per-voxel seeding rule of phase 4 (src/integrators/esdf.rs:144-158):
an observed TSDF voxel becomes a site with flags
`Fixed | Observed | HasSiteIndex` and its own block as site; otherwise the
voxel is cleared (all flags removed). -/
def seedEsdfVoxel (tv : TsdfVoxel) (ev : EsdfVoxel) (b : BIdx) : EsdfVoxel :=
  if 0 < tv.weight then
    { ev with
      distance := tv.distance
      flags := { ev.flags with fixed := true, observed := true, hasSiteIndex := true }
      site_block_index := b }
  else
    { ev with distance := 0, flags := emptyFlags }

/-- Seed one block from its TSDF counterpart (the inner `for (i, ...)` loop
of phase 4). -/
def seedBlock (vps : ℕ) (tblk : TsdfBlock) (eblk : BlockVox) (b : BIdx) : BlockVox :=
  (List.range (vps * vps * vps)).foldl
    (fun eb i => blkSet eb i (seedEsdfVoxel (tblkGet tblk i) (blkGet eb i) b))
    eblk

/-- Phase 4: transfer TSDF observations into the cleared blocks,
accumulating the dirty set (src/integrators/esdf.rs:138-159); `none`
models the `unwrap` panic when a block to clear has no TSDF block. -/
def transfer (vps : ℕ) (tsdf : TsdfLayer) :
    List BIdx → EsdfLayer → List BIdx → Option (EsdfLayer × List BIdx)
  | [], l, dirty => some (l, dirty)
  | b :: rest, l, dirty =>
    match layerFind tsdf.blocks b with
    | none => none
    | some tblk =>
      let l1 := allocate_block_by_index vps l b
      let eblk := (layerFind l1.blocks b).getD (defaultEsdfBlock vps)
      let l2 : EsdfLayer := { l1 with blocks := layerSet l1.blocks b (seedBlock vps tblk eblk b) }
      let dirty1 :=
        if (List.range (vps * vps * vps)).any (fun i => decide (0 < (tblkGet tblk i).weight))
        then bsetInsert dirty b else dirty
      transfer vps tsdf rest l2 dirty1

/-- Sweep all dirty blocks, four directions each, in set order
(src/integrators/esdf.rs:162-197). -/
def sweepAll (vps : ℕ) : List BIdx → EsdfLayer → Option EsdfLayer
  | [], l => some l
  | b :: rest, l => do
    let l ← sweep_block vps .xPlus b l
    let l ← sweep_block vps .xMinus b l
    let l ← sweep_block vps .yPlus b l
    let l ← sweep_block vps .yMinus b l
    sweepAll vps rest l

/-- Fold a propagation result into the next dirty set. -/
def addDirty (dirty : List BIdx) : Option BIdx → List BIdx
  | some i => bsetInsert dirty i
  | none => dirty

/-- Propagate all swept blocks across their four X/Y faces, collecting the
next dirty set (src/integrators/esdf.rs:199-251). -/
def propagateAll (vps : ℕ) : List BIdx → EsdfLayer → List BIdx → Option (EsdfLayer × List BIdx)
  | [], l, dirty => some (l, dirty)
  | b :: rest, l, dirty => do
    let r ← propagate_to_neighbour vps .xPlus b l
    let dirty := addDirty dirty r.2
    let r ← propagate_to_neighbour vps .xMinus b r.1
    let dirty := addDirty dirty r.2
    let r ← propagate_to_neighbour vps .yPlus b r.1
    let dirty := addDirty dirty r.2
    let r ← propagate_to_neighbour vps .yMinus b r.1
    let dirty := addDirty dirty r.2
    propagateAll vps rest r.1 dirty

/-- Phase 5: the outer iteration `while !dirty_blocks.is_empty()`
(src/integrators/esdf.rs:161-252), with explicit fuel; `none` is
fuel exhaustion. -/
def phase5 (vps : ℕ) : ℕ → List BIdx → EsdfLayer → Option EsdfLayer
  | _, [], l => some l
  | 0, _ :: _, _ => none
  | fuel + 1, dirty@(_ :: _), l => do
    let l1 ← sweepAll vps dirty l
    let r ← propagateAll vps dirty l1 []
    phase5 vps fuel r.2 r.1

/-- Result of phases 1-4: the seeded layer together with
`sites_to_clear`, `blocks_to_clear` and the dirty set. -/
structure Phase14Out where
  layer : EsdfLayer
  sites_to_clear : List BIdx
  blocks_to_clear : List BIdx
  dirty : List BIdx
  deriving DecidableEq, Repr

/-- Phases 1-4 of the CPU integrator. -/
def cpuPhase14 (vps : ℕ) (tsdf : TsdfLayer) (esdf : EsdfLayer) (updated : List BIdx)
    (fuel : ℕ) : Option Phase14Out := do
  let e1 := mirrorAllocate vps tsdf esdf
  let p := collectSites vps updated e1 []
  let r ← bfs vps p.1 p.2 fuel updated [] updated []
  let e3 := resetBlocks vps r.1 p.1
  let t ← transfer vps tsdf r.1 e3 r.2
  some ⟨t.1, p.2, r.1, t.2⟩

/-- `EsdfIntegrator::update_blocks` (src/integrators/esdf.rs:32-258):
phases 1-4 followed by the phase-5 loop.  `fuel` bounds both the BFS of
phase 2 and the outer loop of phase 5. -/
def update_blocks (vps : ℕ) (tsdf : TsdfLayer) (esdf : EsdfLayer) (updated : List BIdx)
    (fuel : ℕ) : Option EsdfLayer := do
  let r ← cpuPhase14 vps tsdf esdf updated fuel
  phase5 vps fuel r.dirty r.layer

/-- The voxel written by sweep relaxation into previously-unfixed space. -/
def rayVox (d : ℚ) (s : BIdx) : EsdfVoxel := ⟨d, ⟨false, true, true, false⟩, s⟩

/-! ## Scenario S1 (spec §8, claim C7): `VPS = 8`, `voxel_size = 1`, one
observed TSDF voxel at `G = (0,0,0)` with distance 0, `U = {(0,0,0)}`. -/

def zB : BIdx := ((0 : ℤ), (0 : ℤ), (0 : ℤ))

def s1TsdfBlock : TsdfBlock := (List.replicate 512 defaultTsdf).set 0 ⟨0, 1⟩

def s1Tsdf : TsdfLayer := ⟨1, [(zB, s1TsdfBlock)]⟩

def s1Esdf : EsdfLayer := ⟨1, []⟩

def s1U : List BIdx := [zB]

/-- The seeded site voxel: distance 0, `Fixed | Observed | HasSiteIndex`. -/
def obsVox : EsdfVoxel := ⟨0, ⟨true, true, true, false⟩, zB⟩

/-- The S1 block after phase 4. -/
def s1SeedBlk : BlockVox := seedBlock 8 s1TsdfBlock (defaultEsdfBlock 8) zB

/-- The S1 block after the four sweeps of the first (and only) iteration. -/
def s1B1 : BlockVox := sweepPass 1 1 (2, 1, 0) 8 s1SeedBlk

def s1B2 : BlockVox := sweepPass 1 (-1) (2, 1, 0) 8 s1B1

def s1B3 : BlockVox := sweepPass 1 1 (2, 0, 1) 8 s1B2

def s1B4 : BlockVox := sweepPass 1 (-1) (2, 0, 1) 8 s1B3

def s1SeedLayer : EsdfLayer := ⟨1, [(zB, s1SeedBlk)]⟩

def s1FinalLayer : EsdfLayer := ⟨1, [(zB, s1B4)]⟩

/-! ## GPU ESDF integrator, phases 1-4 (src/integrators/esdf_gpu.rs:35-148)

Phase 1 (mirror allocation) and phase 2a (site collection) are line-for-line
the CPU code; phase 2b and phase 4 differ. -/

/-- GPU phase 2a (src/integrators/esdf_gpu.rs:57-70): identical to the CPU
`collectSites`. -/
def gpuCollectSites (vps : ℕ) : List BIdx → EsdfLayer → List BIdx → EsdfLayer × List BIdx
  | [], l, sites => (l, sites)
  | b :: rest, l, sites =>
    let l1 := allocate_block_by_index vps l b
    let blk := (layerFind l1.blocks b).getD (defaultEsdfBlock vps)
    let sites1 := (List.range (vps * vps * vps)).foldl
      (fun s i =>
        let v := blkGet blk i
        if v.flags.hasSiteIndex then bsetInsert s v.site_block_index else s) sites
    gpuCollectSites vps rest l1 sites1

/-- GPU phase 2b (src/integrators/esdf_gpu.rs:72-106): unlike the CPU loop it
uses all 26 `neighbors()`, explores neighbours of *every* visited allocated
block (not only blocks marked for clearing), and collects no `dirty` set. -/
def gpuBfs (vps : ℕ) (l : EsdfLayer) (sites : List BIdx) :
    ℕ → List BIdx → List BIdx → List BIdx → Option (List BIdx)
  | _, [], _, btc => some btc
  | 0, _ :: _, _, _ => none
  | fuel + 1, index :: openRest, closedL, btc =>
    let closed1 := bsetInsert closedL index
    match layerFind l.blocks index with
    | none => gpuBfs vps l sites fuel openRest closed1 btc
    | some blk =>
      let btc1 :=
        if (List.range (vps * vps * vps)).any
            (fun i =>
              (blkGet blk i).flags.hasSiteIndex &&
                bsetContains sites (blkGet blk i).site_block_index) then
          bsetInsert btc index
        else btc
      let open1 := (neighbors26 index).foldl
        (fun o n =>
          if !bsetContains closed1 n && (layerFind l.blocks n).isSome
          then bsetInsert o n else o)
        openRest
      gpuBfs vps l sites fuel open1 closed1 btc1

/-- GPU phase 4 per-voxel seeding (src/integrators/esdf_gpu.rs:131-146): an
observed TSDF voxel gains only `Fixed | Observed` (no `HasSiteIndex`);
otherwise only `Fixed`, `Observed` and `HasSiteIndex` are removed (other
flags are kept, unlike the CPU reset to empty flags). -/
def gpuSeedEsdfVoxel (tv : TsdfVoxel) (ev : EsdfVoxel) (b : BIdx) : EsdfVoxel :=
  if 0 < tv.weight then
    { ev with
      distance := tv.distance
      flags := { ev.flags with fixed := true, observed := true }
      site_block_index := b }
  else
    { ev with
      distance := 0
      flags := { ev.flags with fixed := false, observed := false, hasSiteIndex := false } }

/-! ## Small scenarios for the propagation and seeding claims -/

/-- The X+ neighbor block index of the origin block. -/
def oneB : BIdx := ((1 : ℤ), (0 : ℤ), (0 : ℤ))

/-- Two `VPS = 1` blocks: a Fixed site voxel at the origin and a default
neighbor voxel. -/
def c1L : EsdfLayer := ⟨1, [(zB, [obsVox]), (oneB, [defaultEsdf])]⟩

/-- The voxel written into the neighbor by `propagate_to_neighbour` in the
`c1L` scenario: distance 1, `Fixed` only — no `HasSiteIndex`. -/
def c1Written : EsdfVoxel := ⟨1, ⟨false, true, false, false⟩, zB⟩

/-- A `VPS = 1` TSDF layer holding one observed voxel (weight 1). -/
def c2Tsdf : TsdfLayer := ⟨1, [(zB, [⟨0, 1⟩])]⟩

/-- Edge neighbor (1,1,0) and face neighbor (0,1,0) of the origin block. -/
def oneOneB : BIdx := ((1 : ℤ), (1 : ℤ), (0 : ℤ))

def zeroOneB : BIdx := ((0 : ℤ), (1 : ℤ), (0 : ℤ))

/-- C3 scenario: site-bearing blocks at the origin and at the edge-neighbor
(1,1,0), plus a site-free block at the face-neighbor (0,1,0). -/
def c3L : EsdfLayer :=
  ⟨1, [(zB, [rayVox 0 zB]), (oneOneB, [rayVox 0 zB]), (zeroOneB, [defaultEsdf])]⟩

/-- TSDF block for the C6 scenario (`VPS = 2`): observed voxels at local
(0,0,0) with distance 0 and (0,0,1) with distance 10. -/
def c6TsdfBlock : TsdfBlock :=
  [⟨0, 1⟩, ⟨0, 0⟩, ⟨0, 0⟩, ⟨0, 0⟩, ⟨10, 1⟩, ⟨0, 0⟩, ⟨0, 0⟩, ⟨0, 0⟩]

def c6Tsdf : TsdfLayer := ⟨1, [(zB, c6TsdfBlock)]⟩

/-- The terminated C6 update result. -/
def c6Final : EsdfLayer := (update_blocks 2 c6Tsdf ⟨1, []⟩ [zB] 4).getD ⟨1, []⟩

def c6Blk : BlockVox := (layerFind c6Final.blocks zB).getD []

def c6V : EsdfVoxel := (voxelAt c6Final zB (linIdx 2 (1, 0, 1))).getD defaultEsdf

def c6UVox : EsdfVoxel := (voxelAt c6Final zB (linIdx 2 (1, 0, 0))).getD defaultEsdf

/-- TSDF block for the second C6 scenario (`VPS = 2`): observed voxels at
local (0,0,0) with distance 0 and (1,0,0) with distance 100. -/
def c6bTsdfBlock : TsdfBlock :=
  [⟨0, 1⟩, ⟨100, 1⟩, ⟨0, 0⟩, ⟨0, 0⟩, ⟨0, 0⟩, ⟨0, 0⟩, ⟨0, 0⟩, ⟨0, 0⟩]

def c6bTsdf : TsdfLayer := ⟨1, [(zB, c6bTsdfBlock)]⟩

/-- The terminated second C6 update result. -/
def c6bFinal : EsdfLayer := (update_blocks 2 c6bTsdf ⟨1, []⟩ [zB] 4).getD ⟨1, []⟩

def c6bBlk : BlockVox := (layerFind c6bFinal.blocks zB).getD []

def c6bV : EsdfVoxel := (voxelAt c6bFinal zB (linIdx 2 (1, 1, 0))).getD defaultEsdf

def c6bU : EsdfVoxel := (voxelAt c6bFinal zB (linIdx 2 (0, 1, 0))).getD defaultEsdf

/-! ## Termination measure for the phase-5 loop (claim C9) -/

/-- Membership in the distance lattice `S + ℕ·vs`. -/
def latticeMem (S : List ℚ) (vs d : ℚ) : Prop := ∃ d₀ ∈ S, ∃ k : ℕ, d = d₀ + k * vs

/-- Number of lattice points generated by one base point that lie strictly
below `d`. -/
def phiD (S : List ℚ) (vs d : ℚ) : ℕ := (S.map (fun d₀ => ⌈(d - d₀) / vs⌉₊)).sum

def unfixedW (v : EsdfVoxel) : ℕ := if v.flags.fixed then 0 else 1

def unfixedB (blk : BlockVox) : ℕ := (blk.map unfixedW).sum

def phiB (S : List ℚ) (vs : ℚ) (blk : BlockVox) : ℕ :=
  (blk.map (fun v => phiD S vs v.distance)).sum

def unfixedL (l : EsdfLayer) : ℕ := (l.blocks.map (fun p => unfixedB p.2)).sum

def phiL (S : List ℚ) (vs : ℚ) (l : EsdfLayer) : ℕ :=
  (l.blocks.map (fun p => phiB S vs p.2)).sum

/-- Lexicographic comparison of (unfixed count, potential). -/
def mLt (a b : ℕ × ℕ) : Prop := a.1 < b.1 ∨ (a.1 = b.1 ∧ a.2 < b.2)

def mLe (a b : ℕ × ℕ) : Prop := a.1 < b.1 ∨ (a.1 = b.1 ∧ a.2 ≤ b.2)

/-- Block measure and layer measure. -/
def MB (S : List ℚ) (vs : ℚ) (blk : BlockVox) : ℕ × ℕ := (unfixedB blk, phiB S vs blk)

def ML (S : List ℚ) (vs : ℚ) (l : EsdfLayer) : ℕ × ℕ := (unfixedL l, phiL S vs l)

/-- All distances currently stored in the layer (the lattice base). -/
def distsL (l : EsdfLayer) : List ℚ :=
  l.blocks.flatMap (fun p => p.2.map EsdfVoxel.distance)

/-- Layer well-formedness carried through the phase-5 loop: fixed voxel size,
no duplicate block keys, full-size blocks, all distances on the lattice. -/
def GoodL (vps : ℕ) (S : List ℚ) (vs : ℚ) (l : EsdfLayer) : Prop :=
  l.voxelSize = vs ∧
  (l.blocks.map Prod.fst).Nodup ∧
  (∀ p ∈ l.blocks, (p.2 : BlockVox).length = vps * vps * vps) ∧
  (∀ p ∈ l.blocks, ∀ v ∈ (p.2 : BlockVox), latticeMem S vs v.distance)

/-! ## Theorems -/


theorem wrapI32_of_isI32 {x : ℤ} (h : isI32 x) : wrapI32 x = x := by
  obtain ⟨h1, h2⟩ := h
  unfold wrapI32
  rw [Int.emod_eq_of_lt (by omega) (by omega)]
  omega

theorem ediv_mul_add_emod_toNat (vps : ℕ) (hv : 0 < vps) (x : ℤ) :
    (Int.ediv x vps) * vps + ((Int.emod x vps).toNat : ℤ) = x := by
  have h : (vps : ℤ) * Int.ediv x vps + Int.emod x vps = x := Int.ediv_add_emod x vps
  have hnn : 0 ≤ Int.emod x vps := Int.emod_nonneg x (by exact_mod_cast hv.ne')
  rw [Int.toNat_of_nonneg hnn, mul_comm]
  omega

/-- **C4 (counterexample).** The round-trip
`from_block_and_voxel_index (block_index G) (local_voxel_index G) = G`
fails for global indices whose Euclidean quotient by `VPS` overflows `i32`:
with `VPS = 8` and `G = (2^34, 0, 0)` the quotient `2^31` wraps to `-2^31`
and the recombination yields `(-2^34, 0, 0) ≠ G`. -/
theorem C4_roundtrip_counterexample :
    from_block_and_voxel_index 8 (block_index 8 ((2 : ℤ) ^ 34, 0, 0))
        (local_voxel_index 8 ((2 : ℤ) ^ 34, 0, 0))
      ≠ ((2 : ℤ) ^ 34, 0, 0) := by decide

/-- **C4 (amended).** For every global index `G` whose componentwise Euclidean
quotient by `VPS` fits in `i32` (so the `as i32` cast in
`GlobalIndex::block_index` does not wrap), recombining block index and local
voxel index recovers `G`, for all sign combinations. -/
theorem C4_roundtrip (vps : ℕ) (hv : 0 < vps) (g : GIdx)
    (h1 : isI32 (Int.ediv g.1 vps)) (h2 : isI32 (Int.ediv g.2.1 vps))
    (h3 : isI32 (Int.ediv g.2.2 vps)) :
    from_block_and_voxel_index vps (block_index vps g) (local_voxel_index vps g) = g := by
  obtain ⟨x, y, z⟩ := g
  simp only [from_block_and_voxel_index, block_index, local_voxel_index]
  rw [wrapI32_of_isI32 h1, wrapI32_of_isI32 h2, wrapI32_of_isI32 h3]
  exact Prod.ext (ediv_mul_add_emod_toNat vps hv x)
    (Prod.ext (ediv_mul_add_emod_toNat vps hv y) (ediv_mul_add_emod_toNat vps hv z))

/-- **C4 (witness).** Concrete instance with negative coordinates:
`G = (-1, -4, -5)`, `VPS = 3` (the boundary example from the spec). -/
theorem C4_roundtrip_witness :
    from_block_and_voxel_index 3 (block_index 3 ((-1 : ℤ), (-4 : ℤ), (-5 : ℤ)))
        (local_voxel_index 3 ((-1 : ℤ), (-4 : ℤ), (-5 : ℤ)))
      = ((-1 : ℤ), (-4 : ℤ), (-5 : ℤ)) :=
  C4_roundtrip 3 (by decide) ((-1 : ℤ), (-4 : ℤ), (-5 : ℤ))
    (by decide) (by decide) (by decide)

/-- **C10 (counterexample).** `BlockIndex::cmp` is *not* consistent with
componentwise equality: the distinct block indices `(0,0,0)` and
`(17191, -1, 0)` (both in `i32` range) have equal `deco_hash`, so `cmp`
returns `Equal` and a sorted set keyed by this order conflates them. -/
theorem C10_cmp_counterexample :
    blockIndexCmp ((0 : ℤ), (0 : ℤ), (0 : ℤ)) ((17191 : ℤ), (-1 : ℤ), (0 : ℤ)) = .eq ∧
      ((0 : ℤ), (0 : ℤ), (0 : ℤ)) ≠ ((17191 : ℤ), (-1 : ℤ), (0 : ℤ)) := by decide

/-! ### Block access lemmas -/

theorem length_blkSet (blk : BlockVox) (i : ℕ) (v : EsdfVoxel) :
    (blkSet blk i v).length = blk.length := List.length_set blk i v

theorem blkGet_blkSet (blk : BlockVox) (i j : ℕ) (v : EsdfVoxel) :
    blkGet (blkSet blk i v) j =
      if j = i ∧ i < blk.length then v else blkGet blk j := by
  unfold blkGet blkSet
  by_cases hj : j = i
  · subst hj
    by_cases hi : j < blk.length
    · simp [List.getD_eq_getElem?_getD, List.getElem?_set_self hi, hi]
    · simp only [hi, and_false, if_false]
      rw [List.set_eq_of_length_le (by omega)]
  · simp [List.getD_eq_getElem?_getD, List.getElem?_set_ne (Ne.symm hj), hj]

theorem blkGet_blkSet_ne (blk : BlockVox) {i j : ℕ} (v : EsdfVoxel) (h : j ≠ i) :
    blkGet (blkSet blk i v) j = blkGet blk j := by
  rw [blkGet_blkSet]
  simp [h]

/-! ### Linear index and coordinate lemmas -/

theorem linIdx_lt (vps : ℕ) (p : ℕ × ℕ × ℕ)
    (h1 : p.1 < vps) (h2 : p.2.1 < vps) (h3 : p.2.2 < vps) :
    linIdx vps p < vps * vps * vps := by
  unfold linIdx
  nlinarith

theorem linIdx_inj (vps : ℕ) {p q : ℕ × ℕ × ℕ}
    (hp1 : p.1 < vps) (hp2 : p.2.1 < vps) (hp3 : p.2.2 < vps)
    (hq1 : q.1 < vps) (hq2 : q.2.1 < vps) (hq3 : q.2.2 < vps)
    (h : linIdx vps p = linIdx vps q) : p = q := by
  unfold linIdx at h
  have h1 : p.1 = q.1 := by
    have := congrArg (· % vps) h
    simpa [Nat.add_mul_mod_self_left, Nat.mod_eq_of_lt hp1, Nat.mod_eq_of_lt hq1] using this
  have hvps : 0 < vps := lt_of_le_of_lt (Nat.zero_le _) hp1
  have h2 : p.2.1 + p.2.2 * vps = q.2.1 + q.2.2 * vps := by
    have := congrArg (· / vps) h
    simpa [Nat.add_mul_div_left _ _ hvps, Nat.div_eq_of_lt hp1, Nat.div_eq_of_lt hq1] using this
  have h3 : p.2.1 = q.2.1 := by
    have := congrArg (· % vps) h2
    simpa [Nat.add_mul_mod_self_right, Nat.mod_eq_of_lt hp2, Nat.mod_eq_of_lt hq2] using this
  have h4 : p.2.2 = q.2.2 := by
    have := congrArg (· / vps) h2
    simpa [Nat.add_mul_div_right _ _ hvps, Nat.div_eq_of_lt hp2, Nat.div_eq_of_lt hq2] using this
  obtain ⟨a, b, c⟩ := p
  obtain ⟨d, e, f⟩ := q
  simp_all

theorem mkPos_210 (u v w : ℕ) : mkPos (2, 1, 0) u v w = (w, v, u) := rfl

theorem mkPos_201 (u v w : ℕ) : mkPos (2, 0, 1) u v w = (v, w, u) := rfl

theorem mkPos_102 (u v w : ℕ) : mkPos (1, 0, 2) u v w = (v, u, w) := rfl

theorem opOrder_good (dir : OpDir) : goodOrder (opOrder dir) := by
  cases dir <;> simp [goodOrder, opOrder]

theorem mkPos_bounds {order : ℕ × ℕ × ℕ} (ho : goodOrder order) {vps u v w : ℕ}
    (hu : u < vps) (hv : v < vps) (hw : w < vps) :
    (mkPos order u v w).1 < vps ∧ (mkPos order u v w).2.1 < vps ∧
      (mkPos order u v w).2.2 < vps := by
  rcases ho with h | h | h <;> subst h <;>
    simp [mkPos_210, mkPos_201, mkPos_102, hu, hv, hw]

theorem mkPos_linIdx_inj {order : ℕ × ℕ × ℕ} (ho : goodOrder order)
    {vps u v w u' v' w' : ℕ}
    (hu : u < vps) (hv : v < vps) (hw : w < vps)
    (hu' : u' < vps) (hv' : v' < vps) (hw' : w' < vps)
    (h : linIdx vps (mkPos order u v w) = linIdx vps (mkPos order u' v' w')) :
    u = u' ∧ v = v' ∧ w = w' := by
  have hb := mkPos_bounds ho hu hv hw
  have hb' := mkPos_bounds ho hu' hv' hw'
  have := linIdx_inj vps hb.1 hb.2.1 hb.2.2 hb'.1 hb'.2.1 hb'.2.2 h
  rcases ho with ho | ho | ho <;> subst ho <;>
    simp only [mkPos_210, mkPos_201, mkPos_102, Prod.mk.injEq] at this <;> tauto

/-! ### Sweep pass decomposition

A sweep cell writes only its own target index, and all reads of the cells
of one `(u, v)` column stay inside that column; hence the value of the
swept block at any position of a column equals the value obtained by
running that column's inner loop alone. -/

theorem setComp_setComp_same (p : ℕ × ℕ × ℕ) (i : ℕ) (x y : ℕ) :
    setComp (setComp p i x) i y = setComp p i y := by
  rcases i with _ | _ | i <;> rfl

theorem sweepCell_parent_pos (order : ℕ × ℕ × ℕ) (u v w : ℕ) (step : ℤ) :
    setComp (mkPos order u v w) order.2.2 ((w : ℤ) - step).toNat =
      mkPos order u v ((w : ℤ) - step).toNat := by
  unfold mkPos
  exact setComp_setComp_same _ _ _ _

theorem sweepCell_eq (vs : ℚ) (step : ℤ) (order : ℕ × ℕ × ℕ) (vps : ℕ)
    (blk : BlockVox) (u v w : ℕ) :
    sweepCell vs step order vps blk (u, v, w) =
      blkSet blk (linIdx vps (mkPos order u v w))
        (sweepVoxelRule vs
          (blkGet blk (linIdx vps (mkPos order u v ((w : ℤ) - step).toNat)))
          (blkGet blk (linIdx vps (mkPos order u v w)))) := by
  simp only [sweepCell]
  rw [sweepCell_parent_pos]

theorem length_sweepCell (vs : ℚ) (step : ℤ) (order : ℕ × ℕ × ℕ) (vps : ℕ)
    (blk : BlockVox) (c : ℕ × ℕ × ℕ) :
    (sweepCell vs step order vps blk c).length = blk.length := by
  unfold sweepCell
  exact length_blkSet _ _ _

theorem sweepRow_cons (vs : ℚ) (step : ℤ) (order : ℕ × ℕ × ℕ) (vps : ℕ)
    (u v w : ℕ) (rest : List ℕ) (blk : BlockVox) :
    sweepRow vs step order vps u v (w :: rest) blk =
      sweepRow vs step order vps u v rest (sweepCell vs step order vps blk (u, v, w)) := rfl

theorem length_sweepRow (vs : ℚ) (step : ℤ) (order : ℕ × ℕ × ℕ) (vps : ℕ)
    (u v : ℕ) (ws : List ℕ) (blk : BlockVox) :
    (sweepRow vs step order vps u v ws blk).length = blk.length := by
  induction ws generalizing blk with
  | nil => rfl
  | cons w rest ih =>
    rw [sweepRow_cons, ih, length_sweepCell]

theorem sweepRow_getD_ne (vs : ℚ) (step : ℤ) (order : ℕ × ℕ × ℕ) (vps : ℕ)
    (u v : ℕ) (ws : List ℕ) (blk : BlockVox) (j : ℕ)
    (h : ∀ w ∈ ws, j ≠ linIdx vps (mkPos order u v w)) :
    blkGet (sweepRow vs step order vps u v ws blk) j = blkGet blk j := by
  induction ws generalizing blk with
  | nil => rfl
  | cons w rest ih =>
    rw [sweepRow_cons, ih _ fun x hx => h x (List.mem_cons_of_mem _ hx)]
    rw [sweepCell_eq]
    exact blkGet_blkSet_ne _ _ (h w (List.mem_cons_self _ _))

theorem sweepRow_congrOn (vs : ℚ) (step : ℤ) (order : ℕ × ℕ × ℕ) (vps : ℕ)
    (u v : ℕ) (ws : List ℕ)
    (hws : ∀ w ∈ ws, w < vps ∧ ((w : ℤ) - step).toNat < vps)
    {blk1 blk2 : BlockVox} (hlen : blk1.length = blk2.length)
    (hag : ∀ w', w' < vps →
      blkGet blk1 (linIdx vps (mkPos order u v w')) =
        blkGet blk2 (linIdx vps (mkPos order u v w'))) :
    ∀ w', w' < vps →
      blkGet (sweepRow vs step order vps u v ws blk1) (linIdx vps (mkPos order u v w')) =
        blkGet (sweepRow vs step order vps u v ws blk2) (linIdx vps (mkPos order u v w')) := by
  induction ws generalizing blk1 blk2 with
  | nil => exact fun w' hw' => hag w' hw'
  | cons w rest ih =>
    intro w' hw'
    have hwb := hws w (List.mem_cons_self _ _)
    have hval :
        sweepVoxelRule vs
            (blkGet blk1 (linIdx vps (mkPos order u v ((w : ℤ) - step).toNat)))
            (blkGet blk1 (linIdx vps (mkPos order u v w))) =
          sweepVoxelRule vs
            (blkGet blk2 (linIdx vps (mkPos order u v ((w : ℤ) - step).toNat)))
            (blkGet blk2 (linIdx vps (mkPos order u v w))) := by
      rw [hag _ hwb.2, hag _ hwb.1]
    rw [sweepRow_cons, sweepRow_cons, sweepCell_eq, sweepCell_eq]
    refine ih (fun x hx => hws x (List.mem_cons_of_mem _ hx))
      (by rw [length_blkSet, length_blkSet, hlen]) ?_ w' hw'
    intro w'' hw''
    rw [blkGet_blkSet, blkGet_blkSet, ← hval, ← hlen]
    split
    · rfl
    · exact hag _ hw''

theorem foldl_sweepRow_frame (vs : ℚ) (step : ℤ) (order : ℕ × ℕ × ℕ) (vps : ℕ)
    (ws : List ℕ) (hws : ∀ w ∈ ws, w < vps)
    (ho : goodOrder order) {u0 v0 : ℕ} (hu0 : u0 < vps) (hv0 : v0 < vps)
    (rows : List (ℕ × ℕ)) (hrows : ∀ r ∈ rows, r.1 < vps ∧ r.2 < vps ∧ (r.1, r.2) ≠ (u0, v0))
    (blk : BlockVox) :
    ∀ w', w' < vps →
      blkGet (rows.foldl (fun b r => sweepRow vs step order vps r.1 r.2 ws b) blk)
          (linIdx vps (mkPos order u0 v0 w')) =
        blkGet blk (linIdx vps (mkPos order u0 v0 w')) := by
  induction rows generalizing blk with
  | nil => exact fun _ _ => rfl
  | cons r rest ih =>
    intro w' hw'
    rw [List.foldl_cons, ih (fun x hx => hrows x (List.mem_cons_of_mem _ hx)) _ w' hw']
    obtain ⟨hr1, hr2, hrne⟩ := hrows r (List.mem_cons_self _ _)
    refine sweepRow_getD_ne _ _ _ _ _ _ _ _ _ fun w hw heq => ?_
    obtain ⟨he1, he2, _⟩ :=
      mkPos_linIdx_inj ho hu0 hv0 hw' hr1 hr2 (hws w hw) heq
    exact hrne (by rw [← he1, ← he2])

theorem foldl_sweepRow_hit (vs : ℚ) (step : ℤ) (order : ℕ × ℕ × ℕ) (vps : ℕ)
    (ws : List ℕ) (hws : ∀ w ∈ ws, w < vps ∧ ((w : ℤ) - step).toNat < vps)
    (ho : goodOrder order) {u0 v0 : ℕ} (hu0 : u0 < vps) (hv0 : v0 < vps)
    (rows : List (ℕ × ℕ)) (hrows : ∀ r ∈ rows, r.1 < vps ∧ r.2 < vps)
    (hnd : rows.Nodup) (blk : BlockVox) :
    ∀ w', w' < vps →
      blkGet (rows.foldl (fun b r => sweepRow vs step order vps r.1 r.2 ws b) blk)
          (linIdx vps (mkPos order u0 v0 w')) =
        if (u0, v0) ∈ rows then
          blkGet (sweepRow vs step order vps u0 v0 ws blk) (linIdx vps (mkPos order u0 v0 w'))
        else blkGet blk (linIdx vps (mkPos order u0 v0 w')) := by
  induction rows generalizing blk with
  | nil => intro w' hw'; simp
  | cons r rest ih =>
    intro w' hw'
    obtain ⟨hr1, hr2⟩ := hrows r (List.mem_cons_self _ _)
    by_cases hr : r = (u0, v0)
    · subst hr
      have hnotmem : (u0, v0) ∉ rest := (List.nodup_cons.mp hnd).1
      rw [List.foldl_cons,
        foldl_sweepRow_frame vs step order vps ws (fun w hw => (hws w hw).1) ho hu0 hv0 rest
          (fun x hx => ⟨(hrows x (List.mem_cons_of_mem _ hx)).1,
            (hrows x (List.mem_cons_of_mem _ hx)).2, fun heq =>
              hnotmem (by obtain ⟨x1, x2⟩ := x; exact heq ▸ hx)⟩)
          _ w' hw']
      simp [List.mem_cons]
    · rw [List.foldl_cons, ih (fun x hx => hrows x (List.mem_cons_of_mem _ hx))
        (List.nodup_cons.mp hnd).2 _ w' hw']
      have hframe : ∀ w'', w'' < vps →
          blkGet (sweepRow vs step order vps r.1 r.2 ws blk)
              (linIdx vps (mkPos order u0 v0 w'')) =
            blkGet blk (linIdx vps (mkPos order u0 v0 w'')) := by
        intro w'' hw''
        refine sweepRow_getD_ne _ _ _ _ _ _ _ _ _ fun w hw heq => ?_
        obtain ⟨he1, he2, _⟩ :=
          mkPos_linIdx_inj ho hu0 hv0 hw'' hr1 hr2 (hws w hw).1 heq
        exact hr (by obtain ⟨a, b⟩ := r; simp_all)
      have hmemiff : ((u0, v0) ∈ r :: rest) ↔ ((u0, v0) ∈ rest) := by
        simp only [List.mem_cons]
        exact or_iff_right fun h => hr h.symm
      by_cases hmem : (u0, v0) ∈ rest
      · rw [if_pos hmem, if_pos (hmemiff.mpr hmem)]
        exact sweepRow_congrOn vs step order vps u0 v0 ws hws
          (length_sweepRow _ _ _ _ _ _ _ _) hframe w' hw'
      · rw [if_neg hmem, if_neg (fun h => hmem (hmemiff.mp h))]
        exact hframe w' hw'

/-- The pair iteration sequence of two nested loops. -/
theorem foldl_pairs {α : Type} (f : α → ℕ × ℕ → α) (us vl : List ℕ) (a : α) :
    us.foldl (fun b u => vl.foldl (fun b v => f b (u, v)) b) a =
      (us.flatMap (fun u => vl.map (fun v => (u, v)))).foldl f a := by
  induction us generalizing a with
  | nil => rfl
  | cons u rest ih =>
    rw [List.foldl_cons, List.flatMap_cons, List.foldl_append, List.foldl_map, ih]

/-- The row list of a sweep pass. -/
theorem rowPairs_nodup (vps : ℕ) :
    ((List.range vps).flatMap fun u => (List.range vps).map fun v => (u, v)).Nodup := by
  refine List.nodup_flatMap.mpr ⟨fun u _ => ?_, ?_⟩
  · exact (List.nodup_range vps).map (fun a b h => by simpa using congrArg Prod.snd h)
  · refine List.Pairwise.imp ?_ (List.nodup_range vps)
    intro a b hab
    simp only [Function.onFun, List.disjoint_left]
    rintro ⟨x, y⟩ hx hy
    simp only [List.mem_map] at hx hy
    obtain ⟨_, _, h1⟩ := hx
    obtain ⟨_, _, h2⟩ := hy
    cases h1
    injection h2 with hb _
    exact hab hb.symm

/-- Row decomposition of a sweep pass: the value of the swept block at any
position of column `(u0, v0)` is produced by that column's loop alone. -/
theorem sweepPass_row (vs : ℚ) (step : ℤ) (order : ℕ × ℕ × ℕ) (vps : ℕ)
    (ho : goodOrder order)
    (hws : ∀ w ∈ wRange step vps, w < vps ∧ ((w : ℤ) - step).toNat < vps)
    {u0 v0 w' : ℕ} (hu0 : u0 < vps) (hv0 : v0 < vps) (hw' : w' < vps) (blk : BlockVox) :
    blkGet (sweepPass vs step order vps blk) (linIdx vps (mkPos order u0 v0 w')) =
      blkGet (sweepRow vs step order vps u0 v0 (wRange step vps) blk)
        (linIdx vps (mkPos order u0 v0 w')) := by
  have hflat := foldl_pairs
    (fun bb (r : ℕ × ℕ) => sweepRow vs step order vps r.1 r.2 (wRange step vps) bb)
    (List.range vps) (List.range vps) blk
  rw [show sweepPass vs step order vps blk =
      ((List.range vps).flatMap fun u => (List.range vps).map fun v => (u, v)).foldl
        (fun bb r => sweepRow vs step order vps r.1 r.2 (wRange step vps) bb) blk from hflat]
  rw [foldl_sweepRow_hit vs step order vps (wRange step vps) hws ho hu0 hv0 _
    (fun r hr => by
      simp only [List.mem_flatMap, List.mem_map, List.mem_range] at hr
      obtain ⟨u, hu, v, hv, rfl⟩ := hr
      exact ⟨hu, hv⟩)
    (rowPairs_nodup vps) blk w' hw']
  rw [if_pos (by
    simp only [List.mem_flatMap, List.mem_map, List.mem_range]
    exact ⟨u0, hu0, v0, hv0, rfl⟩)]

/-! ### Propagation pass characterization

The face cells of `propagate_to_neighbour` are independent: each `(u, v)`
cell reads the pivot block (never written) and its own target voxel, and
writes only that target.  Hence the pass acts pointwise on the face. -/

theorem propCell_eq (vs : ℚ) (order : ℕ × ℕ × ℕ) (np : ℕ × ℕ) (vps : ℕ)
    (pblk : BlockVox) (s : BlockVox × Bool) (u v : ℕ) :
    propCell vs order np vps pblk s (u, v) =
      (blkSet s.1 (linIdx vps (mkPos order u v np.1))
          (propVoxelRule vs (blkGet pblk (linIdx vps (mkPos order u v np.2)))
            (blkGet s.1 (linIdx vps (mkPos order u v np.1)))).1,
        s.2 || (propVoxelRule vs (blkGet pblk (linIdx vps (mkPos order u v np.2)))
            (blkGet s.1 (linIdx vps (mkPos order u v np.1)))).2) := rfl

theorem foldl_propCell_frame (vs : ℚ) (order : ℕ × ℕ × ℕ) (np : ℕ × ℕ) (vps : ℕ)
    (pblk : BlockVox) (pairs : List (ℕ × ℕ)) (s : BlockVox × Bool) (j : ℕ)
    (h : ∀ r ∈ pairs, j ≠ linIdx vps (mkPos order r.1 r.2 np.1)) :
    blkGet (pairs.foldl (propCell vs order np vps pblk) s).1 j = blkGet s.1 j := by
  induction pairs generalizing s with
  | nil => rfl
  | cons r rest ih =>
    obtain ⟨u, v⟩ := r
    rw [List.foldl_cons, ih _ fun x hx => h x (List.mem_cons_of_mem _ hx), propCell_eq]
    exact blkGet_blkSet_ne _ _ (h (u, v) (List.mem_cons_self _ _))

theorem length_foldl_propCell (vs : ℚ) (order : ℕ × ℕ × ℕ) (np : ℕ × ℕ) (vps : ℕ)
    (pblk : BlockVox) (pairs : List (ℕ × ℕ)) (s : BlockVox × Bool) :
    (pairs.foldl (propCell vs order np vps pblk) s).1.length = s.1.length := by
  induction pairs generalizing s with
  | nil => rfl
  | cons r rest ih =>
    obtain ⟨u, v⟩ := r
    rw [List.foldl_cons, ih, propCell_eq, length_blkSet]

theorem foldl_propCell_hit (vs : ℚ) (order : ℕ × ℕ × ℕ) (np : ℕ × ℕ) (vps : ℕ)
    (ho : goodOrder order) (hnp : np.1 < vps)
    (pblk : BlockVox) (pairs : List (ℕ × ℕ))
    (hb : ∀ r ∈ pairs, r.1 < vps ∧ r.2 < vps) (hnd : pairs.Nodup)
    {u0 v0 : ℕ} (hu0 : u0 < vps) (hv0 : v0 < vps) (hmem : (u0, v0) ∈ pairs)
    (s : BlockVox × Bool) (hlen : linIdx vps (mkPos order u0 v0 np.1) < s.1.length) :
    blkGet (pairs.foldl (propCell vs order np vps pblk) s).1
        (linIdx vps (mkPos order u0 v0 np.1)) =
      (propVoxelRule vs (blkGet pblk (linIdx vps (mkPos order u0 v0 np.2)))
        (blkGet s.1 (linIdx vps (mkPos order u0 v0 np.1)))).1 := by
  induction pairs generalizing s with
  | nil => cases hmem
  | cons r rest ih =>
    obtain ⟨u, v⟩ := r
    by_cases hr : (u, v) = (u0, v0)
    · obtain ⟨rfl, rfl⟩ := Prod.mk.injEq .. ▸ hr
      have hnotmem : (u, v) ∉ rest := (List.nodup_cons.mp hnd).1
      rw [List.foldl_cons, propCell_eq,
        foldl_propCell_frame vs order np vps pblk rest _ _ (fun x hx heq => by
          obtain ⟨he1, he2, _⟩ := mkPos_linIdx_inj ho hu0 hv0 hnp
            (hb x (List.mem_cons_of_mem _ hx)).1 (hb x (List.mem_cons_of_mem _ hx)).2 hnp heq
          exact hnotmem (by obtain ⟨x1, x2⟩ := x; simp only at he1 he2; rw [he1, he2]; exact hx))]
      simp only [blkGet_blkSet]
      simp [hlen]
    · have hmem' : (u0, v0) ∈ rest := by
        rcases List.mem_cons.mp hmem with h | h
        · exact absurd h.symm hr
        · exact h
      obtain ⟨hu, hv⟩ := hb (u, v) (List.mem_cons_self _ _)
      have htne : linIdx vps (mkPos order u0 v0 np.1) ≠ linIdx vps (mkPos order u v np.1) := by
        intro heq
        obtain ⟨he1, he2, _⟩ := mkPos_linIdx_inj ho hu0 hv0 hnp hu hv hnp heq
        exact hr (by rw [he1, he2])
      rw [List.foldl_cons, propCell_eq] at *
      rw [ih (fun x hx => hb x (List.mem_cons_of_mem _ hx)) (List.nodup_cons.mp hnd).2 hmem' _
        (by rw [length_blkSet]; exact hlen)]
      rw [blkGet_blkSet_ne _ _ htne]

theorem list_any_congr {α : Type} {f g : α → Bool} {l : List α}
    (h : ∀ x ∈ l, f x = g x) : l.any f = l.any g := by
  induction l with
  | nil => rfl
  | cons a t ih =>
    simp only [List.any_cons, h a (List.mem_cons_self _ _),
      ih fun x hx => h x (List.mem_cons_of_mem _ hx)]

theorem foldl_propCell_flag (vs : ℚ) (order : ℕ × ℕ × ℕ) (np : ℕ × ℕ) (vps : ℕ)
    (ho : goodOrder order) (hnp : np.1 < vps)
    (pblk : BlockVox) (pairs : List (ℕ × ℕ))
    (hb : ∀ r ∈ pairs, r.1 < vps ∧ r.2 < vps) (hnd : pairs.Nodup)
    (s : BlockVox × Bool) :
    (pairs.foldl (propCell vs order np vps pblk) s).2 =
      (s.2 || pairs.any (fun r =>
        (propVoxelRule vs (blkGet pblk (linIdx vps (mkPos order r.1 r.2 np.2)))
          (blkGet s.1 (linIdx vps (mkPos order r.1 r.2 np.1)))).2)) := by
  induction pairs generalizing s with
  | nil => simp
  | cons r rest ih =>
    obtain ⟨u, v⟩ := r
    obtain ⟨hu, hv⟩ := hb (u, v) (List.mem_cons_self _ _)
    rw [List.foldl_cons, propCell_eq,
      ih (fun x hx => hb x (List.mem_cons_of_mem _ hx)) (List.nodup_cons.mp hnd).2]
    simp only [List.any_cons, Bool.or_assoc]
    congr 1
    congr 1
    refine list_any_congr fun x hx => ?_
    obtain ⟨hxu, hxv⟩ := hb x (List.mem_cons_of_mem _ hx)
    have hxne : x ≠ (u, v) := fun h => (List.nodup_cons.mp hnd).1 (h ▸ hx)
    rw [blkGet_blkSet_ne]
    intro heq
    obtain ⟨he1, he2, _⟩ := mkPos_linIdx_inj ho hxu hxv hnp hu hv hnp heq
    exact hxne (by obtain ⟨x1, x2⟩ := x; simp only at he1 he2; rw [he1, he2])

/-! ### Generic evaluation helpers -/

theorem blkSet_self (blk : BlockVox) (i : ℕ) : blkSet blk i (blkGet blk i) = blk := by
  unfold blkSet blkGet
  induction blk generalizing i with
  | nil => rfl
  | cons a l ih =>
    cases i with
    | zero => rfl
    | succ n => simpa [List.set, List.getD] using ih n

theorem blkGet_defaultEsdfBlock (vps i : ℕ) :
    blkGet (defaultEsdfBlock vps) i = defaultEsdf := by
  unfold blkGet defaultEsdfBlock
  by_cases h : i < vps * vps * vps
  · rw [List.getD_eq_getElem?_getD, List.getElem?_replicate_of_lt h]
    rfl
  · rw [List.getD_eq_getElem?_getD, List.getElem?_eq_none (by simpa using le_of_not_lt h)]
    rfl

theorem length_defaultEsdfBlock (vps : ℕ) :
    (defaultEsdfBlock vps).length = vps * vps * vps := List.length_replicate _ _

theorem foldl_id {α β : Type} {f : α → β → α} (h : ∀ s x, f s x = s) :
    ∀ (l : List β) (s : α), l.foldl f s = s := by
  intro l
  induction l with
  | nil => exact fun s => rfl
  | cons a t ih => intro s; rw [List.foldl_cons, h, ih]

theorem foldl_fix {α β : Type} {f : α → β → α} (l : List β) (b : α)
    (h : ∀ x ∈ l, f b x = b) : l.foldl f b = b := by
  induction l with
  | nil => rfl
  | cons a t ih =>
    rw [List.foldl_cons, h a (List.mem_cons_self _ _)]
    exact ih fun x hx => h x (List.mem_cons_of_mem _ hx)

theorem list_any_false {α : Type} {f : α → Bool} {l : List α}
    (h : ∀ x ∈ l, f x = false) : l.any f = false := by
  induction l with
  | nil => rfl
  | cons a t ih =>
    simp only [List.any_cons, h a (List.mem_cons_self _ _),
      ih fun x hx => h x (List.mem_cons_of_mem _ hx), Bool.or_self]

theorem foldl_length_inv {f : BlockVox → ℕ → BlockVox}
    (hf : ∀ b x, (f b x).length = b.length) :
    ∀ (l : List ℕ) (b : BlockVox), (l.foldl f b).length = b.length := by
  intro l
  induction l with
  | nil => exact fun b => rfl
  | cons a t ih => intro b; rw [List.foldl_cons, ih, hf]

theorem length_sweepPass (vs : ℚ) (step : ℤ) (order : ℕ × ℕ × ℕ) (vps : ℕ)
    (blk : BlockVox) : (sweepPass vs step order vps blk).length = blk.length := by
  unfold sweepPass
  refine foldl_length_inv (fun b u => ?_) _ _
  exact foldl_length_inv (fun b v => length_sweepRow _ _ _ _ _ _ _ _) _ _

/-- Pointwise store characterization of an indexed initialization loop
(`for i in 0..n { blk[i] = f(blk[i], i) }`). -/
theorem foldl_blkSet_range_getD (n : ℕ) (f : EsdfVoxel → ℕ → EsdfVoxel) (blk : BlockVox)
    (hlen : n ≤ blk.length) (i : ℕ) :
    blkGet ((List.range n).foldl (fun eb j => blkSet eb j (f (blkGet eb j) j)) blk) i =
      if i < n then f (blkGet blk i) i else blkGet blk i := by
  induction n with
  | zero => simp
  | succ m ih =>
    rw [List.range_succ, List.foldl_append, List.foldl_cons, List.foldl_nil]
    have hm : m ≤ blk.length := le_trans (Nat.le_succ m) hlen
    have hlenf : ((List.range m).foldl (fun eb j => blkSet eb j (f (blkGet eb j) j)) blk).length
        = blk.length := foldl_length_inv (fun b x => length_blkSet _ _ _) _ _
    rw [blkGet_blkSet]
    by_cases hi : i = m
    · subst hi
      rw [if_pos ⟨rfl, by omega⟩, if_pos (Nat.lt_succ_self _), ih hm, if_neg (lt_irrefl _)]
    · rw [if_neg (fun hc => hi hc.1), ih hm]
      by_cases him : i < m
      · rw [if_pos him, if_pos (by omega)]
      · rw [if_neg him, if_neg (by omega)]

/-- A sweep column in which no relaxation fires leaves the block unchanged. -/
theorem sweepRow_id (vs : ℚ) (step : ℤ) (order : ℕ × ℕ × ℕ) (vps : ℕ)
    (u v : ℕ) (ws : List ℕ) (blk : BlockVox)
    (h : ∀ w ∈ ws,
      sweepVoxelRule vs
          (blkGet blk (linIdx vps (mkPos order u v ((w : ℤ) - step).toNat)))
          (blkGet blk (linIdx vps (mkPos order u v w))) =
        blkGet blk (linIdx vps (mkPos order u v w))) :
    sweepRow vs step order vps u v ws blk = blk := by
  induction ws with
  | nil => rfl
  | cons w rest ih =>
    rw [sweepRow_cons, sweepCell_eq, h w (List.mem_cons_self _ _), blkSet_self]
    exact ih fun x hx => h x (List.mem_cons_of_mem _ hx)

/-- A sweep pass in which no relaxation fires leaves the block unchanged. -/
theorem sweepPass_id (vs : ℚ) (step : ℤ) (order : ℕ × ℕ × ℕ) (vps : ℕ) (blk : BlockVox)
    (h : ∀ u v w, u < vps → v < vps → w ∈ wRange step vps →
      sweepVoxelRule vs
          (blkGet blk (linIdx vps (mkPos order u v ((w : ℤ) - step).toNat)))
          (blkGet blk (linIdx vps (mkPos order u v w))) =
        blkGet blk (linIdx vps (mkPos order u v w))) :
    sweepPass vs step order vps blk = blk := by
  unfold sweepPass
  refine foldl_fix _ _ fun u hu => ?_
  refine foldl_fix _ _ fun v hv => ?_
  exact sweepRow_id _ _ _ _ _ _ _ _ fun w hw =>
    h u v w (List.mem_range.mp hu) (List.mem_range.mp hv) hw

/-! ### The sweep `w` ranges -/

theorem wRange_one (vps : ℕ) (h : 2 ≤ vps) : wRange 1 vps = List.range' 1 (vps - 1) := by
  unfold wRange create_range_chain
  rw [if_pos (by norm_num), if_pos (by omega)]
  congr 1
  omega

theorem wRange_negOne (vps : ℕ) (h : 2 ≤ vps) :
    wRange (-1) vps = (List.range' 0 (vps - 1)).reverse := by
  unfold wRange create_range_chain
  rw [if_neg (by norm_num)]
  by_cases h2 : vps = 2
  · subst h2
    norm_num
  · rw [if_neg (by omega)]
    have heq : vps - 2 - 0 + 1 = vps - 1 := by omega
    rw [heq]

theorem mem_wRange_one {vps w : ℕ} (h : 2 ≤ vps) :
    w ∈ wRange 1 vps ↔ 1 ≤ w ∧ w < vps := by
  rw [wRange_one vps h, List.mem_range'_1]
  omega

theorem mem_wRange_negOne {vps w : ℕ} (h : 2 ≤ vps) :
    w ∈ wRange (-1) vps ↔ w < vps - 1 := by
  rw [wRange_negOne vps h, List.mem_reverse, List.mem_range'_1]
  omega

theorem wRange_bounds (vps : ℕ) (h : 2 ≤ vps) (step : ℤ) (hs : step = 1 ∨ step = -1) :
    ∀ w ∈ wRange step vps, w < vps ∧ ((w : ℤ) - step).toNat < vps := by
  rcases hs with rfl | rfl
  · intro w hw
    have := (mem_wRange_one h).mp hw
    omega
  · intro w hw
    have := (mem_wRange_negOne h).mp hw
    omega

/-! ### Ray propagation along one column -/

theorem sweepRow_ray_aux (vs : ℚ) (order : ℕ × ℕ × ℕ) (vps : ℕ) (u v : ℕ)
    (blk : BlockVox) (hlen : vps * vps * vps ≤ blk.length)
    (ho : goodOrder order) (hu : u < vps) (hv : v < vps)
    (hfix : (blkGet blk (linIdx vps (mkPos order u v 0))).flags.fixed = true)
    (hrest : ∀ w', 1 ≤ w' → w' < vps →
      blkGet blk (linIdx vps (mkPos order u v w')) = defaultEsdf) :
    ∀ k, k ≤ vps - 1 → ∀ w', w' < vps →
      blkGet (sweepRow vs 1 order vps u v (List.range' 1 k) blk)
          (linIdx vps (mkPos order u v w')) =
        if 1 ≤ w' ∧ w' ≤ k then
          rayVox ((blkGet blk (linIdx vps (mkPos order u v 0))).distance + w' * vs)
            ((blkGet blk (linIdx vps (mkPos order u v 0))).site_block_index)
        else blkGet blk (linIdx vps (mkPos order u v w')) := by
  have h2 : 1 ≤ vps := by omega
  intro k
  induction k with
  | zero =>
    intro _ w' hw'
    rw [if_neg (by omega)]
    rfl
  | succ m ih =>
    intro hk w' hw'
    have hm : m ≤ vps - 1 := by omega
    have hm1 : 1 + m < vps := by omega
    rw [show List.range' 1 (m + 1) = List.range' 1 m ++ [1 + m] from List.range'_1_concat 1 m,
      show sweepRow vs 1 order vps u v (List.range' 1 m ++ [1 + m]) blk
        = sweepCell vs 1 order vps (sweepRow vs 1 order vps u v (List.range' 1 m) blk)
            (u, v, 1 + m) from by
        unfold sweepRow
        rw [List.foldl_append, List.foldl_cons, List.foldl_nil]]
    have hlenS : (sweepRow vs 1 order vps u v (List.range' 1 m) blk).length = blk.length :=
      length_sweepRow _ _ _ _ _ _ _ _
    have hparent :
        blkGet (sweepRow vs 1 order vps u v (List.range' 1 m) blk)
            (linIdx vps (mkPos order u v ((↑(1 + m) - (1 : ℤ)).toNat))) =
          if 1 ≤ m then
            rayVox ((blkGet blk (linIdx vps (mkPos order u v 0))).distance + m * vs)
              ((blkGet blk (linIdx vps (mkPos order u v 0))).site_block_index)
          else blkGet blk (linIdx vps (mkPos order u v 0)) := by
      have : ((↑(1 + m) - (1 : ℤ)).toNat) = m := by omega
      rw [this, ih hm m (by omega)]
      by_cases h1m : 1 ≤ m
      · rw [if_pos ⟨h1m, le_refl m⟩, if_pos h1m]
      · have hm0 : m = 0 := by omega
        subst hm0
        norm_num
    have hvox :
        blkGet (sweepRow vs 1 order vps u v (List.range' 1 m) blk)
            (linIdx vps (mkPos order u v (1 + m))) = defaultEsdf := by
      rw [ih hm (1 + m) hm1, if_neg (by omega)]
      exact hrest (1 + m) (by omega) hm1
    rw [sweepCell_eq, hvox]
    have hparentFacts :
        (blkGet (sweepRow vs 1 order vps u v (List.range' 1 m) blk)
            (linIdx vps (mkPos order u v ((↑(1 + m) - (1 : ℤ)).toNat)))).flags.fixed = true ∧
        (blkGet (sweepRow vs 1 order vps u v (List.range' 1 m) blk)
            (linIdx vps (mkPos order u v ((↑(1 + m) - (1 : ℤ)).toNat)))).distance =
          (blkGet blk (linIdx vps (mkPos order u v 0))).distance + m * vs ∧
        (blkGet (sweepRow vs 1 order vps u v (List.range' 1 m) blk)
            (linIdx vps (mkPos order u v ((↑(1 + m) - (1 : ℤ)).toNat)))).site_block_index =
          (blkGet blk (linIdx vps (mkPos order u v 0))).site_block_index := by
      rw [hparent]
      by_cases h1m : 1 ≤ m
      · rw [if_pos h1m]
        exact ⟨rfl, rfl, rfl⟩
      · have hm0 : m = 0 := by omega
        subst hm0
        rw [if_neg (by omega)]
        refine ⟨hfix, by norm_num, rfl⟩
    obtain ⟨hpf, hpd, hps⟩ := hparentFacts
    have hrule :
        sweepVoxelRule vs
            (blkGet (sweepRow vs 1 order vps u v (List.range' 1 m) blk)
              (linIdx vps (mkPos order u v ((↑(1 + m) - (1 : ℤ)).toNat))))
            defaultEsdf =
          rayVox ((blkGet blk (linIdx vps (mkPos order u v 0))).distance + (1 + m) * vs)
            ((blkGet blk (linIdx vps (mkPos order u v 0))).site_block_index) := by
      unfold sweepVoxelRule
      rw [hpf]
      simp only [defaultEsdf, emptyFlags, Bool.not_false, Bool.and_self, if_true,
        Bool.true_and, Bool.not_true, Bool.false_and, if_pos rfl]
      rw [hpd, hps]
      unfold rayVox
      congr 1
      ring
    rw [hrule]
    have hb := mkPos_bounds ho hu hv hm1
    have htlt : linIdx vps (mkPos order u v (1 + m)) <
        (sweepRow vs 1 order vps u v (List.range' 1 m) blk).length := by
      rw [hlenS]
      exact lt_of_lt_of_le (linIdx_lt _ _ hb.1 hb.2.1 hb.2.2) hlen
    rw [blkGet_blkSet]
    by_cases hw1 : w' = 1 + m
    · subst hw1
      rw [if_pos ⟨rfl, htlt⟩, if_pos (by omega)]
      simp only [rayVox, EsdfVoxel.mk.injEq, and_true]
      push_cast
      ring
    · have hne : linIdx vps (mkPos order u v w') ≠ linIdx vps (mkPos order u v (1 + m)) := by
        intro heq
        obtain ⟨_, _, h3⟩ := mkPos_linIdx_inj ho hu hv hw' hu hv hm1 heq
        exact hw1 h3
      rw [if_neg (fun hc => hne hc.1), ih hm w' hw']
      by_cases hcase : 1 ≤ w' ∧ w' ≤ m
      · rw [if_pos hcase, if_pos ⟨hcase.1, by omega⟩]
      · rw [if_neg hcase, if_neg (by omega)]

/-- Ray propagation: an ascending sweep of a column whose head is Fixed and
whose tail is default space fills the tail with `head.distance + w·vs`. -/
theorem sweepRow_ray (vs : ℚ) (order : ℕ × ℕ × ℕ) (vps : ℕ) (u v : ℕ)
    (blk : BlockVox) (hlen : vps * vps * vps ≤ blk.length)
    (ho : goodOrder order) (hu : u < vps) (hv : v < vps) (h2 : 2 ≤ vps)
    (hfix : (blkGet blk (linIdx vps (mkPos order u v 0))).flags.fixed = true)
    (hrest : ∀ w', 1 ≤ w' → w' < vps →
      blkGet blk (linIdx vps (mkPos order u v w')) = defaultEsdf) :
    ∀ w', w' < vps →
      blkGet (sweepRow vs 1 order vps u v (wRange 1 vps) blk)
          (linIdx vps (mkPos order u v w')) =
        if w' = 0 then blkGet blk (linIdx vps (mkPos order u v 0))
        else
          rayVox ((blkGet blk (linIdx vps (mkPos order u v 0))).distance + w' * vs)
            ((blkGet blk (linIdx vps (mkPos order u v 0))).site_block_index) := by
  intro w' hw'
  rw [wRange_one vps h2,
    sweepRow_ray_aux vs order vps u v blk hlen ho hu hv hfix hrest (vps - 1) (le_refl _) w' hw']
  by_cases hw0 : w' = 0
  · subst hw0
    rw [if_neg (by omega), if_pos rfl]
  · rw [if_pos ⟨by omega, by omega⟩, if_neg hw0]

/-- **C10 (amended).** `BlockIndex::cmp` returns `Equal` exactly when the two
`deco_hash` values coincide; `deco_hash` is *not* injective on block indices
(`(0,0,0)` and `(17191,-1,0)` collide), so the order *does* conflate some
distinct block indices. -/
theorem C10_cmp_eq_iff_hash_eq :
    (∀ a b : BIdx, blockIndexCmp a b = .eq ↔ deco_hash a = deco_hash b) ∧
      deco_hash ((0 : ℤ), (0 : ℤ), (0 : ℤ)) = deco_hash ((17191 : ℤ), (-1 : ℤ), (0 : ℤ)) ∧
      ((0 : ℤ), (0 : ℤ), (0 : ℤ)) ≠ ((17191 : ℤ), (-1 : ℤ), (0 : ℤ)) :=
  ⟨fun _ _ => Nat.compare_eq_eq, by decide, by decide⟩

/-! ### Sweep-rule identity cases -/

/-- An unfixed parent never relaxes. -/
theorem sweepVoxelRule_id_of_unfixed_parent {vs : ℚ} {p c : EsdfVoxel}
    (hp : p.flags.fixed = false) : sweepVoxelRule vs p c = c := by
  unfold sweepVoxelRule
  rw [hp]
  simp

/-- An Observed voxel is never modified by a sweep. -/
theorem sweepVoxelRule_id_of_observed {vs : ℚ} {p c : EsdfVoxel}
    (hc : c.flags.observed = true) : sweepVoxelRule vs p c = c := by
  unfold sweepVoxelRule
  rw [hc]
  simp

/-- A Fixed voxel without strict improvement is never modified by a sweep. -/
theorem sweepVoxelRule_id_of_no_improve {vs : ℚ} {p c : EsdfVoxel}
    (hc : c.flags.fixed = true) (h : ¬c.distance > p.distance + vs) :
    sweepVoxelRule vs p c = c := by
  unfold sweepVoxelRule
  rw [hc]
  by_cases hp : p.flags.fixed <;> by_cases ho : c.flags.observed <;> simp [hp, ho, h]

/-! ### Layer lookup on small association lists -/

theorem layerFind_singleton {α : Type} (b : BIdx) (blk : α) :
    layerFind [(b, blk)] b = some blk := by
  simp [layerFind]

theorem layerFind_singleton_ne {α : Type} (b c : BIdx) (blk : α) (h : c ≠ b) :
    layerFind [(b, blk)] c = none := by
  have hb : ¬b = c := fun hc => h hc.symm
  simp [layerFind, hb]

theorem layerSet_singleton {α : Type} (b : BIdx) (blk blk' : α) :
    layerSet [(b, blk)] b blk' = [(b, blk')] := by
  simp [layerSet]

/-! ### Scenario S1, phase 4: the seeded block -/

theorem length_seedBlock (vps : ℕ) (tblk : TsdfBlock) (eblk : BlockVox) (b : BIdx) :
    (seedBlock vps tblk eblk b).length = eblk.length := by
  unfold seedBlock
  exact foldl_length_inv (fun bb x => length_blkSet _ _ _) _ _

theorem seedBlock_getD (vps : ℕ) (tblk : TsdfBlock) (eblk : BlockVox) (b : BIdx)
    (hlen : vps * vps * vps ≤ eblk.length) (i : ℕ) :
    blkGet (seedBlock vps tblk eblk b) i =
      if i < vps * vps * vps then seedEsdfVoxel (tblkGet tblk i) (blkGet eblk i) b
      else blkGet eblk i := by
  unfold seedBlock
  exact foldl_blkSet_range_getD (vps * vps * vps)
    (fun ev j => seedEsdfVoxel (tblkGet tblk j) ev b) eblk hlen i

theorem tblkGet_s1 (i : ℕ) :
    tblkGet s1TsdfBlock i = if i = 0 then ⟨0, 1⟩ else defaultTsdf := by
  unfold s1TsdfBlock tblkGet
  by_cases h : i = 0
  · subst h
    rw [List.getD_eq_getElem?_getD,
      List.getElem?_set_self (by rw [List.length_replicate]; norm_num), if_pos rfl]
    rfl
  · rw [List.getD_eq_getElem?_getD, List.getElem?_set_ne (Ne.symm h), if_neg h]
    by_cases hi : i < 512
    · rw [List.getElem?_replicate_of_lt hi]
      rfl
    · rw [List.getElem?_eq_none (by rw [List.length_replicate]; omega)]
      rfl

theorem seedEsdfVoxel_s1_hit : seedEsdfVoxel ⟨0, 1⟩ defaultEsdf zB = obsVox := by
  norm_num [seedEsdfVoxel, defaultEsdf, emptyFlags, obsVox, zB]

theorem seedEsdfVoxel_s1_miss : seedEsdfVoxel defaultTsdf defaultEsdf zB = defaultEsdf := by
  norm_num [seedEsdfVoxel, defaultTsdf, defaultEsdf, emptyFlags]

theorem length_s1SeedBlk : s1SeedBlk.length = 512 := by
  unfold s1SeedBlk
  rw [length_seedBlock, length_defaultEsdfBlock]

theorem s1SeedBlk_getD (x y z : ℕ) (hx : x < 8) (hy : y < 8) (hz : z < 8) :
    blkGet s1SeedBlk (linIdx 8 (x, y, z)) =
      if x = 0 ∧ y = 0 ∧ z = 0 then obsVox else defaultEsdf := by
  have hlin : linIdx 8 ((x : ℕ), y, z) < 8 * 8 * 8 := linIdx_lt 8 (x, y, z) hx hy hz
  rw [show s1SeedBlk = seedBlock 8 s1TsdfBlock (defaultEsdfBlock 8) zB from rfl,
    seedBlock_getD 8 _ _ _ (by rw [length_defaultEsdfBlock]) _, if_pos hlin,
    blkGet_defaultEsdfBlock, tblkGet_s1]
  by_cases h0 : linIdx 8 ((x : ℕ), y, z) = 0
  · have hxyz : ((x : ℕ), y, z) = ((0 : ℕ), (0 : ℕ), (0 : ℕ)) :=
      linIdx_inj 8 hx hy hz (by norm_num) (by norm_num) (by norm_num) (by rw [h0]; rfl)
    have hx0 : x = 0 := congrArg Prod.fst hxyz
    have hy0 : y = 0 := congrArg (fun p => p.2.1) hxyz
    have hz0 : z = 0 := congrArg (fun p => p.2.2) hxyz
    rw [if_pos h0, seedEsdfVoxel_s1_hit, if_pos ⟨hx0, hy0, hz0⟩]
  · rw [if_neg h0, seedEsdfVoxel_s1_miss, if_neg (fun hc => by
      obtain ⟨rfl, rfl, rfl⟩ := hc
      exact h0 rfl)]

/-! ### Scenario S1, phase 5: the four sweeps of the first iteration -/

theorem s1B1_getD (x y z : ℕ) (hx : x < 8) (hy : y < 8) (hz : z < 8) :
    blkGet s1B1 (linIdx 8 (x, y, z)) =
      if y = 0 ∧ z = 0 then (if x = 0 then obsVox else rayVox (x : ℚ) zB)
      else defaultEsdf := by
  have h28 : (2 : ℕ) ≤ 8 := by norm_num
  have hws := wRange_bounds 8 h28 1 (Or.inl rfl)
  have hgo : goodOrder ((2 : ℕ), (1 : ℕ), (0 : ℕ)) := Or.inl rfl
  have hpos : ((x : ℕ), y, z) = mkPos (2, 1, 0) z y x := (mkPos_210 z y x).symm
  rw [show s1B1 = sweepPass 1 1 (2, 1, 0) 8 s1SeedBlk from rfl, hpos,
    sweepPass_row 1 1 (2, 1, 0) 8 hgo hws hz hy hx s1SeedBlk]
  by_cases hyz : y = 0 ∧ z = 0
  · obtain ⟨rfl, rfl⟩ := hyz
    have hlen : 8 * 8 * 8 ≤ s1SeedBlk.length := by rw [length_s1SeedBlk]
    have hhead : blkGet s1SeedBlk (linIdx 8 (mkPos (2, 1, 0) 0 0 0)) = obsVox := by
      rw [mkPos_210, s1SeedBlk_getD 0 0 0 (by norm_num) (by norm_num) (by norm_num),
        if_pos ⟨rfl, rfl, rfl⟩]
    have hfix : (blkGet s1SeedBlk (linIdx 8 (mkPos (2, 1, 0) 0 0 0))).flags.fixed = true := by
      rw [hhead]
      rfl
    have hrest : ∀ w', 1 ≤ w' → w' < 8 →
        blkGet s1SeedBlk (linIdx 8 (mkPos (2, 1, 0) 0 0 w')) = defaultEsdf := by
      intro w' h1 h8
      rw [mkPos_210, s1SeedBlk_getD w' 0 0 h8 (by norm_num) (by norm_num),
        if_neg (fun hc => by omega)]
    rw [sweepRow_ray 1 (2, 1, 0) 8 0 0 s1SeedBlk hlen hgo (by norm_num) (by norm_num) h28
      hfix hrest x hx, hhead]
    rw [if_pos (show (0 : ℕ) = 0 ∧ (0 : ℕ) = 0 from ⟨rfl, rfl⟩)]
    by_cases hx0 : x = 0
    · subst hx0
      rw [if_pos (rfl : (0 : ℕ) = 0)]
      rw [if_pos (rfl : (0 : ℕ) = 0)]
    · rw [if_neg hx0, if_neg hx0]
      show rayVox (obsVox.distance + (x : ℚ) * 1) obsVox.site_block_index = rayVox (x : ℚ) zB
      norm_num [obsVox]
  · have hid : sweepRow 1 1 (2, 1, 0) 8 z y (wRange 1 8) s1SeedBlk = s1SeedBlk := by
      refine sweepRow_id 1 1 (2, 1, 0) 8 z y (wRange 1 8) s1SeedBlk fun w hw => ?_
      have hb := hws w hw
      refine sweepVoxelRule_id_of_unfixed_parent ?_
      rw [mkPos_210, s1SeedBlk_getD _ y z hb.2 hy hz, if_neg (fun hc => hyz ⟨hc.2.1, hc.2.2⟩)]
      rfl
    rw [hid, mkPos_210, s1SeedBlk_getD x y z hx hy hz,
      if_neg (fun hc => hyz ⟨hc.2.1, hc.2.2⟩), if_neg hyz]

theorem s1B2_eq : s1B2 = s1B1 := by
  rw [show s1B2 = sweepPass 1 (-1) (2, 1, 0) 8 s1B1 from rfl]
  refine sweepPass_id 1 (-1) (2, 1, 0) 8 s1B1 fun u v w hu hv hw => ?_
  have hw7 := (mem_wRange_negOne (by norm_num : (2 : ℕ) ≤ 8)).mp hw
  have hwp : (((w : ℕ) : ℤ) - (-1)).toNat = w + 1 := by omega
  rw [hwp, mkPos_210, mkPos_210,
    s1B1_getD (w + 1) v u (by omega) hv hu, s1B1_getD w v u (by omega) hv hu]
  by_cases hvu : v = 0 ∧ u = 0
  · rw [if_pos hvu, if_pos hvu, if_neg (by omega : ¬w + 1 = 0)]
    by_cases hw0 : w = 0
    · rw [if_pos hw0]
      exact sweepVoxelRule_id_of_observed rfl
    · rw [if_neg hw0]
      refine sweepVoxelRule_id_of_no_improve rfl ?_
      show ¬((w : ℚ) > ((w + 1 : ℕ) : ℚ) + 1)
      push_cast
      intro hgt
      linarith
  · rw [if_neg hvu, if_neg hvu]
    exact sweepVoxelRule_id_of_unfixed_parent rfl

theorem s1B3_getD (x y z : ℕ) (hx : x < 8) (hy : y < 8) (hz : z < 8) :
    blkGet s1B3 (linIdx 8 (x, y, z)) =
      if z = 0 then (if x = 0 ∧ y = 0 then obsVox else rayVox ((x : ℚ) + (y : ℚ)) zB)
      else defaultEsdf := by
  have h28 : (2 : ℕ) ≤ 8 := by norm_num
  have hws := wRange_bounds 8 h28 1 (Or.inl rfl)
  have hgo : goodOrder ((2 : ℕ), (0 : ℕ), (1 : ℕ)) := Or.inr (Or.inl rfl)
  have hpos : ((x : ℕ), y, z) = mkPos (2, 0, 1) z x y := (mkPos_201 z x y).symm
  rw [show s1B3 = sweepPass 1 1 (2, 0, 1) 8 s1B2 from rfl, s1B2_eq, hpos,
    sweepPass_row 1 1 (2, 0, 1) 8 hgo hws hz hx hy s1B1]
  by_cases hz0 : z = 0
  · subst hz0
    have hlen : 8 * 8 * 8 ≤ s1B1.length := by
      rw [show s1B1 = sweepPass 1 1 (2, 1, 0) 8 s1SeedBlk from rfl, length_sweepPass,
        length_s1SeedBlk]
    have hhead : blkGet s1B1 (linIdx 8 (mkPos (2, 0, 1) 0 x 0)) =
        (if x = 0 then obsVox else rayVox (x : ℚ) zB) := by
      rw [mkPos_201, s1B1_getD x 0 0 hx (by norm_num) (by norm_num), if_pos ⟨rfl, rfl⟩]
    have hfix : (blkGet s1B1 (linIdx 8 (mkPos (2, 0, 1) 0 x 0))).flags.fixed = true := by
      rw [hhead]
      by_cases hx0 : x = 0
      · rw [if_pos hx0]
        rfl
      · rw [if_neg hx0]
        rfl
    have hrest : ∀ w', 1 ≤ w' → w' < 8 →
        blkGet s1B1 (linIdx 8 (mkPos (2, 0, 1) 0 x w')) = defaultEsdf := by
      intro w' h1 h8
      rw [mkPos_201, s1B1_getD x w' 0 hx h8 (by norm_num), if_neg (fun hc => by omega)]
    rw [sweepRow_ray 1 (2, 0, 1) 8 0 x s1B1 hlen hgo (by norm_num) hx h28 hfix hrest y hy,
      hhead, if_pos rfl]
    by_cases hx0 : x = 0
    · subst hx0
      rw [if_pos (rfl : (0 : ℕ) = 0)]
      by_cases hy0 : y = 0
      · subst hy0
        rw [if_pos (rfl : (0 : ℕ) = 0),
          if_pos (show (0 : ℕ) = 0 ∧ (0 : ℕ) = 0 from ⟨rfl, rfl⟩)]
      · rw [if_neg hy0, if_neg (show ¬((0 : ℕ) = 0 ∧ y = 0) from fun hc => hy0 hc.2)]
        show rayVox (obsVox.distance + (y : ℚ) * 1) obsVox.site_block_index =
          rayVox (((0 : ℕ) : ℚ) + (y : ℚ)) zB
        norm_num [obsVox]
    · rw [if_neg hx0]
      by_cases hy0 : y = 0
      · subst hy0
        rw [if_pos (rfl : (0 : ℕ) = 0),
          if_neg (show ¬(x = 0 ∧ (0 : ℕ) = 0) from fun hc => hx0 hc.1)]
        show rayVox (x : ℚ) zB = rayVox ((x : ℚ) + ((0 : ℕ) : ℚ)) zB
        norm_num
      · rw [if_neg hy0, if_neg (show ¬(x = 0 ∧ y = 0) from fun hc => hy0 hc.2)]
        show rayVox ((rayVox (x : ℚ) zB).distance + (y : ℚ) * 1)
            (rayVox (x : ℚ) zB).site_block_index = rayVox ((x : ℚ) + (y : ℚ)) zB
        norm_num [rayVox]
  · have hid : sweepRow 1 1 (2, 0, 1) 8 z x (wRange 1 8) s1B1 = s1B1 := by
      refine sweepRow_id 1 1 (2, 0, 1) 8 z x (wRange 1 8) s1B1 fun w hw => ?_
      have hb := hws w hw
      refine sweepVoxelRule_id_of_unfixed_parent ?_
      rw [mkPos_201, s1B1_getD x _ z hx hb.2 hz, if_neg (fun hc => hz0 hc.2)]
      rfl
    rw [hid, mkPos_201, s1B1_getD x y z hx hy hz, if_neg (fun hc => hz0 hc.2), if_neg hz0]

theorem s1B4_eq : s1B4 = s1B3 := by
  rw [show s1B4 = sweepPass 1 (-1) (2, 0, 1) 8 s1B3 from rfl]
  refine sweepPass_id 1 (-1) (2, 0, 1) 8 s1B3 fun u v w hu hv hw => ?_
  have hw7 := (mem_wRange_negOne (by norm_num : (2 : ℕ) ≤ 8)).mp hw
  have hwp : (((w : ℕ) : ℤ) - (-1)).toNat = w + 1 := by omega
  rw [hwp, mkPos_201, mkPos_201,
    s1B3_getD v (w + 1) u hv (by omega) hu, s1B3_getD v w u hv (by omega) hu]
  by_cases hu0 : u = 0
  · rw [if_pos hu0, if_pos hu0, if_neg (fun hc => by omega : ¬(v = 0 ∧ w + 1 = 0))]
    by_cases hvw : v = 0 ∧ w = 0
    · rw [if_pos hvw]
      exact sweepVoxelRule_id_of_observed rfl
    · rw [if_neg hvw]
      refine sweepVoxelRule_id_of_no_improve rfl ?_
      show ¬((v : ℚ) + (w : ℚ) > ((v : ℚ) + ((w + 1 : ℕ) : ℚ)) + 1)
      push_cast
      intro hgt
      linarith
  · rw [if_neg hu0, if_neg hu0]
    exact sweepVoxelRule_id_of_unfixed_parent rfl

/-! ### Scenario S1: end-to-end run -/

set_option maxRecDepth 2000 in
theorem s1_phase14 :
    cpuPhase14 8 s1Tsdf s1Esdf s1U 4 = some ⟨s1SeedLayer, [], [zB], [zB]⟩ := by
  have hfold0 : (List.range (8 * 8 * 8)).foldl
      (fun s i => if (blkGet (defaultEsdfBlock 8) i).flags.hasSiteIndex
        then bsetInsert s (blkGet (defaultEsdfBlock 8) i).site_block_index else s)
      ([] : List BIdx) = [] :=
    foldl_id (fun s i => by rw [blkGet_defaultEsdfBlock]; rfl) _ _
  have hany : (List.range (8 * 8 * 8)).any
      (fun i => (blkGet (defaultEsdfBlock 8) i).flags.hasSiteIndex &&
        bsetContains [] (blkGet (defaultEsdfBlock 8) i).site_block_index) = false :=
    list_any_false (fun x hx => by rw [blkGet_defaultEsdfBlock]; rfl)
  have hcs : collectSites 8 [zB] ⟨1, [(zB, defaultEsdfBlock 8)]⟩ [] =
      (⟨1, [(zB, defaultEsdfBlock 8)]⟩, []) := by
    have hstep : collectSites 8 [zB] ⟨1, [(zB, defaultEsdfBlock 8)]⟩ [] =
        collectSites 8 [] ⟨1, [(zB, defaultEsdfBlock 8)]⟩
          ((List.range (8 * 8 * 8)).foldl
            (fun s i => if (blkGet (defaultEsdfBlock 8) i).flags.hasSiteIndex
              then bsetInsert s (blkGet (defaultEsdfBlock 8) i).site_block_index else s)
            ([] : List BIdx)) := rfl
    rw [hstep, hfold0]
    rfl
  have hbfs : bfs 8 ⟨1, [(zB, defaultEsdfBlock 8)]⟩ [] 4 [zB] [] [zB] [] =
      some ([zB], [zB]) := by
    have hstep : bfs 8 ⟨1, [(zB, defaultEsdfBlock 8)]⟩ [] 4 [zB] [] [zB] [] =
        if (List.range (8 * 8 * 8)).any
            (fun i => (blkGet (defaultEsdfBlock 8) i).flags.hasSiteIndex &&
              bsetContains [] (blkGet (defaultEsdfBlock 8) i).site_block_index)
        then bfs 8 ⟨1, [(zB, defaultEsdfBlock 8)]⟩ [] 3 [] [zB] [zB] []
        else bfs 8 ⟨1, [(zB, defaultEsdfBlock 8)]⟩ [] 3 [] [zB] [zB] [zB] := rfl
    rw [hstep, hany, if_neg (by decide : ¬false = true)]
    rfl
  have htr : transfer 8 s1Tsdf [zB] ⟨1, [(zB, defaultEsdfBlock 8)]⟩ [zB] =
      some (⟨1, [(zB, s1SeedBlk)]⟩, [zB]) := by
    have hstep : transfer 8 s1Tsdf [zB] ⟨1, [(zB, defaultEsdfBlock 8)]⟩ [zB] =
        some (⟨1, [(zB, s1SeedBlk)]⟩,
          if (List.range (8 * 8 * 8)).any
              (fun i => decide (0 < (tblkGet s1TsdfBlock i).weight))
          then [zB] else [zB]) := rfl
    rw [hstep, ite_self]
  simp only [cpuPhase14, s1U]
  rw [show mirrorAllocate 8 s1Tsdf s1Esdf = ⟨1, [(zB, defaultEsdfBlock 8)]⟩ from rfl, hcs]
  show (bfs 8 ⟨1, [(zB, defaultEsdfBlock 8)]⟩ [] 4 [zB] [] [zB] []).bind
      (fun r => (transfer 8 s1Tsdf r.1 (resetBlocks 8 r.1 ⟨1, [(zB, defaultEsdfBlock 8)]⟩)
          r.2).bind
        (fun t => some (⟨t.1, [], r.1, t.2⟩ : Phase14Out))) =
    some ⟨s1SeedLayer, [], [zB], [zB]⟩
  rw [hbfs]
  show (transfer 8 s1Tsdf [zB] (resetBlocks 8 [zB] ⟨1, [(zB, defaultEsdfBlock 8)]⟩) [zB]).bind
      (fun t => some (⟨t.1, [], [zB], t.2⟩ : Phase14Out)) =
    some ⟨s1SeedLayer, [], [zB], [zB]⟩
  rw [show resetBlocks 8 [zB] ⟨1, [(zB, defaultEsdfBlock 8)]⟩ =
    ⟨1, [(zB, defaultEsdfBlock 8)]⟩ from rfl, htr]
  rfl

theorem sweep_block_found (vps : ℕ) (dir : OpDir) (b : BIdx) (l : EsdfLayer) (blk : BlockVox)
    (h : layerFind l.blocks b = some blk) :
    sweep_block vps dir b l = some ⟨l.voxelSize,
      layerSet l.blocks b (sweepPass l.voxelSize (opStep dir) (opOrder dir) vps blk)⟩ := by
  unfold sweep_block
  rw [h]

theorem s1_update : update_blocks 8 s1Tsdf s1Esdf s1U 4 = some s1FinalLayer := by
  have h1 : sweep_block 8 .xPlus zB s1SeedLayer = some ⟨1, [(zB, s1B1)]⟩ := by
    rw [sweep_block_found 8 .xPlus zB s1SeedLayer s1SeedBlk (layerFind_singleton zB s1SeedBlk)]
    rfl
  have h2 : sweep_block 8 .xMinus zB ⟨1, [(zB, s1B1)]⟩ = some ⟨1, [(zB, s1B2)]⟩ := by
    rw [sweep_block_found 8 .xMinus zB ⟨1, [(zB, s1B1)]⟩ s1B1 (layerFind_singleton zB s1B1)]
    rfl
  have h3 : sweep_block 8 .yPlus zB ⟨1, [(zB, s1B2)]⟩ = some ⟨1, [(zB, s1B3)]⟩ := by
    rw [sweep_block_found 8 .yPlus zB ⟨1, [(zB, s1B2)]⟩ s1B2 (layerFind_singleton zB s1B2)]
    rfl
  have h4 : sweep_block 8 .yMinus zB ⟨1, [(zB, s1B3)]⟩ = some ⟨1, [(zB, s1B4)]⟩ := by
    rw [sweep_block_found 8 .yMinus zB ⟨1, [(zB, s1B3)]⟩ s1B3 (layerFind_singleton zB s1B3)]
    rfl
  have hsw : sweepAll 8 [zB] s1SeedLayer = some s1FinalLayer := by
    show Option.bind (sweep_block 8 .xPlus zB s1SeedLayer) (fun l =>
        Option.bind (sweep_block 8 .xMinus zB l) (fun l =>
          Option.bind (sweep_block 8 .yPlus zB l) (fun l =>
            Option.bind (sweep_block 8 .yMinus zB l) (fun l => sweepAll 8 [] l)))) =
      some s1FinalLayer
    simp only [h1, h2, h3, h4, Option.some_bind]
    rfl
  have hpr : propagateAll 8 [zB] s1FinalLayer [] = some (s1FinalLayer, []) := rfl
  have hp5 : phase5 8 4 [zB] s1SeedLayer = some s1FinalLayer := by
    show (sweepAll 8 [zB] s1SeedLayer).bind
        (fun l1 => (propagateAll 8 [zB] l1 []).bind (fun r => phase5 8 3 r.2 r.1)) =
      some s1FinalLayer
    rw [hsw]
    show (propagateAll 8 [zB] s1FinalLayer []).bind (fun r => phase5 8 3 r.2 r.1) =
      some s1FinalLayer
    rw [hpr]
    rfl
  show (cpuPhase14 8 s1Tsdf s1Esdf s1U 4).bind (fun r => phase5 8 4 r.dirty r.layer) =
    some s1FinalLayer
  rw [s1_phase14]
  show phase5 8 4 [zB] s1SeedLayer = some s1FinalLayer
  exact hp5

/-- **C7 (counterexample).** Scenario S1 terminates, but the voxel at
(0, 0, 1) of the allocated block is left in its default state — not Fixed —
because only X/Y sweeps and X/Y propagations are dispatched, so nothing ever
reaches the z ≠ 0 planes; the claim's "every voxel of every allocated block
becomes Fixed" is false. -/
theorem C7_s1_counterexample :
    update_blocks 8 s1Tsdf s1Esdf s1U 4 = some s1FinalLayer ∧
      voxelAt s1FinalLayer zB (linIdx 8 (0, 0, 1)) = some defaultEsdf ∧
      defaultEsdf.flags.fixed = false := by
  refine ⟨s1_update, ?_, rfl⟩
  show (layerFind [(zB, s1B4)] zB).map (fun blk => blkGet blk (linIdx 8 (0, 0, 1))) =
    some defaultEsdf
  rw [layerFind_singleton]
  show some (blkGet s1B4 (linIdx 8 (0, 0, 1))) = some defaultEsdf
  rw [s1B4_eq, s1B3_getD 0 0 1 (by norm_num) (by norm_num) (by norm_num),
    if_neg (by norm_num : ¬(1 : ℕ) = 0)]

/-- **C7 (amended).** Scenario S1 (`VPS = 8`, `voxel_size = 1`, one observed
TSDF voxel at the origin with distance 0, `U` = the seed's block): the update
terminates, and every voxel `(x, y, 0)` of the z = 0 plane of the allocated
block becomes Fixed with distance `(x + y) * voxel_size` — the Manhattan
distance along the X then Y axes.  (The claim's universal statement over all
voxels of the block fails off this plane; see the counterexample.) -/
theorem C7_s1_plane (x y : ℕ) (hx : x < 8) (hy : y < 8) :
    ∃ v : EsdfVoxel,
      (update_blocks 8 s1Tsdf s1Esdf s1U 4).bind
          (fun l => voxelAt l zB (linIdx 8 (x, y, 0))) = some v ∧
        v.flags.fixed = true ∧ v.distance = ((x : ℚ) + (y : ℚ)) * 1 := by
  refine ⟨if x = 0 ∧ y = 0 then obsVox else rayVox ((x : ℚ) + (y : ℚ)) zB, ?_, ?_, ?_⟩
  · rw [s1_update, Option.some_bind]
    show (layerFind [(zB, s1B4)] zB).map (fun blk => blkGet blk (linIdx 8 (x, y, 0))) =
      some (if x = 0 ∧ y = 0 then obsVox else rayVox ((x : ℚ) + (y : ℚ)) zB)
    rw [layerFind_singleton]
    show some (blkGet s1B4 (linIdx 8 (x, y, 0))) =
      some (if x = 0 ∧ y = 0 then obsVox else rayVox ((x : ℚ) + (y : ℚ)) zB)
    rw [s1B4_eq, s1B3_getD x y 0 hx hy (by norm_num), if_pos (rfl : (0 : ℕ) = 0)]
  · by_cases h : x = 0 ∧ y = 0
    · rw [if_pos h]
      rfl
    · rw [if_neg h]
      rfl
  · by_cases h : x = 0 ∧ y = 0
    · obtain ⟨hx0, hy0⟩ := h
      subst hx0
      subst hy0
      rw [if_pos (show (0 : ℕ) = 0 ∧ (0 : ℕ) = 0 from ⟨rfl, rfl⟩)]
      show (0 : ℚ) = (((0 : ℕ) : ℚ) + ((0 : ℕ) : ℚ)) * 1
      norm_num
    · rw [if_neg h]
      show (x : ℚ) + (y : ℚ) = ((x : ℚ) + (y : ℚ)) * 1
      ring

/-- Witness for `C7_s1_plane` at the concrete plane voxel x = 3, y = 2. -/
theorem C7_s1_plane_witness :
    (3 : ℕ) < 8 ∧ (2 : ℕ) < 8 ∧
      ∃ v : EsdfVoxel,
        (update_blocks 8 s1Tsdf s1Esdf s1U 4).bind
            (fun l => voxelAt l zB (linIdx 8 (3, 2, 0))) = some v ∧
          v.flags.fixed = true ∧ v.distance = (((3 : ℕ) : ℚ) + ((2 : ℕ) : ℚ)) * 1 :=
  ⟨by norm_num, by norm_num, C7_s1_plane 3 2 (by norm_num) (by norm_num)⟩

/-! ### C5: the sweep relaxation rule -/

/-- Overwrite case of the sweep rule: Fixed parent, Fixed non-Observed voxel,
strict improvement. -/
theorem sweepVoxelRule_overwrite {vs : ℚ} {p c : EsdfVoxel}
    (hp : p.flags.fixed = true) (hobs : c.flags.observed = false)
    (hc : c.flags.fixed = true) (hlt : p.distance + vs < c.distance) :
    sweepVoxelRule vs p c =
      { c with
        distance := p.distance + vs
        site_block_index := p.site_block_index } := by
  unfold sweepVoxelRule
  rw [hp, hobs, hc]
  simp [hlt]

/-- Fixing case of the sweep rule: Fixed parent, unfixed non-Observed voxel. -/
theorem sweepVoxelRule_fix {vs : ℚ} {p c : EsdfVoxel}
    (hp : p.flags.fixed = true) (hobs : c.flags.observed = false)
    (hc : c.flags.fixed = false) :
    sweepVoxelRule vs p c =
      { c with
        distance := p.distance + vs
        flags := { c.flags with fixed := true, hasSiteIndex := true }
        site_block_index := p.site_block_index } := by
  unfold sweepVoxelRule
  rw [hp, hobs, hc]
  simp

/-- **C5 (counterexample).** The claim's overwrite-iff clause omits the
parent-Fixed requirement: with an *unfixed* parent of distance 0, voxel size
1, and a Fixed non-Observed voxel of distance 5, the strict-improvement test
`0 + 1 < 5` holds, yet the sweep rule leaves the voxel unchanged. -/
theorem C5_counterexample :
    defaultEsdf.distance + 1 < (rayVox 5 zB).distance ∧
      (rayVox 5 zB).flags.fixed = true ∧ (rayVox 5 zB).flags.observed = false ∧
      defaultEsdf.flags.fixed = false ∧
      sweepVoxelRule 1 defaultEsdf (rayVox 5 zB) = rayVox 5 zB := by
  refine ⟨by norm_num [defaultEsdf, rayVox], rfl, rfl, rfl, ?_⟩
  exact sweepVoxelRule_id_of_unfixed_parent rfl

/-- **C5 (amended).** In every 1D axis sweep, per voxel: an Observed voxel is
never modified; a Fixed non-Observed voxel has its distance and site
overwritten if and only if *the parent is Fixed and* parent.distance +
voxel_size is strictly less than its distance, and it remains Fixed; an
unfixed non-Observed voxel with a Fixed parent receives parent.distance +
voxel_size and gains Fixed and HasSiteIndex. -/
theorem C5_sweep_rule (vs : ℚ) (p c : EsdfVoxel) :
    (c.flags.observed = true → sweepVoxelRule vs p c = c) ∧
    (c.flags.fixed = true → c.flags.observed = false →
      sweepVoxelRule vs p c =
        (if p.flags.fixed = true ∧ p.distance + vs < c.distance then
          { c with
            distance := p.distance + vs
            site_block_index := p.site_block_index }
        else c) ∧
      (sweepVoxelRule vs p c).flags.fixed = true) ∧
    (c.flags.fixed = false → c.flags.observed = false → p.flags.fixed = true →
      sweepVoxelRule vs p c =
        { c with
          distance := p.distance + vs
          flags := { c.flags with fixed := true, hasSiteIndex := true }
          site_block_index := p.site_block_index }) := by
  refine ⟨sweepVoxelRule_id_of_observed, fun hfix hobs => ⟨?_, ?_⟩,
    fun hnf hobs hpf => sweepVoxelRule_fix hpf hobs hnf⟩
  · by_cases hpf : p.flags.fixed = true
    · by_cases hlt : p.distance + vs < c.distance
      · rw [sweepVoxelRule_overwrite hpf hobs hfix hlt, if_pos ⟨hpf, hlt⟩]
      · rw [sweepVoxelRule_id_of_no_improve hfix hlt,
          if_neg (fun hc' => hlt hc'.2)]
    · have hpf' : p.flags.fixed = false := by
        revert hpf
        cases p.flags.fixed <;> simp
      rw [sweepVoxelRule_id_of_unfixed_parent hpf', if_neg (fun hc' => hpf hc'.1)]
  · by_cases hpf : p.flags.fixed = true
    · by_cases hlt : p.distance + vs < c.distance
      · rw [sweepVoxelRule_overwrite hpf hobs hfix hlt]
        exact hfix
      · rw [sweepVoxelRule_id_of_no_improve hfix hlt]
        exact hfix
    · have hpf' : p.flags.fixed = false := by
        revert hpf
        cases p.flags.fixed <;> simp
      rw [sweepVoxelRule_id_of_unfixed_parent hpf']
      exact hfix

/-- Witness for `C5_sweep_rule`: a Fixed parent of distance 0 relaxes a Fixed
non-Observed voxel of distance 5 down to 1. -/
theorem C5_sweep_rule_witness :
    sweepVoxelRule 1 (rayVox 0 zB) (rayVox 5 zB) =
      { rayVox 5 zB with
        distance := (rayVox 0 zB).distance + 1
        site_block_index := (rayVox 0 zB).site_block_index } := by
  rw [((C5_sweep_rule 1 (rayVox 0 zB) (rayVox 5 zB)).2.1 rfl rfl).1,
    if_pos (show (rayVox 0 zB).flags.fixed = true ∧
        (rayVox 0 zB).distance + 1 < (rayVox 5 zB).distance from
      ⟨rfl, by norm_num [rayVox]⟩)]

/-! ### C1: the propagation write rule -/

/-- **C1 (counterexample).** `propagate_to_neighbour` on the `c1L` scenario
writes the neighbor voxel with distance pivot + voxel_size and the pivot's
site, but sets only `Fixed` — the written voxel does *not* carry
`HasSiteIndex`, contradicting the claim. -/
theorem C1_counterexample :
    propagate_to_neighbour 1 .xPlus zB c1L =
      some (⟨1, [(zB, [obsVox]), (oneB, [c1Written])]⟩, some oneB) ∧
      obsVox.flags.fixed = true ∧
      defaultEsdf.flags.observed = false ∧ defaultEsdf.flags.fixed = false ∧
      c1Written.distance = obsVox.distance + 1 ∧
      c1Written.site_block_index = obsVox.site_block_index ∧
      c1Written.flags.fixed = true ∧
      c1Written.flags.hasSiteIndex = false := by
  refine ⟨?_, rfl, rfl, rfl, by norm_num [c1Written, obsVox], rfl, rfl, rfl⟩
  with_unfolding_all decide

/-- **C1 (amended).** In the propagate step, when the pivot voxel is Fixed and
the neighbor voxel is neither Observed nor Fixed, the write sets distance =
pivot.distance + voxel_size, copies the pivot's site block index, and sets
the Fixed flag *only*: HasSiteIndex (like every other flag of the neighbor)
is left unchanged, so a previously-unfixed neighbor does not gain
HasSiteIndex. -/
theorem C1_prop_rule (vs : ℚ) (p n : EsdfVoxel)
    (hp : p.flags.fixed = true) (hno : n.flags.observed = false)
    (hnf : n.flags.fixed = false) :
    propVoxelRule vs p n =
      ({ n with
        distance := p.distance + vs
        flags := { n.flags with fixed := true }
        site_block_index := p.site_block_index }, true) ∧
      (propVoxelRule vs p n).1.flags.hasSiteIndex = n.flags.hasSiteIndex := by
  unfold propVoxelRule
  rw [hp, hno, hnf]
  simp

/-- Witness for `C1_prop_rule`: a Fixed pivot of distance 0 writes a default
neighbor voxel. -/
theorem C1_prop_rule_witness :
    propVoxelRule 1 obsVox defaultEsdf =
      ({ defaultEsdf with
        distance := obsVox.distance + 1
        flags := { defaultEsdf.flags with fixed := true }
        site_block_index := obsVox.site_block_index }, true) ∧
      (propVoxelRule 1 obsVox defaultEsdf).1.flags.hasSiteIndex =
        defaultEsdf.flags.hasSiteIndex :=
  C1_prop_rule 1 obsVox defaultEsdf rfl rfl rfl

/-! ### C2: seeding of observed TSDF voxels -/

/-- **C2 (counterexample).** With `U = ∅` the update terminates but seeds
nothing: a TSDF voxel with weight 1 ends with a default ESDF voxel that is
neither Observed nor Fixed, refuting the claim's unconditional version. -/
theorem C2_counterexample :
    update_blocks 1 c2Tsdf ⟨1, []⟩ [] 1 = some ⟨1, [(zB, [defaultEsdf])]⟩ ∧
      0 < (tblkGet [(⟨0, 1⟩ : TsdfVoxel)] 0).weight ∧
      (blkGet [defaultEsdf] 0).flags.observed = false ∧
      (blkGet [defaultEsdf] 0).flags.fixed = false := by
  refine ⟨rfl, by norm_num [tblkGet], rfl, rfl⟩

/-- **C2 (amended).** Phase 4 seeding gives every TSDF voxel with weight > 0
*in a cleared block* an ESDF voxel that is Observed, Fixed, HasSiteIndex,
with the TSDF distance and its own block index as site; and both the sweep
and the propagation rules of phase 5 are the identity on Observed voxels, so
the property persists for the blocks actually seeded.  (It does not hold for
blocks outside `blocks_to_clear`; see the counterexample.) -/
theorem C2_seed_invariant :
    (∀ (vps : ℕ) (tblk : TsdfBlock) (eblk : BlockVox) (b : BIdx),
      vps * vps * vps ≤ eblk.length → ∀ i, i < vps * vps * vps →
      0 < (tblkGet tblk i).weight →
      blkGet (seedBlock vps tblk eblk b) i =
        { distance := (tblkGet tblk i).distance
          flags := ⟨true, true, true, (blkGet eblk i).flags.updated⟩
          site_block_index := b }) ∧
    (∀ (vs : ℚ) (p c : EsdfVoxel), c.flags.observed = true →
      sweepVoxelRule vs p c = c ∧ propVoxelRule vs p c = (c, false)) := by
  constructor
  · intro vps tblk eblk b hlen i hi hw
    rw [seedBlock_getD vps tblk eblk b hlen i, if_pos hi]
    unfold seedEsdfVoxel
    rw [if_pos hw]
  · intro vs p c hobs
    refine ⟨sweepVoxelRule_id_of_observed hobs, ?_⟩
    unfold propVoxelRule
    rw [hobs]
    simp

/-- Witness for `C2_seed_invariant`: a one-voxel block with an observed TSDF
voxel seeds to the site voxel, and the sweep rule fixes it in place. -/
theorem C2_seed_invariant_witness :
    blkGet (seedBlock 1 [(⟨0, 1⟩ : TsdfVoxel)] [defaultEsdf] zB) 0 = obsVox ∧
      sweepVoxelRule 1 defaultEsdf obsVox = obsVox := by
  constructor
  · rw [C2_seed_invariant.1 1 [(⟨0, 1⟩ : TsdfVoxel)] [defaultEsdf] zB (by norm_num) 0
      (by norm_num) (by norm_num [tblkGet])]
    rfl
  · exact (C2_seed_invariant.2 1 defaultEsdf obsVox rfl).1

/-! ### C6: the face-neighbor distance invariant -/

/-- Extracting per-cell no-op facts from a sweep column that leaves every
position of its column unchanged. -/
theorem sweepRow_id_extract (vs : ℚ) (step : ℤ) (order : ℕ × ℕ × ℕ) (vps : ℕ)
    (ho : goodOrder order) (u v : ℕ) (hu : u < vps) (hv : v < vps)
    (ws : List ℕ) (hnd : ws.Nodup)
    (hws : ∀ w ∈ ws, w < vps ∧ ((w : ℤ) - step).toNat < vps)
    (blk : BlockVox) (hlen : vps * vps * vps ≤ blk.length)
    (hid : ∀ w', w' < vps →
      blkGet (sweepRow vs step order vps u v ws blk) (linIdx vps (mkPos order u v w')) =
        blkGet blk (linIdx vps (mkPos order u v w'))) :
    ∀ w ∈ ws,
      sweepVoxelRule vs
          (blkGet blk (linIdx vps (mkPos order u v ((w : ℤ) - step).toNat)))
          (blkGet blk (linIdx vps (mkPos order u v w))) =
        blkGet blk (linIdx vps (mkPos order u v w)) := by
  induction ws generalizing blk with
  | nil =>
    intro w hw
    cases hw
  | cons w0 rest ih =>
    have hw0b := hws w0 (List.mem_cons_self _ _)
    have hb0 := mkPos_bounds ho hu hv hw0b.1
    have hi0lt : linIdx vps (mkPos order u v w0) < blk.length :=
      lt_of_lt_of_le (linIdx_lt _ _ hb0.1 hb0.2.1 hb0.2.2) hlen
    have hne : ∀ x ∈ rest,
        linIdx vps (mkPos order u v w0) ≠ linIdx vps (mkPos order u v x) := by
      intro x hx heq
      obtain ⟨_, _, h3⟩ := mkPos_linIdx_inj ho hu hv hw0b.1 hu hv
        (hws x (List.mem_cons_of_mem _ hx)).1 heq
      exact (List.nodup_cons.mp hnd).1 (h3 ▸ hx)
    have hfirst :
        sweepVoxelRule vs
            (blkGet blk (linIdx vps (mkPos order u v ((w0 : ℤ) - step).toNat)))
            (blkGet blk (linIdx vps (mkPos order u v w0))) =
          blkGet blk (linIdx vps (mkPos order u v w0)) := by
      have h1 := hid w0 hw0b.1
      rw [sweepRow_cons, sweepCell_eq,
        sweepRow_getD_ne vs step order vps u v rest _ _ hne, blkGet_blkSet,
        if_pos ⟨rfl, hi0lt⟩] at h1
      exact h1
    intro w hw
    rcases List.mem_cons.mp hw with rfl | hwr
    · exact hfirst
    · have hself : sweepCell vs step order vps blk (u, v, w0) = blk := by
        rw [sweepCell_eq, hfirst, blkSet_self]
      refine ih (List.nodup_cons.mp hnd).2
        (fun x hx => hws x (List.mem_cons_of_mem _ hx)) blk hlen ?_ w hwr
      intro w' hw'
      have h2 := hid w' hw'
      rw [sweepRow_cons, hself] at h2
      exact h2

theorem wRange_nodup (vps : ℕ) (h2 : 2 ≤ vps) (step : ℤ) (hs : step = 1 ∨ step = -1) :
    (wRange step vps).Nodup := by
  rcases hs with rfl | rfl
  · rw [wRange_one vps h2]
    exact List.nodup_range' 1 (vps - 1)
  · rw [wRange_negOne vps h2]
    exact List.nodup_reverse.mpr (List.nodup_range' 0 (vps - 1))

/-- Extracting per-cell no-op facts from a whole sweep pass that leaves the
block unchanged. -/
theorem sweepPass_id_extract (vs : ℚ) (step : ℤ) (order : ℕ × ℕ × ℕ) (vps : ℕ)
    (ho : goodOrder order) (h2 : 2 ≤ vps) (hs : step = 1 ∨ step = -1)
    (blk : BlockVox) (hlen : vps * vps * vps ≤ blk.length)
    (hid : sweepPass vs step order vps blk = blk) :
    ∀ u v w, u < vps → v < vps → w ∈ wRange step vps →
      sweepVoxelRule vs
          (blkGet blk (linIdx vps (mkPos order u v ((w : ℤ) - step).toNat)))
          (blkGet blk (linIdx vps (mkPos order u v w))) =
        blkGet blk (linIdx vps (mkPos order u v w)) := by
  intro u v w hu hv hw
  refine sweepRow_id_extract vs step order vps ho u v hu hv (wRange step vps)
    (wRange_nodup vps h2 step hs) (wRange_bounds vps h2 step hs) blk hlen ?_ w hw
  intro w' hw'
  rw [← sweepPass_row vs step order vps ho (wRange_bounds vps h2 step hs) hu hv hw' blk, hid]

/-- A sweep-rule fixed point with Fixed parent and Fixed non-Observed voxel
forces the face-neighbor inequality. -/
theorem sweepVoxelRule_id_le {vs : ℚ} {p c : EsdfVoxel} (hp : p.flags.fixed = true)
    (hcf : c.flags.fixed = true) (hco : c.flags.observed = false)
    (h : sweepVoxelRule vs p c = c) : c.distance ≤ p.distance + vs := by
  by_contra hgt
  push_neg at hgt
  rw [sweepVoxelRule_overwrite hp hco hcf hgt] at h
  have hd : p.distance + vs = c.distance := congrArg EsdfVoxel.distance h
  exact absurd hd (ne_of_lt hgt)

/-- **C6 (counterexample).** A terminated `VPS = 2` update with two observed
sites at the same XY position but different Z (distance 0 at local (0,0,0)
and distance 10 at (0,0,1)) leaves the voxel at local (1,0,1) Fixed,
non-Observed, with distance 11, while its Z face-neighbor (1,0,0) is Fixed
with distance 1: `11 ≤ 1 + 1` fails, so the claim's inequality does not hold
for Z face-neighbors (no Z sweep or Z propagation is ever dispatched). -/
theorem C6_counterexample :
    update_blocks 2 c6Tsdf ⟨1, []⟩ [zB] 4 = some c6Final ∧
      from_block_and_voxel_index 2 zB (1, 0, 1) = ((1 : ℤ), (0 : ℤ), (1 : ℤ)) ∧
      from_block_and_voxel_index 2 zB (1, 0, 0) = ((1 : ℤ), (0 : ℤ), (0 : ℤ)) ∧
      voxelAt c6Final zB (linIdx 2 (1, 0, 1)) = some c6V ∧
      voxelAt c6Final zB (linIdx 2 (1, 0, 0)) = some c6UVox ∧
      c6V.flags.fixed = true ∧ c6V.flags.observed = false ∧
      c6UVox.flags.fixed = true ∧
      ¬(c6V.distance ≤ c6UVox.distance + c6Final.voxelSize) := by
  with_unfolding_all decide

/-- **C6 (amended).** Inside a block that is a fixpoint of the four
dispatched sweep passes (X+, X−, Y+, Y−), every Fixed non-Observed voxel v
satisfies distance(v) ≤ distance(u) + voxel_size for every Fixed X- or
Y-face-neighbor u in the block.  No more than this holds: the Z direction
is never swept or propagated (see the counterexample), and a terminated
update need not leave its blocks at sweep fixpoints — dirtiness is
re-triggered only by cross-block propagation writes — so even the X/Y
inequality can fail after termination.  The second conjunct shows a
terminated `VPS = 2` run (observed distance 0 at local (0,0,0), distance
100 at (1,0,0)) whose voxel (1,1,0) is Fixed non-Observed at distance 101
beside the Fixed X-neighbor (0,1,0) at distance 1, the final block not
being an X+ sweep fixpoint. -/
theorem C6_xy_invariant :
    (∀ (vs : ℚ) (vps : ℕ), 2 ≤ vps → ∀ blk : BlockVox,
      vps * vps * vps ≤ blk.length →
      sweepPass vs 1 (2, 1, 0) vps blk = blk →
      sweepPass vs (-1) (2, 1, 0) vps blk = blk →
      sweepPass vs 1 (2, 0, 1) vps blk = blk →
      sweepPass vs (-1) (2, 0, 1) vps blk = blk →
      ∀ x y z x' y' : ℕ, x < vps → y < vps → z < vps → x' < vps → y' < vps →
      ((x' = x + 1 ∧ y' = y) ∨ (x = x' + 1 ∧ y' = y) ∨
        (x' = x ∧ y' = y + 1) ∨ (x' = x ∧ y = y' + 1)) →
      (blkGet blk (linIdx vps (x, y, z))).flags.fixed = true →
      (blkGet blk (linIdx vps (x, y, z))).flags.observed = false →
      (blkGet blk (linIdx vps (x', y', z))).flags.fixed = true →
      (blkGet blk (linIdx vps (x, y, z))).distance ≤
        (blkGet blk (linIdx vps (x', y', z))).distance + vs) ∧
    (update_blocks 2 c6bTsdf ⟨1, []⟩ [zB] 4 = some c6bFinal ∧
      voxelAt c6bFinal zB (linIdx 2 (1, 1, 0)) = some c6bV ∧
      voxelAt c6bFinal zB (linIdx 2 (0, 1, 0)) = some c6bU ∧
      c6bV.flags.fixed = true ∧ c6bV.flags.observed = false ∧
      c6bU.flags.fixed = true ∧
      ¬(c6bV.distance ≤ c6bU.distance + c6bFinal.voxelSize) ∧
      sweepPass c6bFinal.voxelSize 1 (2, 1, 0) 2 c6bBlk ≠ c6bBlk) := by
  constructor
  · intro vs vps hvps blk hlen hxp hxm hyp hym x y z x' y' hx hy hz hx' hy' hnb hvf hvo huf
    rcases hnb with ⟨hx1, hy1⟩ | ⟨hx1, hy1⟩ | ⟨hx1, hy1⟩ | ⟨hx1, hy1⟩
    · subst hx1
      subst hy1
      have hmem : x ∈ wRange (-1) vps := (mem_wRange_negOne hvps).mpr (by omega)
      have hext := sweepPass_id_extract vs (-1) (2, 1, 0) vps (Or.inl rfl) hvps
        (Or.inr rfl) blk hlen hxm z y' x hz hy' hmem
      rw [show (((x : ℕ) : ℤ) - (-1)).toNat = x + 1 from by omega,
        mkPos_210, mkPos_210] at hext
      exact sweepVoxelRule_id_le huf hvf hvo hext
    · subst hx1
      subst hy1
      have hmem : x' + 1 ∈ wRange 1 vps := (mem_wRange_one hvps).mpr ⟨by omega, hx⟩
      have hext := sweepPass_id_extract vs 1 (2, 1, 0) vps (Or.inl rfl) hvps
        (Or.inl rfl) blk hlen hxp z y' (x' + 1) hz hy' hmem
      rw [show (((x' + 1 : ℕ) : ℤ) - 1).toNat = x' from by omega,
        mkPos_210, mkPos_210] at hext
      exact sweepVoxelRule_id_le huf hvf hvo hext
    · subst hx1
      subst hy1
      have hmem : y ∈ wRange (-1) vps := (mem_wRange_negOne hvps).mpr (by omega)
      have hext := sweepPass_id_extract vs (-1) (2, 0, 1) vps (Or.inr (Or.inl rfl)) hvps
        (Or.inr rfl) blk hlen hym z x' y hz hx' hmem
      rw [show (((y : ℕ) : ℤ) - (-1)).toNat = y + 1 from by omega,
        mkPos_201, mkPos_201] at hext
      exact sweepVoxelRule_id_le huf hvf hvo hext
    · subst hx1
      subst hy1
      have hmem : y' + 1 ∈ wRange 1 vps := (mem_wRange_one hvps).mpr ⟨by omega, hy⟩
      have hext := sweepPass_id_extract vs 1 (2, 0, 1) vps (Or.inr (Or.inl rfl)) hvps
        (Or.inl rfl) blk hlen hyp z x' (y' + 1) hz hx' hmem
      rw [show (((y' + 1 : ℕ) : ℤ) - 1).toNat = y' from by omega,
        mkPos_201, mkPos_201] at hext
      exact sweepVoxelRule_id_le huf hvf hvo hext
  · with_unfolding_all decide

/-! ### C3: GPU vs CPU phases 1-4 -/

/-- **C3 (counterexample).** On the `c3L` scenario the CPU BFS clears only the
origin block and marks the preserved face-neighbor (0,1,0) dirty, while the
GPU BFS — which expands all 26 neighbours of every visited block
unconditionally and collects no dirty set — also clears the edge-neighbor
(1,1,0); and GPU seeding gives an observed voxel flags {Fixed, Observed}
where the CPU gives {Fixed, Observed, HasSiteIndex}. -/
theorem C3_counterexample :
    bfs 1 c3L [zB] 4 [zB] [] [zB] [] = some ([zB], [zeroOneB]) ∧
      gpuBfs 1 c3L [zB] 4 [zB] [] [zB] = some [zB, oneOneB] ∧
      ([zB] : List BIdx) ≠ [zB, oneOneB] ∧
      gpuSeedEsdfVoxel ⟨0, 1⟩ defaultEsdf zB = ⟨0, ⟨true, true, false, false⟩, zB⟩ ∧
      seedEsdfVoxel ⟨0, 1⟩ defaultEsdf zB = obsVox ∧
      (⟨0, ⟨true, true, false, false⟩, zB⟩ : EsdfVoxel) ≠ obsVox := by
  with_unfolding_all decide

/-- **C3 (amended).** The GPU integrator shares phase 1 and phase 2a with the
CPU: the site-collection passes are identical functions, so `sites_to_clear`
always agrees.  Phase 4 seeding agrees on distance, site index, Observed and
Fixed, but the GPU leaves HasSiteIndex unchanged where the CPU sets it.
(Phase 2b differs: the GPU expands all 26 neighbours of every visited
allocated block and adds no preserved block to dirty; see the
counterexample.) -/
theorem C3_gpu_phase_refinement :
    (∀ (vps : ℕ) (bs : List BIdx) (l : EsdfLayer) (sites : List BIdx),
      gpuCollectSites vps bs l sites = collectSites vps bs l sites) ∧
    (∀ (tv : TsdfVoxel) (ev : EsdfVoxel) (b : BIdx), 0 < tv.weight →
      (seedEsdfVoxel tv ev b).flags.observed = true ∧
      (seedEsdfVoxel tv ev b).flags.fixed = true ∧
      (seedEsdfVoxel tv ev b).flags.hasSiteIndex = true ∧
      (gpuSeedEsdfVoxel tv ev b).flags.observed = true ∧
      (gpuSeedEsdfVoxel tv ev b).flags.fixed = true ∧
      (gpuSeedEsdfVoxel tv ev b).flags.hasSiteIndex = ev.flags.hasSiteIndex ∧
      (gpuSeedEsdfVoxel tv ev b).distance = (seedEsdfVoxel tv ev b).distance ∧
      (gpuSeedEsdfVoxel tv ev b).site_block_index =
        (seedEsdfVoxel tv ev b).site_block_index) := by
  constructor
  · intro vps bs
    induction bs with
    | nil =>
      intro l sites
      rfl
    | cons b rest ih =>
      intro l sites
      show gpuCollectSites vps rest _ _ = collectSites vps (b :: rest) l sites
      rw [ih]
      rfl
  · intro tv ev b hw
    unfold seedEsdfVoxel gpuSeedEsdfVoxel
    rw [if_pos hw, if_pos hw]
    exact ⟨rfl, rfl, rfl, rfl, rfl, rfl, rfl, rfl⟩

/-- Witness for `C3_gpu_phase_refinement` on the `c3L` scenario and an
observed voxel. -/
theorem C3_gpu_phase_refinement_witness :
    gpuCollectSites 1 [zB] c3L [] = collectSites 1 [zB] c3L [] ∧
      (gpuSeedEsdfVoxel ⟨0, 1⟩ defaultEsdf zB).flags.hasSiteIndex =
        defaultEsdf.flags.hasSiteIndex :=
  ⟨C3_gpu_phase_refinement.1 1 [zB] c3L [],
    (C3_gpu_phase_refinement.2 ⟨0, 1⟩ defaultEsdf zB (by norm_num)).2.2.2.2.2.1⟩

/-! ### C8: idempotence of the update with an empty update set

The second run only needs that every TSDF block index is allocated in the
ESDF layer; every phase of a terminated first run preserves or adds
allocations, so this holds for its output. -/

theorem bind_some_elim {α β : Type} {x : Option α} {f : α → Option β} {b : β}
    (h : (do let a ← x; f a) = some b) : ∃ a, x = some a ∧ f a = some b := by
  cases x with
  | none => exact Option.noConfusion h
  | some a => exact ⟨a, rfl, h⟩

theorem layerFind_layerSet_isSome {α : Type} (bs : List (BIdx × α)) (c b : BIdx) (blk : α) :
    (layerFind (layerSet bs c blk) b).isSome = (layerFind bs b).isSome := by
  induction bs with
  | nil => rfl
  | cons p rest ih =>
    unfold layerSet layerFind at *
    rw [List.map_cons, List.find?_cons, List.find?_cons]
    have hkey : (if p.1 = c then (c, blk) else p).1 = p.1 := by
      split
      · rename_i hc
        exact hc.symm
      · rfl
    rw [hkey]
    cases hd : decide (p.1 = b) with
    | true => rfl
    | false => exact ih

theorem layerFind_append_self_isSome {α : Type} (bs : List (BIdx × α)) (b : BIdx) (blk : α) :
    (layerFind (bs ++ [(b, blk)]) b).isSome = true := by
  induction bs with
  | nil => simp [layerFind, List.find?]
  | cons p rest ih =>
    unfold layerFind at *
    rw [List.cons_append, List.find?_cons]
    cases hd : decide (p.1 = b) with
    | true => rfl
    | false => exact ih

theorem layerFind_append_isSome_of {α : Type} (bs : List (BIdx × α)) (q : BIdx × α) (b : BIdx)
    (h : (layerFind bs b).isSome = true) :
    (layerFind (bs ++ [q]) b).isSome = true := by
  induction bs with
  | nil => cases h
  | cons p rest ih =>
    unfold layerFind at *
    rw [List.cons_append, List.find?_cons]
    rw [List.find?_cons] at h
    cases hd : decide (p.1 = b) with
    | true => rfl
    | false =>
      rw [hd] at h
      exact ih h

theorem layerFind_allocate_self (vps : ℕ) (l : EsdfLayer) (b : BIdx) :
    (layerFind (allocate_block_by_index vps l b).blocks b).isSome = true := by
  unfold allocate_block_by_index
  by_cases hc : (layerFind l.blocks b).isSome = true
  · rw [if_pos hc]
    exact hc
  · rw [if_neg hc]
    exact layerFind_append_self_isSome l.blocks b (defaultEsdfBlock vps)

theorem layerFind_allocate_mono (vps : ℕ) (l : EsdfLayer) (c b : BIdx)
    (h : (layerFind l.blocks b).isSome = true) :
    (layerFind (allocate_block_by_index vps l c).blocks b).isSome = true := by
  unfold allocate_block_by_index
  by_cases hc : (layerFind l.blocks c).isSome = true
  · rw [if_pos hc]
    exact h
  · rw [if_neg hc]
    exact layerFind_append_isSome_of l.blocks _ b h

theorem foldl_allocate_mono (vps : ℕ) {β : Type} (key : β → BIdx) :
    ∀ (bs : List β) (l : EsdfLayer) (b : BIdx),
      (layerFind l.blocks b).isSome = true →
      (layerFind ((bs.foldl (fun l p => allocate_block_by_index vps l (key p)) l)).blocks
        b).isSome = true := by
  intro bs
  induction bs with
  | nil => exact fun l b h => h
  | cons p rest ih =>
    intro l b h
    rw [List.foldl_cons]
    exact ih _ b (layerFind_allocate_mono vps l (key p) b h)

theorem mirrorAllocate_allocates (vps : ℕ) :
    ∀ (bs : List (BIdx × TsdfBlock)) (l : EsdfLayer) (x : BIdx × TsdfBlock), x ∈ bs →
      (layerFind ((bs.foldl (fun l p => allocate_block_by_index vps l p.1) l)).blocks
        x.1).isSome = true := by
  intro bs
  induction bs with
  | nil =>
    intro l x hx
    cases hx
  | cons p rest ih =>
    intro l x hx
    rw [List.foldl_cons]
    rcases List.mem_cons.mp hx with rfl | hx'
    · exact foldl_allocate_mono vps Prod.fst rest _ x.1 (layerFind_allocate_self vps l x.1)
    · exact ih _ x hx'

theorem collectSites_mono (vps : ℕ) :
    ∀ (bs : List BIdx) (l : EsdfLayer) (sites : List BIdx) (b : BIdx),
      (layerFind l.blocks b).isSome = true →
      (layerFind (collectSites vps bs l sites).1.blocks b).isSome = true := by
  intro bs
  induction bs with
  | nil => exact fun l sites b h => h
  | cons b0 rest ih =>
    intro l sites b h
    exact ih _ _ b (layerFind_allocate_mono vps l b0 b h)

theorem resetBlocks_mono (vps : ℕ) :
    ∀ (bs : List BIdx) (l : EsdfLayer) (b : BIdx),
      (layerFind l.blocks b).isSome = true →
      (layerFind (resetBlocks vps bs l).blocks b).isSome = true := by
  intro bs
  induction bs with
  | nil => exact fun l b h => h
  | cons b0 rest ih =>
    intro l b h
    show (layerFind (resetBlocks vps rest
      ⟨(allocate_block_by_index vps l b0).voxelSize,
        layerSet (allocate_block_by_index vps l b0).blocks b0 (defaultEsdfBlock vps)⟩).blocks
      b).isSome = true
    refine ih _ b ?_
    show (layerFind (layerSet (allocate_block_by_index vps l b0).blocks b0
      (defaultEsdfBlock vps)) b).isSome = true
    rw [layerFind_layerSet_isSome]
    exact layerFind_allocate_mono vps l b0 b h

theorem transfer_mono (vps : ℕ) (tsdf : TsdfLayer) :
    ∀ (bs : List BIdx) (l : EsdfLayer) (d : List BIdx) (l' : EsdfLayer) (d' : List BIdx),
      transfer vps tsdf bs l d = some (l', d') → ∀ b,
      (layerFind l.blocks b).isSome = true → (layerFind l'.blocks b).isSome = true := by
  intro bs
  induction bs with
  | nil =>
    intro l d l' d' h b hb
    cases h
    exact hb
  | cons b0 rest ih =>
    intro l d l' d' h b hb
    simp only [transfer] at h
    cases htf : layerFind tsdf.blocks b0 with
    | none =>
      rw [htf] at h
      exact Option.noConfusion h
    | some tblk =>
      rw [htf] at h
      refine ih _ _ _ _ h b ?_
      show (layerFind (layerSet (allocate_block_by_index vps l b0).blocks b0
        (seedBlock vps tblk
          ((layerFind (allocate_block_by_index vps l b0).blocks b0).getD
            (defaultEsdfBlock vps)) b0)) b).isSome = true
      rw [layerFind_layerSet_isSome]
      exact layerFind_allocate_mono vps l b0 b hb

theorem sweep_block_mono (vps : ℕ) (dir : OpDir) (bi : BIdx) (l l' : EsdfLayer)
    (h : sweep_block vps dir bi l = some l') (b : BIdx)
    (hb : (layerFind l.blocks b).isSome = true) :
    (layerFind l'.blocks b).isSome = true := by
  unfold sweep_block at h
  cases hf : layerFind l.blocks bi with
  | none =>
    rw [hf] at h
    exact Option.noConfusion h
  | some blk =>
    rw [hf] at h
    cases h
    show (layerFind (layerSet l.blocks bi
      (sweepPass l.voxelSize (opStep dir) (opOrder dir) vps blk)) b).isSome = true
    rw [layerFind_layerSet_isSome]
    exact hb

theorem sweepAll_mono (vps : ℕ) :
    ∀ (bs : List BIdx) (l l' : EsdfLayer), sweepAll vps bs l = some l' → ∀ b,
      (layerFind l.blocks b).isSome = true → (layerFind l'.blocks b).isSome = true := by
  intro bs
  induction bs with
  | nil =>
    intro l l' h b hb
    cases h
    exact hb
  | cons b0 rest ih =>
    intro l l' h b hb
    simp only [sweepAll] at h
    obtain ⟨l1, h1, h⟩ := bind_some_elim h
    obtain ⟨l2, h2, h⟩ := bind_some_elim h
    obtain ⟨l3, h3, h⟩ := bind_some_elim h
    obtain ⟨l4, h4, h⟩ := bind_some_elim h
    exact ih l4 l' h b (sweep_block_mono vps _ b0 l3 l4 h4 b
      (sweep_block_mono vps _ b0 l2 l3 h3 b (sweep_block_mono vps _ b0 l1 l2 h2 b
        (sweep_block_mono vps _ b0 l l1 h1 b hb))))

theorem propagate_mono (vps : ℕ) (dir : OpDir) (bi : BIdx) (l : EsdfLayer)
    (r : EsdfLayer × Option BIdx) (h : propagate_to_neighbour vps dir bi l = some r)
    (b : BIdx) (hb : (layerFind l.blocks b).isSome = true) :
    (layerFind r.1.blocks b).isSome = true := by
  unfold propagate_to_neighbour at h
  cases hn : layerFind l.blocks (nbIdx dir bi) with
  | none =>
    simp only [hn] at h
    cases h
    exact hb
  | some nblk =>
    simp only [hn] at h
    cases hp : layerFind l.blocks bi with
    | none =>
      simp only [hp] at h
      exact Option.noConfusion h
    | some pblk =>
      simp only [hp] at h
      cases h
      show (layerFind (layerSet l.blocks (nbIdx dir bi)
        (propPass l.voxelSize (opOrder dir) (faceNP vps dir) vps pblk nblk).1) b).isSome = true
      rw [layerFind_layerSet_isSome]
      exact hb

theorem propagateAll_mono (vps : ℕ) :
    ∀ (bs : List BIdx) (l : EsdfLayer) (d : List BIdx) (r : EsdfLayer × List BIdx),
      propagateAll vps bs l d = some r → ∀ b,
      (layerFind l.blocks b).isSome = true → (layerFind r.1.blocks b).isSome = true := by
  intro bs
  induction bs with
  | nil =>
    intro l d r h b hb
    cases h
    exact hb
  | cons b0 rest ih =>
    intro l d r h b hb
    simp only [propagateAll] at h
    obtain ⟨r1, h1, h⟩ := bind_some_elim h
    obtain ⟨r2, h2, h⟩ := bind_some_elim h
    obtain ⟨r3, h3, h⟩ := bind_some_elim h
    obtain ⟨r4, h4, h⟩ := bind_some_elim h
    exact ih r4.1 _ r h b (propagate_mono vps _ b0 r3.1 r4 h4 b
      (propagate_mono vps _ b0 r2.1 r3 h3 b (propagate_mono vps _ b0 r1.1 r2 h2 b
        (propagate_mono vps _ b0 l r1 h1 b hb))))

theorem phase5_mono (vps : ℕ) :
    ∀ (fuel : ℕ) (bs : List BIdx) (l l' : EsdfLayer),
      phase5 vps fuel bs l = some l' → ∀ b,
      (layerFind l.blocks b).isSome = true → (layerFind l'.blocks b).isSome = true := by
  intro fuel
  induction fuel with
  | zero =>
    intro bs l l' h b hb
    cases bs with
    | nil =>
      cases h
      exact hb
    | cons b0 rest => exact Option.noConfusion h
  | succ n ih =>
    intro bs l l' h b hb
    cases bs with
    | nil =>
      cases h
      exact hb
    | cons b0 rest =>
      simp only [phase5] at h
      obtain ⟨l1, h1, h⟩ := bind_some_elim h
      obtain ⟨r2, h2, h⟩ := bind_some_elim h
      exact ih _ _ _ h b (propagateAll_mono vps _ l1 [] r2 h2 b
        (sweepAll_mono vps _ l l1 h1 b hb))

/-- A terminated update leaves every TSDF block index allocated. -/
theorem update_blocks_allocates (vps : ℕ) (tsdf : TsdfLayer) (esdf : EsdfLayer)
    (U : List BIdx) (fuel : ℕ) (L : EsdfLayer)
    (h : update_blocks vps tsdf esdf U fuel = some L) :
    ∀ p ∈ tsdf.blocks, (layerFind L.blocks p.1).isSome = true := by
  intro p hp
  simp only [update_blocks] at h
  obtain ⟨r, hr, h5⟩ := bind_some_elim h
  simp only [cpuPhase14] at hr
  obtain ⟨rb, hrb, hr⟩ := bind_some_elim hr
  obtain ⟨t, ht, hr⟩ := bind_some_elim hr
  cases hr
  have h1 : (layerFind (mirrorAllocate vps tsdf esdf).blocks p.1).isSome = true :=
    mirrorAllocate_allocates vps tsdf.blocks esdf p hp
  have h2 := collectSites_mono vps U (mirrorAllocate vps tsdf esdf) [] p.1 h1
  have h3 := resetBlocks_mono vps rb.1 _ p.1 h2
  have h4 := transfer_mono vps tsdf rb.1 _ rb.2 t.1 t.2 (by rw [← ht]) p.1 h3
  exact phase5_mono vps fuel _ _ _ h5 p.1 h4

/-- **C8 (confirmed).** Idempotence: once `update_blocks` has terminated with
result layer L, running it again on the same TSDF with L and an empty
updated-block set returns exactly L (for any fuel): phases 1-4 allocate
nothing new (every TSDF block is already allocated), collect nothing, clear
nothing and seed nothing, and phase 5 starts with an empty dirty set. -/
theorem C8_idempotent (vps : ℕ) (tsdf : TsdfLayer) (esdf : EsdfLayer) (U : List BIdx)
    (fuel : ℕ) (L : EsdfLayer) (fuel' : ℕ)
    (h : update_blocks vps tsdf esdf U fuel = some L) :
    update_blocks vps tsdf L [] fuel' = some L := by
  have halloc := update_blocks_allocates vps tsdf esdf U fuel L h
  have hma : mirrorAllocate vps tsdf L = L := by
    unfold mirrorAllocate
    exact foldl_fix _ _ (fun p hp => by
      unfold allocate_block_by_index
      rw [if_pos (halloc p hp)])
  have hbfs : bfs vps L [] fuel' [] [] [] [] = some ([], []) := by
    cases fuel' <;> rfl
  have hp14 : cpuPhase14 vps tsdf L [] fuel' = some ⟨L, [], [], []⟩ := by
    unfold cpuPhase14
    rw [hma]
    show Option.bind (bfs vps (collectSites vps [] L []).1 (collectSites vps [] L []).2
        fuel' [] [] [] [])
      (fun r => Option.bind (transfer vps tsdf r.1 (resetBlocks vps r.1
          (collectSites vps [] L []).1) r.2)
        (fun t => some (⟨t.1, (collectSites vps [] L []).2, r.1, t.2⟩ : Phase14Out))) =
      some ⟨L, [], [], []⟩
    show Option.bind (bfs vps L [] fuel' [] [] [] [])
      (fun r => Option.bind (transfer vps tsdf r.1 (resetBlocks vps r.1 L) r.2)
        (fun t => some (⟨t.1, [], r.1, t.2⟩ : Phase14Out))) =
      some ⟨L, [], [], []⟩
    rw [hbfs]
    rfl
  show Option.bind (cpuPhase14 vps tsdf L [] fuel')
    (fun r => phase5 vps fuel' r.dirty r.layer) = some L
  rw [hp14]
  show phase5 vps fuel' [] L = some L
  cases fuel' <;> rfl

/-- Witness for `C8_idempotent`: a second empty-set update on the terminated
S1 scenario returns the same layer bit-identically. -/
theorem C8_idempotent_witness :
    update_blocks 8 s1Tsdf s1FinalLayer [] 4 = some s1FinalLayer :=
  C8_idempotent 8 s1Tsdf s1Esdf s1U 4 s1FinalLayer 4 s1_update

/-! ### C9: the termination measure -/

theorem latticeMem_base {S : List ℚ} {vs d : ℚ} (h : d ∈ S) : latticeMem S vs d :=
  ⟨d, h, 0, by push_cast; ring⟩

theorem latticeMem_step {S : List ℚ} {vs d : ℚ} (h : latticeMem S vs d) :
    latticeMem S vs (d + vs) := by
  obtain ⟨d₀, hd₀, k, rfl⟩ := h
  exact ⟨d₀, hd₀, k + 1, by push_cast; ring⟩

theorem phiD_mono (S : List ℚ) (vs : ℚ) (hvs : 0 < vs) {d₁ d : ℚ} (h : d₁ ≤ d) :
    phiD S vs d₁ ≤ phiD S vs d := by
  refine List.sum_le_sum fun d₀ _ => ?_
  exact Nat.ceil_mono ((div_le_div_iff_of_pos_right hvs).mpr (by linarith))

theorem phiD_strict (S : List ℚ) (vs : ℚ) (hvs : 0 < vs) {d₁ d : ℚ}
    (hmem : latticeMem S vs d₁) (hlt : d₁ < d) :
    phiD S vs d₁ < phiD S vs d := by
  obtain ⟨d₀, hd₀, k, rfl⟩ := hmem
  refine List.sum_lt_sum _ _
    (fun x _ => Nat.ceil_mono ((div_le_div_iff_of_pos_right hvs).mpr (by linarith))) ⟨d₀, hd₀, ?_⟩
  have h1 : ⌈(d₀ + (k : ℚ) * vs - d₀) / vs⌉₊ = k := by
    have hx : (d₀ + (k : ℚ) * vs - d₀) / vs = (k : ℚ) := by
      field_simp
    rw [hx, Nat.ceil_natCast]
  have h2 : k < ⌈(d - d₀) / vs⌉₊ := by
    rw [Nat.lt_ceil, lt_div_iff₀ hvs]
    linarith
  rw [h1]
  exact h2

theorem sum_map_set_add {α : Type} (f : α → ℕ) (dflt : α) :
    ∀ (l : List α) (i : ℕ) (v : α), i < l.length →
      ((l.set i v).map f).sum + f (l.getD i dflt) = (l.map f).sum + f v := by
  intro l
  induction l with
  | nil =>
    intro i v h
    cases h
  | cons a t ih =>
    intro i v h
    cases i with
    | zero =>
      simp only [List.set, List.map_cons, List.sum_cons, List.getD_cons_zero]
      omega
    | succ n =>
      have hn := ih n v (by simpa using h)
      simp only [List.set, List.map_cons, List.sum_cons, List.getD_cons_succ]
      omega

theorem blkGet_mem {blk : BlockVox} {i : ℕ} (h : i < blk.length) : blkGet blk i ∈ blk := by
  unfold blkGet
  rw [List.getD_eq_getElem?_getD, List.getElem?_eq_getElem h]
  exact List.getElem_mem _

theorem mLe_refl (a : ℕ × ℕ) : mLe a a := Or.inr ⟨rfl, le_refl _⟩

theorem mLe_trans {a b c : ℕ × ℕ} (h1 : mLe a b) (h2 : mLe b c) : mLe a c := by
  unfold mLe at *
  omega

theorem mLt_of_mLt_mLe {a b c : ℕ × ℕ} (h1 : mLt a b) (h2 : mLe b c) : mLt a c := by
  unfold mLt mLe at *
  omega

theorem mLt_of_mLe_mLt {a b c : ℕ × ℕ} (h1 : mLe a b) (h2 : mLt b c) : mLt a c := by
  unfold mLt mLe at *
  omega

theorem mLe_of_mLt {a b : ℕ × ℕ} (h : mLt a b) : mLe a b := by
  unfold mLt mLe at *
  omega

/-! ### C9: per-write measure decrease at the voxel and block level -/

theorem sweepVoxelRule_cases (vs : ℚ) (p c : EsdfVoxel) :
    sweepVoxelRule vs p c = c ∨
    (c.flags.fixed = false ∧ (sweepVoxelRule vs p c).flags.fixed = true ∧
      (sweepVoxelRule vs p c).distance = p.distance + vs) ∨
    (c.flags.fixed = true ∧ (sweepVoxelRule vs p c).flags.fixed = true ∧
      (sweepVoxelRule vs p c).distance = p.distance + vs ∧
      (sweepVoxelRule vs p c).distance < c.distance) := by
  by_cases hp : p.flags.fixed = true
  · by_cases ho : c.flags.observed = true
    · exact Or.inl (sweepVoxelRule_id_of_observed ho)
    · have ho' : c.flags.observed = false := by
        revert ho
        cases c.flags.observed <;> simp
      by_cases hf : c.flags.fixed = true
      · by_cases hlt : p.distance + vs < c.distance
        · refine Or.inr (Or.inr ⟨hf, ?_, ?_, ?_⟩)
          · rw [sweepVoxelRule_overwrite hp ho' hf hlt]
            exact hf
          · rw [sweepVoxelRule_overwrite hp ho' hf hlt]
          · rw [sweepVoxelRule_overwrite hp ho' hf hlt]
            exact hlt
        · exact Or.inl (sweepVoxelRule_id_of_no_improve hf hlt)
      · have hf' : c.flags.fixed = false := by
          revert hf
          cases c.flags.fixed <;> simp
        refine Or.inr (Or.inl ⟨hf', ?_, ?_⟩)
        · rw [sweepVoxelRule_fix hp ho' hf']
        · rw [sweepVoxelRule_fix hp ho' hf']
  · have hp' : p.flags.fixed = false := by
      revert hp
      cases p.flags.fixed <;> simp
    exact Or.inl (sweepVoxelRule_id_of_unfixed_parent hp')

theorem propVoxelRule_cases (vs : ℚ) (p n : EsdfVoxel) :
    propVoxelRule vs p n = (n, false) ∨
    (n.flags.fixed = false ∧ (propVoxelRule vs p n).1.flags.fixed = true ∧
      (propVoxelRule vs p n).1.distance = p.distance + vs ∧ (propVoxelRule vs p n).2 = true) ∨
    (n.flags.fixed = true ∧ (propVoxelRule vs p n).1.flags.fixed = true ∧
      (propVoxelRule vs p n).1.distance = p.distance + vs ∧
      (propVoxelRule vs p n).1.distance < n.distance ∧ (propVoxelRule vs p n).2 = true) := by
  by_cases hp : p.flags.fixed = true
  · by_cases ho : n.flags.observed = true
    · left
      unfold propVoxelRule
      rw [hp, ho]
      rfl
    · have ho' : n.flags.observed = false := by
        revert ho
        cases n.flags.observed <;> simp
      by_cases hf : n.flags.fixed = true
      · by_cases hlt : n.distance > p.distance + vs
        · have hrule : propVoxelRule vs p n =
              ({ n with
                distance := p.distance + vs
                site_block_index := p.site_block_index }, true) := by
            unfold propVoxelRule
            rw [hp, ho', hf]
            simp [hlt]
          rw [hrule]
          exact Or.inr (Or.inr ⟨hf, hf, rfl, hlt, rfl⟩)
        · left
          unfold propVoxelRule
          rw [hp, ho', hf]
          simp [hlt]
      · have hf' : n.flags.fixed = false := by
          revert hf
          cases n.flags.fixed <;> simp
        have hrule : propVoxelRule vs p n =
            ({ n with
              distance := p.distance + vs
              flags := { n.flags with fixed := true }
              site_block_index := p.site_block_index }, true) := by
          unfold propVoxelRule
          rw [hp, ho', hf']
          simp
        rw [hrule]
        exact Or.inr (Or.inl ⟨hf', rfl, rfl, rfl⟩)
  · left
    have hp' : p.flags.fixed = false := by
      revert hp
      cases p.flags.fixed <;> simp
    unfold propVoxelRule
    rw [hp']
    rfl

/-- Measure change caused by a single in-range store. -/
theorem MB_blkSet_lt (S : List ℚ) (vs : ℚ) (hvs : 0 < vs) (blk : BlockVox) (i : ℕ)
    (v' : EsdfVoxel) (hilt : i < blk.length)
    (hcase : ((blkGet blk i).flags.fixed = false ∧ v'.flags.fixed = true) ∨
      ((blkGet blk i).flags.fixed = true ∧ v'.flags.fixed = true ∧
        v'.distance < (blkGet blk i).distance ∧ latticeMem S vs v'.distance)) :
    mLt (MB S vs (blkSet blk i v')) (MB S vs blk) := by
  have hu := sum_map_set_add unfixedW defaultEsdf blk i v' hilt
  have hph := sum_map_set_add (fun v => phiD S vs v.distance) defaultEsdf blk i v' hilt
  have hgd : blk.getD i defaultEsdf = blkGet blk i := rfl
  rw [hgd] at hu hph
  have hph2 : (List.map (fun v => phiD S vs v.distance) (List.set blk i v')).sum
      + phiD S vs (blkGet blk i).distance =
      (List.map (fun v => phiD S vs v.distance) blk).sum + phiD S vs v'.distance := hph
  rcases hcase with ⟨h1, h2⟩ | ⟨h1, h2, h3, h4⟩
  · left
    show unfixedB (blkSet blk i v') < unfixedB blk
    have hw1 : unfixedW (blkGet blk i) = 1 := by
      unfold unfixedW
      rw [h1]
      rfl
    have hw2 : unfixedW v' = 0 := by
      unfold unfixedW
      rw [h2]
      rfl
    unfold unfixedB blkSet
    omega
  · right
    constructor
    · show unfixedB (blkSet blk i v') = unfixedB blk
      have hw1 : unfixedW (blkGet blk i) = 0 := by
        unfold unfixedW
        rw [h1]
        rfl
      have hw2 : unfixedW v' = 0 := by
        unfold unfixedW
        rw [h2]
        rfl
      unfold unfixedB blkSet
      omega
    · show phiB S vs (blkSet blk i v') < phiB S vs blk
      have hphi : phiD S vs v'.distance < phiD S vs (blkGet blk i).distance :=
        phiD_strict S vs hvs h4 h3
      unfold phiB blkSet
      omega

theorem Binv_blkSet (S : List ℚ) (vs : ℚ) (blk : BlockVox) (i : ℕ) (v' : EsdfVoxel)
    (hinv : ∀ x ∈ blk, latticeMem S vs x.distance) (hv' : latticeMem S vs v'.distance) :
    ∀ x ∈ blkSet blk i v', latticeMem S vs x.distance := by
  intro x hx
  rcases List.mem_or_eq_of_mem_set hx with hx' | rfl
  · exact hinv x hx'
  · exact hv'

/-- Fold a measure-nonincreasing, invariant-preserving step. -/
theorem foldl_measure {α : Type} (S : List ℚ) (vs : ℚ) (g : BlockVox → α → BlockVox)
    (P : BlockVox → Prop) (l : List α)
    (hstep : ∀ blk x, x ∈ l → P blk →
      P (g blk x) ∧ mLe (MB S vs (g blk x)) (MB S vs blk)) :
    ∀ blk, P blk → P (l.foldl g blk) ∧ mLe (MB S vs (l.foldl g blk)) (MB S vs blk) := by
  induction l with
  | nil => exact fun blk h => ⟨h, mLe_refl _⟩
  | cons a t ih =>
    intro blk h
    obtain ⟨h1, h2⟩ := hstep blk a (List.mem_cons_self _ _) h
    obtain ⟨h3, h4⟩ := ih (fun blk x hx hb => hstep blk x (List.mem_cons_of_mem _ hx) hb)
      (g blk a) h1
    exact ⟨h3, mLe_trans h4 h2⟩

/-- One sweep cell never increases the measure and preserves well-formedness. -/
theorem sweepCell_measure (S : List ℚ) (vs : ℚ) (hvs : 0 < vs) (step : ℤ)
    (order : ℕ × ℕ × ℕ) (vps : ℕ) (ho : goodOrder order) (blk : BlockVox)
    (hlen : blk.length = vps * vps * vps)
    (hinv : ∀ x ∈ blk, latticeMem S vs x.distance)
    (u v w : ℕ) (hu : u < vps) (hv : v < vps) (hw : w < vps)
    (hpw : ((w : ℤ) - step).toNat < vps) :
    ((sweepCell vs step order vps blk (u, v, w)).length = vps * vps * vps ∧
      ∀ x ∈ sweepCell vs step order vps blk (u, v, w), latticeMem S vs x.distance) ∧
    mLe (MB S vs (sweepCell vs step order vps blk (u, v, w))) (MB S vs blk) := by
  rw [sweepCell_eq]
  have hilt : linIdx vps (mkPos order u v w) < blk.length := by
    rw [hlen]
    have hb := mkPos_bounds ho hu hv hw
    exact linIdx_lt _ _ hb.1 hb.2.1 hb.2.2
  have hplt : linIdx vps (mkPos order u v ((w : ℤ) - step).toNat) < blk.length := by
    rw [hlen]
    have hb := mkPos_bounds ho hu hv hpw
    exact linIdx_lt _ _ hb.1 hb.2.1 hb.2.2
  have hpmem := blkGet_mem hplt
  have hcmem := blkGet_mem hilt
  rcases sweepVoxelRule_cases vs
      (blkGet blk (linIdx vps (mkPos order u v ((w : ℤ) - step).toNat)))
      (blkGet blk (linIdx vps (mkPos order u v w))) with hcase | hcase | hcase
  · rw [hcase, blkSet_self]
    exact ⟨⟨hlen, hinv⟩, mLe_refl _⟩
  · refine ⟨⟨by rw [length_blkSet, hlen], ?_⟩, ?_⟩
    · refine Binv_blkSet S vs blk _ _ hinv ?_
      rw [hcase.2.2]
      exact latticeMem_step (hinv _ hpmem)
    · exact mLe_of_mLt (MB_blkSet_lt S vs hvs blk _ _ hilt (Or.inl ⟨hcase.1, hcase.2.1⟩))
  · refine ⟨⟨by rw [length_blkSet, hlen], ?_⟩, ?_⟩
    · refine Binv_blkSet S vs blk _ _ hinv ?_
      rw [hcase.2.2.1]
      exact latticeMem_step (hinv _ hpmem)
    · refine mLe_of_mLt (MB_blkSet_lt S vs hvs blk _ _ hilt
        (Or.inr ⟨hcase.1, hcase.2.1, hcase.2.2.2, ?_⟩))
      rw [hcase.2.2.1]
      exact latticeMem_step (hinv _ hpmem)

/-- A whole sweep pass never increases the measure. -/
theorem sweepPass_measure (S : List ℚ) (vs : ℚ) (hvs : 0 < vs) (step : ℤ)
    (order : ℕ × ℕ × ℕ) (vps : ℕ) (ho : goodOrder order) (h2 : 2 ≤ vps)
    (hs : step = 1 ∨ step = -1) (blk : BlockVox)
    (hlen : blk.length = vps * vps * vps)
    (hinv : ∀ x ∈ blk, latticeMem S vs x.distance) :
    ((sweepPass vs step order vps blk).length = vps * vps * vps ∧
      ∀ x ∈ sweepPass vs step order vps blk, latticeMem S vs x.distance) ∧
    mLe (MB S vs (sweepPass vs step order vps blk)) (MB S vs blk) := by
  unfold sweepPass
  refine foldl_measure S vs _
    (fun b => b.length = vps * vps * vps ∧ ∀ x ∈ b, latticeMem S vs x.distance)
    (List.range vps) (fun b u hu hb => ?_) blk ⟨hlen, hinv⟩
  refine foldl_measure S vs _
    (fun b => b.length = vps * vps * vps ∧ ∀ x ∈ b, latticeMem S vs x.distance)
    (List.range vps) (fun b' v hv hb' => ?_) b hb
  unfold sweepRow
  refine foldl_measure S vs _
    (fun b => b.length = vps * vps * vps ∧ ∀ x ∈ b, latticeMem S vs x.distance)
    (wRange step vps) (fun b'' w hw hb'' => ?_) b' hb'
  have hwb := wRange_bounds vps h2 step hs w hw
  have := sweepCell_measure S vs hvs step order vps ho b'' hb''.1 hb''.2 u v w
    (List.mem_range.mp hu) (List.mem_range.mp hv) hwb.1 hwb.2
  exact ⟨this.1, this.2⟩

/-! ### C9: layer-level measure bookkeeping -/

theorem layerSet_keys {α : Type} (bs : List (BIdx × α)) (b : BIdx) (blk : α) :
    (layerSet bs b blk).map Prod.fst = bs.map Prod.fst := by
  induction bs with
  | nil => rfl
  | cons p t ih =>
    show ((if p.1 = b then (b, blk) else p) :: layerSet t b blk).map Prod.fst
        = p.1 :: t.map Prod.fst
    rw [List.map_cons, ih]
    by_cases h : p.1 = b
    · rw [if_pos h, h]
    · rw [if_neg h]

theorem layerSet_id_of_not_mem {α : Type} (bs : List (BIdx × α)) (b : BIdx) (blk : α)
    (h : b ∉ bs.map Prod.fst) : layerSet bs b blk = bs := by
  induction bs with
  | nil => rfl
  | cons p t ih =>
    have h1 : p.1 ≠ b := fun hc => h (by simp [hc])
    have h2 : b ∉ t.map Prod.fst := fun hc => h (by simp [hc])
    show (if p.1 = b then (b, blk) else p) :: layerSet t b blk = p :: t
    rw [if_neg h1, ih h2]

theorem mem_layerSet {α : Type} {bs : List (BIdx × α)} {b : BIdx} {blk : α} {q : BIdx × α}
    (h : q ∈ layerSet bs b blk) : q ∈ bs ∨ q = (b, blk) := by
  unfold layerSet at h
  obtain ⟨p, hp, he⟩ := List.mem_map.mp h
  by_cases hc : p.1 = b
  · rw [if_pos hc] at he
    exact Or.inr he.symm
  · rw [if_neg hc] at he
    exact Or.inl (he ▸ hp)

theorem layerFind_mem {α : Type} {bs : List (BIdx × α)} {b : BIdx} {blk : α}
    (h : layerFind bs b = some blk) : (b, blk) ∈ bs := by
  unfold layerFind at h
  cases hf : bs.find? (fun p => decide (p.1 = b)) with
  | none =>
    rw [hf] at h
    exact Option.noConfusion h
  | some p =>
    rw [hf] at h
    have h1 : p.1 = b := by
      have := List.find?_some hf
      simpa using this
    have h2 : p ∈ bs := List.mem_of_find?_eq_some hf
    have h3 : p.2 = blk := Option.some.inj h
    rw [← h1, ← h3]
    exact h2

theorem layerFind_isSome_of_mem_keys {α : Type} {bs : List (BIdx × α)} {b : BIdx}
    (h : b ∈ bs.map Prod.fst) : (layerFind bs b).isSome := by
  obtain ⟨p, hp, he⟩ := List.mem_map.mp h
  unfold layerFind
  cases hf : bs.find? (fun p => decide (p.1 = b)) with
  | none =>
    exfalso
    have := List.find?_eq_none.mp hf p hp
    simp [he] at this
  | some q => rfl

/-- Exchanging one block of a duplicate-free layer exchanges one summand
of any per-block sum. -/
theorem sum_map_layerSet {α : Type} (f : α → ℕ) :
    ∀ (bs : List (BIdx × α)) (b : BIdx) (blk blk₀ : α),
      (bs.map Prod.fst).Nodup → layerFind bs b = some blk₀ →
      ((layerSet bs b blk).map (fun p => f p.2)).sum + f blk₀
        = (bs.map (fun p => f p.2)).sum + f blk := by
  intro bs
  induction bs with
  | nil =>
    intro b blk blk₀ _ hf
    exact absurd hf (by simp [layerFind])
  | cons p t ih =>
    intro b blk blk₀ hnd hf
    rw [List.map_cons, List.nodup_cons] at hnd
    have hcons : layerSet (p :: t) b blk
        = (if p.1 = b then (b, blk) else p) :: layerSet t b blk := rfl
    by_cases hc : p.1 = b
    · have hfind : layerFind (p :: t) b = some p.2 := by
        unfold layerFind
        rw [List.find?_cons_of_pos _ (by simp [hc])]
        rfl
      rw [hfind] at hf
      have hb0 : p.2 = blk₀ := Option.some.inj hf
      have hnt : b ∉ t.map Prod.fst := by
        rw [← hc]
        exact hnd.1
      rw [hcons, if_pos hc, layerSet_id_of_not_mem t b blk hnt,
        List.map_cons, List.sum_cons, List.map_cons, List.sum_cons]
      dsimp only
      rw [hb0]
      omega
    · have hfind : layerFind (p :: t) b = layerFind t b := by
        unfold layerFind
        rw [List.find?_cons_of_neg _ (by simp [hc])]
      rw [hfind] at hf
      have hih := ih b blk blk₀ hnd.2 hf
      rw [hcons, if_neg hc, List.map_cons, List.sum_cons, List.map_cons, List.sum_cons]
      omega

theorem ML_layerSet_le (S : List ℚ) (vs : ℚ) (l : EsdfLayer) (b : BIdx)
    (blk blk₀ : BlockVox) (hnd : (l.blocks.map Prod.fst).Nodup)
    (hf : layerFind l.blocks b = some blk₀)
    (h : mLe (MB S vs blk) (MB S vs blk₀)) :
    mLe (ML S vs { l with blocks := layerSet l.blocks b blk }) (ML S vs l) := by
  have h1 := sum_map_layerSet unfixedB l.blocks b blk blk₀ hnd hf
  have h2 := sum_map_layerSet (phiB S vs) l.blocks b blk blk₀ hnd hf
  unfold mLe MB at h
  unfold mLe ML unfixedL phiL
  dsimp only at h ⊢
  rcases h with h | ⟨ha, hb⟩
  · left
    omega
  · right
    omega

theorem ML_layerSet_lt (S : List ℚ) (vs : ℚ) (l : EsdfLayer) (b : BIdx)
    (blk blk₀ : BlockVox) (hnd : (l.blocks.map Prod.fst).Nodup)
    (hf : layerFind l.blocks b = some blk₀)
    (h : mLt (MB S vs blk) (MB S vs blk₀)) :
    mLt (ML S vs { l with blocks := layerSet l.blocks b blk }) (ML S vs l) := by
  have h1 := sum_map_layerSet unfixedB l.blocks b blk blk₀ hnd hf
  have h2 := sum_map_layerSet (phiB S vs) l.blocks b blk blk₀ hnd hf
  unfold mLt MB at h
  unfold mLt ML unfixedL phiL
  dsimp only at h ⊢
  rcases h with h | ⟨ha, hb⟩
  · left
    omega
  · right
    omega

theorem mem_bsetInsert {d : List BIdx} {i c : BIdx} (h : c ∈ bsetInsert d i) :
    c ∈ d ∨ c = i := by
  induction d with
  | nil => exact Or.inr (by simpa [bsetInsert] using h)
  | cons a rest ih =>
    unfold bsetInsert at h
    by_cases h1 : deco_hash i < deco_hash a
    · rw [if_pos h1] at h
      rcases List.mem_cons.mp h with h2 | h2
      · exact Or.inr h2
      · exact Or.inl h2
    · rw [if_neg h1] at h
      by_cases h2 : deco_hash i = deco_hash a
      · rw [if_pos h2] at h
        exact Or.inl h
      · rw [if_neg h2] at h
        rcases List.mem_cons.mp h with h3 | h3
        · exact Or.inl (by rw [h3]; exact List.mem_cons_self _ _)
        · rcases ih h3 with h4 | h4
          · exact Or.inl (List.mem_cons_of_mem _ h4)
          · exact Or.inr h4

theorem addDirty_mem {d : List BIdx} {o : Option BIdx} {K : List BIdx}
    (hd : ∀ c ∈ d, c ∈ K) (ho : ∀ i, o = some i → i ∈ K) :
    ∀ c ∈ addDirty d o, c ∈ K := by
  cases o with
  | none => exact hd
  | some i =>
    intro c hc
    rcases mem_bsetInsert hc with h | rfl
    · exact hd c h
    · exact ho c rfl

/-- Composing two phase-5 steps: the measure never increases, and if the
dirty set changed then the measure strictly decreased. -/
theorem step_combine {A B C : ℕ × ℕ} {d1 d2 d3 : List BIdx}
    (h12 : mLe B A) (hd12 : d2 = d1 ∨ mLt B A)
    (h23 : mLe C B) (hd23 : d3 = d2 ∨ mLt C B) :
    mLe C A ∧ (d3 = d1 ∨ mLt C A) := by
  refine ⟨mLe_trans h23 h12, ?_⟩
  rcases hd23 with rfl | hlt
  · rcases hd12 with rfl | hlt
    · exact Or.inl rfl
    · exact Or.inr (mLt_of_mLe_mLt h23 hlt)
  · exact Or.inr (mLt_of_mLt_mLe hlt h12)

theorem opStep_pm (dir : OpDir) : opStep dir = 1 ∨ opStep dir = -1 := by
  cases dir <;> simp [opStep]

theorem goodOrder_opOrder (dir : OpDir) : goodOrder (opOrder dir) := by
  cases dir <;> simp [opOrder, goodOrder]

theorem faceNP_bounds (vps : ℕ) (h : 0 < vps) (dir : OpDir) :
    (faceNP vps dir).1 < vps ∧ (faceNP vps dir).2 < vps := by
  cases dir <;> refine ⟨?_, ?_⟩ <;> simp only [faceNP] <;> omega

/-- One face cell of a propagation never increases the block measure; when
it reports a write, the measure strictly decreases. -/
theorem propCell_measure (S : List ℚ) (vs : ℚ) (hvs : 0 < vs) (order : ℕ × ℕ × ℕ)
    (np : ℕ × ℕ) (vps : ℕ) (ho : goodOrder order) (pblk : BlockVox)
    (hplen : pblk.length = vps * vps * vps)
    (hpinv : ∀ x ∈ pblk, latticeMem S vs x.distance)
    (hn1 : np.1 < vps) (hn2 : np.2 < vps)
    (s : BlockVox × Bool) (u v : ℕ) (hc1 : u < vps) (hc2 : v < vps)
    (hs : s.1.length = vps * vps * vps ∧ ∀ x ∈ s.1, latticeMem S vs x.distance) :
    ((propCell vs order np vps pblk s (u, v)).1.length = vps * vps * vps ∧
      ∀ x ∈ (propCell vs order np vps pblk s (u, v)).1, latticeMem S vs x.distance) ∧
    mLe (MB S vs (propCell vs order np vps pblk s (u, v)).1) (MB S vs s.1) ∧
    ((propCell vs order np vps pblk s (u, v)).2 = true →
      s.2 = true ∨ mLt (MB S vs (propCell vs order np vps pblk s (u, v)).1) (MB S vs s.1)) := by
  have hbn := mkPos_bounds ho hc1 hc2 hn1
  have hbp := mkPos_bounds ho hc1 hc2 hn2
  have hnlt : linIdx vps (mkPos order u v np.1) < s.1.length := by
    rw [hs.1]
    exact linIdx_lt _ _ hbn.1 hbn.2.1 hbn.2.2
  have hplt : linIdx vps (mkPos order u v np.2) < pblk.length := by
    rw [hplen]
    exact linIdx_lt _ _ hbp.1 hbp.2.1 hbp.2.2
  have hpmem := blkGet_mem hplt
  rw [propCell_eq]
  rcases propVoxelRule_cases vs (blkGet pblk (linIdx vps (mkPos order u v np.2)))
      (blkGet s.1 (linIdx vps (mkPos order u v np.1))) with hcase | hcase | hcase
  · rw [hcase]
    dsimp only
    rw [blkSet_self, Bool.or_false]
    exact ⟨hs, mLe_refl _, fun hf => Or.inl hf⟩
  · obtain ⟨hnf, hrf, hrd, hr2⟩ := hcase
    dsimp only
    have hlatt : latticeMem S vs
        (propVoxelRule vs (blkGet pblk (linIdx vps (mkPos order u v np.2)))
          (blkGet s.1 (linIdx vps (mkPos order u v np.1)))).1.distance := by
      rw [hrd]
      exact latticeMem_step (hpinv _ hpmem)
    have hmlt := MB_blkSet_lt S vs hvs s.1 (linIdx vps (mkPos order u v np.1))
      (propVoxelRule vs (blkGet pblk (linIdx vps (mkPos order u v np.2)))
        (blkGet s.1 (linIdx vps (mkPos order u v np.1)))).1 hnlt (Or.inl ⟨hnf, hrf⟩)
    refine ⟨⟨?_, ?_⟩, mLe_of_mLt hmlt, fun _ => Or.inr hmlt⟩
    · rw [length_blkSet, hs.1]
    · exact Binv_blkSet S vs s.1 _ _ hs.2 hlatt
  · obtain ⟨hnf, hrf, hrd, hlt2, hr2⟩ := hcase
    dsimp only
    have hlatt : latticeMem S vs
        (propVoxelRule vs (blkGet pblk (linIdx vps (mkPos order u v np.2)))
          (blkGet s.1 (linIdx vps (mkPos order u v np.1)))).1.distance := by
      rw [hrd]
      exact latticeMem_step (hpinv _ hpmem)
    have hmlt := MB_blkSet_lt S vs hvs s.1 (linIdx vps (mkPos order u v np.1))
      (propVoxelRule vs (blkGet pblk (linIdx vps (mkPos order u v np.2)))
        (blkGet s.1 (linIdx vps (mkPos order u v np.1)))).1 hnlt
      (Or.inr ⟨hnf, hrf, hlt2, hlatt⟩)
    refine ⟨⟨?_, ?_⟩, mLe_of_mLt hmlt, fun _ => Or.inr hmlt⟩
    · rw [length_blkSet, hs.1]
    · exact Binv_blkSet S vs s.1 _ _ hs.2 hlatt

/-- Fold a measure-nonincreasing, flag-tracking step over a state carrying
a dirty flag. -/
theorem foldl_flag_measure {α : Type} (S : List ℚ) (vs : ℚ)
    (g : BlockVox × Bool → α → BlockVox × Bool) (P : BlockVox → Prop) (l : List α)
    (hstep : ∀ s x, x ∈ l → P s.1 →
      P (g s x).1 ∧ mLe (MB S vs (g s x).1) (MB S vs s.1) ∧
      ((g s x).2 = true → s.2 = true ∨ mLt (MB S vs (g s x).1) (MB S vs s.1))) :
    ∀ s, P s.1 → P (l.foldl g s).1 ∧ mLe (MB S vs (l.foldl g s).1) (MB S vs s.1) ∧
      ((l.foldl g s).2 = true → s.2 = true ∨ mLt (MB S vs (l.foldl g s).1) (MB S vs s.1)) := by
  induction l with
  | nil => exact fun s h => ⟨h, mLe_refl _, fun hf => Or.inl hf⟩
  | cons a t ih =>
    intro s h
    obtain ⟨h1, h2, h3⟩ := hstep s a (List.mem_cons_self _ _) h
    obtain ⟨h4, h5, h6⟩ := ih (fun s x hx hb => hstep s x (List.mem_cons_of_mem _ hx) hb)
      (g s a) h1
    refine ⟨h4, mLe_trans h5 h2, fun hf => ?_⟩
    rcases h6 hf with hf2 | hlt
    · rcases h3 hf2 with hs2 | hlt2
      · exact Or.inl hs2
      · exact Or.inr (mLt_of_mLe_mLt h5 hlt2)
    · exact Or.inr (mLt_of_mLt_mLe hlt h2)

/-- A whole propagation face pass never increases the neighbor block's
measure, and strictly decreases it whenever it reports a write. -/
theorem propPass_measure (S : List ℚ) (vs : ℚ) (hvs : 0 < vs) (order : ℕ × ℕ × ℕ)
    (np : ℕ × ℕ) (vps : ℕ) (ho : goodOrder order)
    (hn1 : np.1 < vps) (hn2 : np.2 < vps)
    (pblk : BlockVox) (hplen : pblk.length = vps * vps * vps)
    (hpinv : ∀ x ∈ pblk, latticeMem S vs x.distance)
    (nblk : BlockVox) (hnlen : nblk.length = vps * vps * vps)
    (hninv : ∀ x ∈ nblk, latticeMem S vs x.distance) :
    ((propPass vs order np vps pblk nblk).1.length = vps * vps * vps ∧
      ∀ x ∈ (propPass vs order np vps pblk nblk).1, latticeMem S vs x.distance) ∧
    mLe (MB S vs (propPass vs order np vps pblk nblk).1) (MB S vs nblk) ∧
    ((propPass vs order np vps pblk nblk).2 = true →
      mLt (MB S vs (propPass vs order np vps pblk nblk).1) (MB S vs nblk)) := by
  unfold propPass
  have hmain := foldl_flag_measure S vs
    (fun s u => (List.range vps).foldl (fun s v => propCell vs order np vps pblk s (u, v)) s)
    (fun b => b.length = vps * vps * vps ∧ ∀ x ∈ b, latticeMem S vs x.distance)
    (List.range vps)
    (fun s u hu hsp => foldl_flag_measure S vs
      (fun s v => propCell vs order np vps pblk s (u, v))
      (fun b => b.length = vps * vps * vps ∧ ∀ x ∈ b, latticeMem S vs x.distance)
      (List.range vps)
      (fun s' v hv hsp' => propCell_measure S vs hvs order np vps ho pblk hplen hpinv
        hn1 hn2 s' u v (List.mem_range.mp hu) (List.mem_range.mp hv) hsp') s hsp)
    (nblk, false) ⟨hnlen, hninv⟩
  exact ⟨hmain.1, hmain.2.1, fun hf => (hmain.2.2 hf).resolve_left (by simp)⟩

theorem propagate_eq_skip (vps : ℕ) (dir : OpDir) (b : BIdx) (l : EsdfLayer)
    (h : layerFind l.blocks (nbIdx dir b) = none) :
    propagate_to_neighbour vps dir b l = some (l, none) := by
  unfold propagate_to_neighbour
  simp only [h]

theorem propagate_eq_run (vps : ℕ) (dir : OpDir) (b : BIdx) (l : EsdfLayer)
    (nblk pblk : BlockVox) (hn : layerFind l.blocks (nbIdx dir b) = some nblk)
    (hp : layerFind l.blocks b = some pblk) :
    propagate_to_neighbour vps dir b l =
      some ((⟨l.voxelSize, layerSet l.blocks (nbIdx dir b)
          (propPass l.voxelSize (opOrder dir) (faceNP vps dir) vps pblk nblk).1⟩ :
            EsdfLayer),
        if (propPass l.voxelSize (opOrder dir) (faceNP vps dir) vps pblk nblk).2
          then some (nbIdx dir b) else none) := by
  unfold propagate_to_neighbour
  simp only [hn, hp]

/-- One call of `propagate_to_neighbour` from an allocated pivot succeeds,
preserves well-formedness and the key set, never increases the layer
measure, and strictly decreases it whenever it reports a dirty
neighbor, which is itself allocated. -/
theorem propagate_measure (S : List ℚ) (vs : ℚ) (hvs : 0 < vs) (vps : ℕ) (h2 : 2 ≤ vps)
    (dir : OpDir) (b : BIdx) (l : EsdfLayer) (hg : GoodL vps S vs l)
    (hb : b ∈ l.blocks.map Prod.fst) :
    ∃ l' o, propagate_to_neighbour vps dir b l = some (l', o) ∧
      GoodL vps S vs l' ∧ l'.blocks.map Prod.fst = l.blocks.map Prod.fst ∧
      mLe (ML S vs l') (ML S vs l) ∧
      (o.isSome → mLt (ML S vs l') (ML S vs l)) ∧
      (∀ i, o = some i → i ∈ l.blocks.map Prod.fst) := by
  obtain ⟨hvsz, hnd, hlen, hinv⟩ := hg
  cases hfn : layerFind l.blocks (nbIdx dir b) with
  | none =>
    refine ⟨l, none, propagate_eq_skip vps dir b l hfn, ⟨hvsz, hnd, hlen, hinv⟩, rfl,
      mLe_refl _, fun h => absurd h (by simp), fun i hi => Option.noConfusion hi⟩
  | some nblk =>
    cases hfp : layerFind l.blocks b with
    | none =>
      exfalso
      have := layerFind_isSome_of_mem_keys hb
      rw [hfp] at this
      exact absurd this (by simp)
    | some pblk =>
      have heq := propagate_eq_run vps dir b l nblk pblk hfn hfp
      rw [hvsz] at heq
      have hnmem := layerFind_mem hfn
      have hpmem := layerFind_mem hfp
      obtain ⟨⟨hrlen, hrinv⟩, hrle, hrlt⟩ := propPass_measure S vs hvs (opOrder dir)
        (faceNP vps dir) vps (goodOrder_opOrder dir)
        (faceNP_bounds vps (by omega) dir).1 (faceNP_bounds vps (by omega) dir).2
        pblk (hlen _ hpmem) (hinv _ hpmem) nblk (hlen _ hnmem) (hinv _ hnmem)
      have hnkey : nbIdx dir b ∈ l.blocks.map Prod.fst :=
        List.mem_map.mpr ⟨(nbIdx dir b, nblk), hnmem, rfl⟩
      have hgood : GoodL vps S vs ⟨vs, layerSet l.blocks (nbIdx dir b)
          (propPass vs (opOrder dir) (faceNP vps dir) vps pblk nblk).1⟩ := by
        refine ⟨rfl, ?_, ?_, ?_⟩
        · show ((layerSet l.blocks (nbIdx dir b)
            (propPass vs (opOrder dir) (faceNP vps dir) vps pblk nblk).1).map Prod.fst).Nodup
          rw [layerSet_keys]
          exact hnd
        · intro p hp
          rcases mem_layerSet hp with h | rfl
          · exact hlen p h
          · exact hrlen
        · intro p hp
          rcases mem_layerSet hp with h | rfl
          · exact hinv p h
          · exact hrinv
      cases hb2 : (propPass vs (opOrder dir) (faceNP vps dir) vps pblk nblk).2 with
      | false =>
        refine ⟨⟨vs, layerSet l.blocks (nbIdx dir b)
            (propPass vs (opOrder dir) (faceNP vps dir) vps pblk nblk).1⟩, none,
          ?_, hgood, layerSet_keys _ _ _,
          ML_layerSet_le S vs l (nbIdx dir b) _ nblk hnd hfn hrle,
          fun h => absurd h (by simp), fun i hi => Option.noConfusion hi⟩
        rw [heq, hb2]
        simp
      | true =>
        refine ⟨⟨vs, layerSet l.blocks (nbIdx dir b)
            (propPass vs (opOrder dir) (faceNP vps dir) vps pblk nblk).1⟩,
          some (nbIdx dir b),
          ?_, hgood, layerSet_keys _ _ _,
          ML_layerSet_le S vs l (nbIdx dir b) _ nblk hnd hfn hrle,
          fun _ => ML_layerSet_lt S vs l (nbIdx dir b) _ nblk hnd hfn (hrlt hb2),
          fun i hi => by rw [← Option.some.inj hi]; exact hnkey⟩
        rw [heq, hb2]
        simp

/-- One `sweep_block` call on an allocated block succeeds, preserves
well-formedness and the key set, and never increases the layer measure. -/
theorem sweep_block_measure (S : List ℚ) (vs : ℚ) (hvs : 0 < vs) (vps : ℕ) (h2 : 2 ≤ vps)
    (dir : OpDir) (b : BIdx) (l : EsdfLayer) (hg : GoodL vps S vs l)
    (hb : b ∈ l.blocks.map Prod.fst) :
    ∃ l', sweep_block vps dir b l = some l' ∧ GoodL vps S vs l' ∧
      l'.blocks.map Prod.fst = l.blocks.map Prod.fst ∧ mLe (ML S vs l') (ML S vs l) := by
  obtain ⟨hvsz, hnd, hlen, hinv⟩ := hg
  cases hf : layerFind l.blocks b with
  | none =>
    exfalso
    have := layerFind_isSome_of_mem_keys hb
    rw [hf] at this
    exact absurd this (by simp)
  | some blk =>
    have heq := sweep_block_found vps dir b l blk hf
    rw [hvsz] at heq
    have hmem := layerFind_mem hf
    obtain ⟨⟨hslen, hsinv⟩, hsle⟩ := sweepPass_measure S vs hvs (opStep dir) (opOrder dir)
      vps (goodOrder_opOrder dir) h2 (opStep_pm dir) blk (hlen _ hmem) (hinv _ hmem)
    refine ⟨⟨vs, layerSet l.blocks b (sweepPass vs (opStep dir) (opOrder dir) vps blk)⟩,
      heq, ⟨rfl, ?_, ?_, ?_⟩, layerSet_keys _ _ _,
      ML_layerSet_le S vs l b _ blk hnd hf hsle⟩
    · show ((layerSet l.blocks b
        (sweepPass vs (opStep dir) (opOrder dir) vps blk)).map Prod.fst).Nodup
      rw [layerSet_keys]
      exact hnd
    · intro p hp
      rcases mem_layerSet hp with h | rfl
      · exact hlen p h
      · exact hslen
    · intro p hp
      rcases mem_layerSet hp with h | rfl
      · exact hinv p h
      · exact hsinv

/-- Sweeping every dirty block succeeds when all dirty blocks are
allocated, preserves well-formedness and the key set, and never increases
the layer measure. -/
theorem sweepAll_measure (S : List ℚ) (vs : ℚ) (hvs : 0 < vs) (vps : ℕ) (h2 : 2 ≤ vps) :
    ∀ (ds : List BIdx) (l : EsdfLayer), GoodL vps S vs l →
      (∀ b ∈ ds, b ∈ l.blocks.map Prod.fst) →
      ∃ l', sweepAll vps ds l = some l' ∧ GoodL vps S vs l' ∧
        l'.blocks.map Prod.fst = l.blocks.map Prod.fst ∧ mLe (ML S vs l') (ML S vs l) := by
  intro ds
  induction ds with
  | nil => exact fun l hg _ => ⟨l, rfl, hg, rfl, mLe_refl _⟩
  | cons b rest ih =>
    intro l hg hds
    have hb : b ∈ l.blocks.map Prod.fst := hds b (List.mem_cons_self _ _)
    obtain ⟨l1, he1, hg1, hk1, hm1⟩ :=
      sweep_block_measure S vs hvs vps h2 .xPlus b l hg hb
    obtain ⟨l2, he2, hg2, hk2, hm2⟩ :=
      sweep_block_measure S vs hvs vps h2 .xMinus b l1 hg1 (by rw [hk1]; exact hb)
    obtain ⟨l3, he3, hg3, hk3, hm3⟩ :=
      sweep_block_measure S vs hvs vps h2 .yPlus b l2 hg2 (by rw [hk2, hk1]; exact hb)
    obtain ⟨l4, he4, hg4, hk4, hm4⟩ :=
      sweep_block_measure S vs hvs vps h2 .yMinus b l3 hg3 (by rw [hk3, hk2, hk1]; exact hb)
    obtain ⟨l', he', hg', hk', hm'⟩ := ih l4 hg4
      (fun c hc => by rw [hk4, hk3, hk2, hk1]; exact hds c (List.mem_cons_of_mem _ hc))
    have hstep : sweepAll vps (b :: rest) l =
        Option.bind (sweep_block vps OpDir.xPlus b l) (fun la =>
          Option.bind (sweep_block vps OpDir.xMinus b la) (fun lb =>
            Option.bind (sweep_block vps OpDir.yPlus b lb) (fun lc =>
              Option.bind (sweep_block vps OpDir.yMinus b lc) (fun ld =>
                sweepAll vps rest ld)))) := rfl
    refine ⟨l', ?_, hg', by rw [hk', hk4, hk3, hk2, hk1],
      mLe_trans hm' (mLe_trans hm4 (mLe_trans hm3 (mLe_trans hm2 hm1)))⟩
    rw [hstep]
    simp only [he1, he2, he3, he4, Option.some_bind]
    exact he'

/-- Propagating from every dirty block succeeds when all dirty blocks are
allocated; the collected next dirty set consists of allocated blocks, the
measure never increases, and unless the dirty accumulator is returned
unchanged the measure strictly decreases. -/
theorem propagateAll_measure (S : List ℚ) (vs : ℚ) (hvs : 0 < vs) (vps : ℕ)
    (h2 : 2 ≤ vps) :
    ∀ (ds : List BIdx) (l : EsdfLayer) (dirty : List BIdx), GoodL vps S vs l →
      (∀ b ∈ ds, b ∈ l.blocks.map Prod.fst) →
      (∀ b ∈ dirty, b ∈ l.blocks.map Prod.fst) →
      ∃ l' d', propagateAll vps ds l dirty = some (l', d') ∧ GoodL vps S vs l' ∧
        l'.blocks.map Prod.fst = l.blocks.map Prod.fst ∧
        (∀ b ∈ d', b ∈ l'.blocks.map Prod.fst) ∧
        mLe (ML S vs l') (ML S vs l) ∧ (d' = dirty ∨ mLt (ML S vs l') (ML S vs l)) := by
  intro ds
  induction ds with
  | nil =>
    intro l dirty hg _ hdirty
    exact ⟨l, dirty, rfl, hg, rfl, hdirty, mLe_refl _, Or.inl rfl⟩
  | cons b rest ih =>
    intro l dirty hg hds hdirty
    have hb : b ∈ l.blocks.map Prod.fst := hds b (List.mem_cons_self _ _)
    obtain ⟨l1, o1, he1, hg1, hk1, hm1, hs1, hmo1⟩ :=
      propagate_measure S vs hvs vps h2 .xPlus b l hg hb
    obtain ⟨l2, o2, he2, hg2, hk2, hm2, hs2, hmo2⟩ :=
      propagate_measure S vs hvs vps h2 .xMinus b l1 hg1 (by rw [hk1]; exact hb)
    obtain ⟨l3, o3, he3, hg3, hk3, hm3, hs3, hmo3⟩ :=
      propagate_measure S vs hvs vps h2 .yPlus b l2 hg2 (by rw [hk2, hk1]; exact hb)
    obtain ⟨l4, o4, he4, hg4, hk4, hm4, hs4, hmo4⟩ :=
      propagate_measure S vs hvs vps h2 .yMinus b l3 hg3 (by rw [hk3, hk2, hk1]; exact hb)
    have hd1 : ∀ c ∈ addDirty dirty o1, c ∈ l.blocks.map Prod.fst :=
      addDirty_mem hdirty hmo1
    have hd2 : ∀ c ∈ addDirty (addDirty dirty o1) o2, c ∈ l.blocks.map Prod.fst :=
      addDirty_mem hd1 (fun i hi => hk1 ▸ hmo2 i hi)
    have hd3 : ∀ c ∈ addDirty (addDirty (addDirty dirty o1) o2) o3,
        c ∈ l.blocks.map Prod.fst :=
      addDirty_mem hd2 (fun i hi => hk1 ▸ hk2 ▸ hmo3 i hi)
    have hd4 : ∀ c ∈ addDirty (addDirty (addDirty (addDirty dirty o1) o2) o3) o4,
        c ∈ l.blocks.map Prod.fst :=
      addDirty_mem hd3 (fun i hi => hk1 ▸ hk2 ▸ hk3 ▸ hmo4 i hi)
    obtain ⟨l', d', he', hg', hk', hd', hm', hdisj'⟩ := ih l4
      (addDirty (addDirty (addDirty (addDirty dirty o1) o2) o3) o4) hg4
      (fun c hc => by
        rw [hk4, hk3, hk2, hk1]
        exact hds c (List.mem_cons_of_mem _ hc))
      (fun c hc => by rw [hk4, hk3, hk2, hk1]; exact hd4 c hc)
    have s1 : mLe (ML S vs l1) (ML S vs l) ∧
        (addDirty dirty o1 = dirty ∨ mLt (ML S vs l1) (ML S vs l)) := by
      refine ⟨hm1, ?_⟩
      cases o1 with
      | none => exact Or.inl rfl
      | some i => exact Or.inr (hs1 rfl)
    have s2 : mLe (ML S vs l2) (ML S vs l1) ∧
        (addDirty (addDirty dirty o1) o2 = addDirty dirty o1 ∨
          mLt (ML S vs l2) (ML S vs l1)) := by
      refine ⟨hm2, ?_⟩
      cases o2 with
      | none => exact Or.inl rfl
      | some i => exact Or.inr (hs2 rfl)
    have s3 : mLe (ML S vs l3) (ML S vs l2) ∧
        (addDirty (addDirty (addDirty dirty o1) o2) o3
            = addDirty (addDirty dirty o1) o2 ∨
          mLt (ML S vs l3) (ML S vs l2)) := by
      refine ⟨hm3, ?_⟩
      cases o3 with
      | none => exact Or.inl rfl
      | some i => exact Or.inr (hs3 rfl)
    have s4 : mLe (ML S vs l4) (ML S vs l3) ∧
        (addDirty (addDirty (addDirty (addDirty dirty o1) o2) o3) o4
            = addDirty (addDirty (addDirty dirty o1) o2) o3 ∨
          mLt (ML S vs l4) (ML S vs l3)) := by
      refine ⟨hm4, ?_⟩
      cases o4 with
      | none => exact Or.inl rfl
      | some i => exact Or.inr (hs4 rfl)
    have c2 := step_combine s1.1 s1.2 s2.1 s2.2
    have c3 := step_combine c2.1 c2.2 s3.1 s3.2
    have c4 := step_combine c3.1 c3.2 s4.1 s4.2
    have cf := step_combine c4.1 c4.2 hm' hdisj'
    have hstep : propagateAll vps (b :: rest) l dirty =
        Option.bind (propagate_to_neighbour vps OpDir.xPlus b l) (fun r1 =>
          Option.bind (propagate_to_neighbour vps OpDir.xMinus b r1.1) (fun r2 =>
            Option.bind (propagate_to_neighbour vps OpDir.yPlus b r2.1) (fun r3 =>
              Option.bind (propagate_to_neighbour vps OpDir.yMinus b r3.1) (fun r4 =>
                propagateAll vps rest r4.1
                  (addDirty (addDirty (addDirty (addDirty dirty r1.2) r2.2) r3.2)
                    r4.2))))) := rfl
    refine ⟨l', d', ?_, hg', by rw [hk', hk4, hk3, hk2, hk1], hd', cf.1, cf.2⟩
    rw [hstep]
    simp only [he1, he2, he3, he4, Option.some_bind]
    exact he'

/-- One iteration of the phase-5 outer loop rewrites to the loop on a new
layer and dirty set; the new dirty set is empty or the measure strictly
decreased. -/
theorem phase5_step (S : List ℚ) (vs : ℚ) (hvs : 0 < vs) (vps : ℕ) (h2 : 2 ≤ vps)
    (b : BIdx) (rest : List BIdx) (l : EsdfLayer) (hg : GoodL vps S vs l)
    (hds : ∀ c ∈ b :: rest, c ∈ l.blocks.map Prod.fst) :
    ∃ l₂ d₂, (∀ fuel, phase5 vps (fuel + 1) (b :: rest) l = phase5 vps fuel d₂ l₂) ∧
      GoodL vps S vs l₂ ∧ l₂.blocks.map Prod.fst = l.blocks.map Prod.fst ∧
      (∀ c ∈ d₂, c ∈ l₂.blocks.map Prod.fst) ∧
      (d₂ = [] ∨ mLt (ML S vs l₂) (ML S vs l)) := by
  obtain ⟨l1, he1, hg1, hk1, hm1⟩ := sweepAll_measure S vs hvs vps h2 (b :: rest) l hg hds
  obtain ⟨l2, d2, he2, hg2, hk2, hd2, hm2, hdisj⟩ := propagateAll_measure S vs hvs vps h2
    (b :: rest) l1 [] hg1 (fun c hc => by rw [hk1]; exact hds c hc) (by simp)
  have hstep : ∀ fuel, phase5 vps (fuel + 1) (b :: rest) l =
      Option.bind (sweepAll vps (b :: rest) l) (fun l1 =>
        Option.bind (propagateAll vps (b :: rest) l1 []) (fun r =>
          phase5 vps fuel r.2 r.1)) := fun fuel => rfl
  refine ⟨l2, d2, fun fuel => ?_, hg2, by rw [hk2, hk1], hd2, ?_⟩
  · rw [hstep fuel]
    simp only [he1, he2, Option.some_bind]
  · rcases hdisj with h | h
    · exact Or.inl h
    · exact Or.inr (mLt_of_mLt_mLe h hm1)

/-- The phase-5 loop terminates for every well-formed finite input: a
nested induction on the layer measure (unfixed-voxel count, then lattice
potential) produces sufficient fuel. -/
theorem phase5_total (S : List ℚ) (vs : ℚ) (hvs : 0 < vs) (vps : ℕ) (h2 : 2 ≤ vps)
    (n₁ n₂ : ℕ) :
    ∀ (l : EsdfLayer) (ds : List BIdx), GoodL vps S vs l →
      (∀ b ∈ ds, b ∈ l.blocks.map Prod.fst) →
      unfixedL l ≤ n₁ → (unfixedL l = n₁ → phiL S vs l ≤ n₂) →
      ∃ fuel l', phase5 vps fuel ds l = some l' := by
  induction n₁ generalizing n₂ with
  | zero =>
    induction n₂ with
    | zero =>
      intro l ds hg hds hle hphi
      rcases ds with _ | ⟨b, rest⟩
      · exact ⟨0, l, rfl⟩
      · obtain ⟨l₂, d₂, heq, hg₂, hk₂, hd₂, hdisj⟩ :=
          phase5_step S vs hvs vps h2 b rest l hg hds
        rcases hdisj with rfl | hlt
        · exact ⟨1, l₂, (heq 0).trans rfl⟩
        · exfalso
          have hb : phiL S vs l ≤ 0 := hphi (by omega)
          have hlt2 : unfixedL l₂ < unfixedL l ∨
              (unfixedL l₂ = unfixedL l ∧ phiL S vs l₂ < phiL S vs l) := hlt
          rcases hlt2 with h1 | ⟨h1, hp⟩
          · omega
          · omega
    | succ k ihk =>
      intro l ds hg hds hle hphi
      rcases ds with _ | ⟨b, rest⟩
      · exact ⟨0, l, rfl⟩
      · obtain ⟨l₂, d₂, heq, hg₂, hk₂, hd₂, hdisj⟩ :=
          phase5_step S vs hvs vps h2 b rest l hg hds
        rcases hdisj with rfl | hlt
        · exact ⟨1, l₂, (heq 0).trans rfl⟩
        · have hlt2 : unfixedL l₂ < unfixedL l ∨
              (unfixedL l₂ = unfixedL l ∧ phiL S vs l₂ < phiL S vs l) := hlt
          rcases hlt2 with h1 | ⟨h1, hp⟩
          · exfalso
            omega
          · have hb : phiL S vs l ≤ k + 1 := hphi (by omega)
            obtain ⟨fuel, l', he⟩ := ihk l₂ d₂ hg₂ hd₂ (by omega) (fun _ => by omega)
            exact ⟨fuel + 1, l', (heq fuel).trans he⟩
  | succ m ihm =>
    induction n₂ with
    | zero =>
      intro l ds hg hds hle hphi
      rcases ds with _ | ⟨b, rest⟩
      · exact ⟨0, l, rfl⟩
      · obtain ⟨l₂, d₂, heq, hg₂, hk₂, hd₂, hdisj⟩ :=
          phase5_step S vs hvs vps h2 b rest l hg hds
        rcases hdisj with rfl | hlt
        · exact ⟨1, l₂, (heq 0).trans rfl⟩
        · have hlt2 : unfixedL l₂ < unfixedL l ∨
              (unfixedL l₂ = unfixedL l ∧ phiL S vs l₂ < phiL S vs l) := hlt
          rcases hlt2 with h1 | ⟨h1, hp⟩
          · obtain ⟨fuel, l', he⟩ := ihm (phiL S vs l₂) l₂ d₂ hg₂ hd₂ (by omega)
              (fun _ => le_refl _)
            exact ⟨fuel + 1, l', (heq fuel).trans he⟩
          · by_cases hcase : unfixedL l = m + 1
            · exfalso
              have hb : phiL S vs l ≤ 0 := hphi hcase
              omega
            · obtain ⟨fuel, l', he⟩ := ihm (phiL S vs l₂) l₂ d₂ hg₂ hd₂ (by omega)
                (fun _ => le_refl _)
              exact ⟨fuel + 1, l', (heq fuel).trans he⟩
    | succ k ihk =>
      intro l ds hg hds hle hphi
      rcases ds with _ | ⟨b, rest⟩
      · exact ⟨0, l, rfl⟩
      · obtain ⟨l₂, d₂, heq, hg₂, hk₂, hd₂, hdisj⟩ :=
          phase5_step S vs hvs vps h2 b rest l hg hds
        rcases hdisj with rfl | hlt
        · exact ⟨1, l₂, (heq 0).trans rfl⟩
        · have hlt2 : unfixedL l₂ < unfixedL l ∨
              (unfixedL l₂ = unfixedL l ∧ phiL S vs l₂ < phiL S vs l) := hlt
          rcases hlt2 with h1 | ⟨h1, hp⟩
          · obtain ⟨fuel, l', he⟩ := ihm (phiL S vs l₂) l₂ d₂ hg₂ hd₂ (by omega)
              (fun _ => le_refl _)
            exact ⟨fuel + 1, l', (heq fuel).trans he⟩
          · by_cases hcase : unfixedL l = m + 1
            · have hb : phiL S vs l ≤ k + 1 := hphi hcase
              obtain ⟨fuel, l', he⟩ := ihk l₂ d₂ hg₂ hd₂ (by omega) (fun _ => by omega)
              exact ⟨fuel + 1, l', (heq fuel).trans he⟩
            · obtain ⟨fuel, l', he⟩ := ihm (phiL S vs l₂) l₂ d₂ hg₂ hd₂ (by omega)
                (fun _ => le_refl _)
              exact ⟨fuel + 1, l', (heq fuel).trans he⟩

/-- **C9.** The phase-5 outer loop of `update_blocks` (sweep all dirty
blocks, then propagate, collecting newly dirty blocks) terminates on every
finite input: for any layer with finitely many allocated blocks (positive
voxel size, duplicate-free keys, full-size blocks) and any dirty set of
allocated blocks, some fuel makes `phase5` return `some`.  The proof uses
the potential argument of the spec: every write strictly decreases the
lexicographic measure (unfixed-voxel count, lattice potential), distances
live on the discrete lattice generated by the initially stored distances
shifted by multiples of `voxel_size`, and the total potential is finite. -/
theorem C9_phase5_terminates (vps : ℕ) (h2 : 2 ≤ vps) (l : EsdfLayer) (ds : List BIdx)
    (hvs : 0 < l.voxelSize) (hnd : (l.blocks.map Prod.fst).Nodup)
    (hlen : ∀ p ∈ l.blocks, (p.2 : BlockVox).length = vps * vps * vps)
    (hds : ∀ b ∈ ds, b ∈ l.blocks.map Prod.fst) :
    ∃ fuel l', phase5 vps fuel ds l = some l' := by
  have hg : GoodL vps (distsL l) l.voxelSize l := by
    refine ⟨rfl, hnd, hlen, fun p hp v hv => ?_⟩
    refine ⟨v.distance, ?_, 0, by push_cast; ring⟩
    exact List.mem_flatMap.mpr ⟨p, hp, List.mem_map.mpr ⟨v, hv, rfl⟩⟩
  exact phase5_total (distsL l) l.voxelSize hvs vps h2
    (unfixedL l) (phiL (distsL l) l.voxelSize l) l ds hg hds (le_refl _) (fun _ => le_refl _)

/-- **C9 (witness).** Concrete instance: a single default block at the
origin with `VPS = 2`, voxel size 1 and the origin dirty. -/
theorem C9_phase5_terminates_witness :
    ∃ fuel l', phase5 2 fuel [zB] ⟨1, [(zB, defaultEsdfBlock 2)]⟩ = some l' :=
  C9_phase5_terminates 2 (by decide) ⟨1, [(zB, defaultEsdfBlock 2)]⟩ [zB]
    (by with_unfolding_all decide) (by decide) (by decide) (by decide)

end EsdfVis
